import Mathlib

/-!
# Chronos report service: aggregation and layout arithmetic

A shallow embedding of the pure parts of the report routes
(`src/routes/horario-general.js`, `src/routes/propuesta-pdf.js`,
`src/routes/propuesta-pdf-helper.js`) together with the properties proved
about them.

Modelling conventions

* JavaScript field values are `JSVal`; numbers stored in records are integers
  (`Int`). The hours of `formatHorariosProfesores` are added in two ways:
  exactly (`formatStep`) and in binary64 (`formatStep64`); the two runs agree
  while the hours stay within `2 ^ 53` in absolute value
  (`formatHorariosProfesores64_eq`).
* Lengths on the drawing surface are rationals (`ℚ`); `Math.round` is
  `⌊x + 1/2⌋`.
* The built-ins that depend on the numeric-literal grammar and on the Unicode
  tables (`Number` applied to a string, `toUpperCase().normalize("NFD")`) are
  fields of a `JSRuntime`; every theorem holds for every runtime.
* A JavaScript `Map` is an insertion-ordered association list.
* A `TypeError` is the result `none`.
-/

namespace Chronos

/-! ## JavaScript values -/

/-- JSON-like field value of a stored record. -/
inductive JSVal where
  | undefined
  | null
  | bool (b : Bool)
  | num (n : Int)
  | str (s : String)
  deriving DecidableEq, Repr

/-- Built-ins taken as parameters. -/
structure JSRuntime where
  /-- `Number(s)` for a string `s`; `none` stands for `NaN` and the infinities. -/
  Number : String → Option Int
  /-- `s.toUpperCase().normalize("NFD")`. -/
  upperNFD : String → String
  /-- `s.toLowerCase().normalize("NFD")`. -/
  lowerNFD : String → String
  /-- `s.normalize("NFD")`. -/
  normalizeNFD : String → String
  /-- `a.localeCompare(b, "es")`. -/
  localeCompare : String → String → Int

/-- White space and line terminators removed by `String.prototype.trim`. -/
def isJsWhitespace (c : Char) : Bool :=
  let n := c.toNat
  n == 0x09 || n == 0x0A || n == 0x0B || n == 0x0C || n == 0x0D || n == 0x20 ||
  n == 0xA0 || n == 0x1680 || (0x2000 ≤ n && n ≤ 0x200A) || n == 0x2028 ||
  n == 0x2029 || n == 0x202F || n == 0x205F || n == 0x3000 || n == 0xFEFF

/-- `s.trim()`. -/
def jsTrim (s : String) : String :=
  ⟨((s.data.dropWhile isJsWhitespace).reverse.dropWhile isJsWhitespace).reverse⟩

/-- Decimal digits of a natural number, most significant first, with `fuel`
bounding the number of digits. -/
def natDigits : Nat → Nat → List Char
  | 0, _ => []
  | fuel + 1, n =>
    if n < 10 then [Char.ofNat (48 + n)]
    else natDigits fuel (n / 10) ++ [Char.ofNat (48 + n % 10)]

/-- `String(n)` for an integer `n`. -/
def intToStr (n : Int) : String :=
  match n with
  | Int.ofNat m => ⟨natDigits (m + 1) m⟩
  | Int.negSucc m => ⟨'-' :: natDigits (m + 2) (m + 1)⟩

namespace JSVal

/-- `String(v)` and `v.toString()` where the latter is defined. -/
def toStr : JSVal → String
  | undefined => "undefined"
  | null => "null"
  | bool true => "true"
  | bool false => "false"
  | num n => intToStr n
  | str s => s

/-- `v == null`: the value is `null` or `undefined`. -/
def isNullish : JSVal → Bool
  | undefined => true
  | null => true
  | _ => false

/-- `a ?? b`. -/
def orElse (a b : JSVal) : JSVal :=
  if a.isNullish then b else a

/-- `Number(v)`; `none` stands for `NaN`. -/
def toNumber (rt : JSRuntime) : JSVal → Option Int
  | undefined => none
  | null => some 0
  | bool true => some 1
  | bool false => some 0
  | num n => some n
  | str s => rt.Number s

end JSVal

/-- A runtime for evaluating examples: `Number` reads optionally signed
decimal integer literals (the empty string is `0`, anything else is `NaN`),
the change of case is that of the ASCII letters, no character decomposes and
strings are compared by code point. -/
def asciiRuntime : JSRuntime where
  Number := fun s =>
    let t := (jsTrim s).data
    let digits : List Char → Option Int := fun ds =>
      if ds ≠ [] ∧ ds.all Char.isDigit then
        some (ds.foldl (fun (a : Int) c => a * 10 + ((c.toNat - 48 : Nat) : Int)) 0)
      else none
    match t with
    | [] => some 0
    | '-' :: ds => (digits ds).map (fun n => -n)
    | '+' :: ds => digits ds
    | ds => digits ds
  upperNFD := fun s => ⟨s.data.map Char.toUpper⟩
  lowerNFD := fun s => ⟨s.data.map Char.toLower⟩
  normalizeNFD := fun s => s
  localeCompare := fun a b =>
    let rec cmp : List Char → List Char → Int
      | [], [] => 0
      | [], _ :: _ => -1
      | _ :: _, [] => 1
      | x :: xs, y :: ys => if x.toNat < y.toNat then -1 else if y.toNat < x.toNat then 1 else cmp xs ys
    cmp a.data b.data

/-! ## Insertion-ordered maps with string keys -/

/-- `m.has(k)`. -/
def mapHas {β : Type} (m : List (String × β)) (k : String) : Bool :=
  m.any (fun e => e.1 == k)

/-- `m.get(k)`; `none` stands for `undefined`. -/
def mapGet {β : Type} (m : List (String × β)) (k : String) : Option β :=
  (m.find? (fun e => e.1 == k)).map (fun e => e.2)

/-- `m.set(k, v)`: an existing key keeps its place, a new key goes last. -/
def mapSet {β : Type} (m : List (String × β)) (k : String) (v : β) : List (String × β) :=
  if mapHas m k then m.map (fun e => if e.1 == k then (k, v) else e) else m ++ [(k, v)]

/-- `Array.from(m.values())`. -/
def mapValues {β : Type} (m : List (String × β)) : List β :=
  m.map (fun e => e.2)

/-- `xs.indexOf(x)`: the first index holding `x`, or `-1`. -/
def jsIndexOf (xs : List String) (x : String) : Int :=
  match xs with
  | [] => -1
  | y :: ys =>
    if y = x then 0
    else
      let i := jsIndexOf ys x
      if i = -1 then -1 else i + 1

/-! ## Stored records -/

/-- An assignment record of `chronos:horarios`. -/
structure Horario where
  profesor : JSVal := .undefined
  rfc : JSVal := .undefined
  numTrabajador : JSVal := .undefined
  carrera : JSVal := .undefined
  categoria : JSVal := .undefined
  tipo : JSVal := .undefined
  causa : JSVal := .undefined
  diaIni : JSVal := .undefined
  mesIni : JSVal := .undefined
  anoIni : JSVal := .undefined
  diaFin : JSVal := .undefined
  mesFin : JSVal := .undefined
  anoFin : JSVal := .undefined
  horasTeoricas : JSVal := .undefined
  horasTeoricasTotal : JSVal := .undefined
  horasPracticas : JSVal := .undefined
  horasPracticasTotal : JSVal := .undefined
  horasTotal : JSVal := .undefined
  planEstudios : JSVal := .undefined
  cveAsignatura : JSVal := .undefined
  claveAsignatura : JSVal := .undefined
  nombreAsignatura : JSVal := .undefined
  grupo : JSVal := .undefined
  horario : JSVal := .undefined
  salon : JSVal := .undefined
  observaciones : JSVal := .undefined
  deriving DecidableEq, Repr

/-- A roster entry of `chronos:profesores`. -/
structure Profesor where
  profesor : JSVal := .undefined
  rfc : JSVal := .undefined
  numTrabajador : JSVal := .undefined
  num_trabajador : JSVal := .undefined
  trabajador : JSVal := .undefined
  carrera : JSVal := .undefined
  career : JSVal := .undefined
  unidad : JSVal := .undefined
  jefe : JSVal := .undefined
  observaciones : JSVal := .undefined
  tipo : JSVal := .undefined
  causa : JSVal := .undefined
  categoria : JSVal := .undefined
  diaIni : JSVal := .undefined
  mesIni : JSVal := .undefined
  anoIni : JSVal := .undefined
  diaFin : JSVal := .undefined
  mesFin : JSVal := .undefined
  anoFin : JSVal := .undefined
  planEstudios : JSVal := .undefined
  cveAsignatura : JSVal := .undefined
  claveAsignatura : JSVal := .undefined
  nombreAsignatura : JSVal := .undefined
  grupo : JSVal := .undefined
  horasTeoricas : JSVal := .undefined
  horasPracticas : JSVal := .undefined
  horasTotal : JSVal := .undefined
  horario : JSVal := .undefined
  salon : JSVal := .undefined
  deriving DecidableEq, Repr

/-- `Math.round` on lengths: halves round towards `+∞`. -/
def Math.round (x : ℚ) : ℤ := ⌊x + 1 / 2⌋

/-! ## `propuesta-pdf.js` and `propuesta-pdf-helper.js` -/

namespace PropuestaPdf

/-- `toInt(v, def)`. -/
def toInt (rt : JSRuntime) (v : JSVal) (dflt : Int) : Int :=
  match v with
  | .null => dflt
  | .undefined => dflt
  | .num n => n
  | v =>
    let s := jsTrim v.toStr
    if s = "" ∨ s = "-" then dflt
    else
      match rt.Number s with
      | some n => n
      | none => dflt

/-- `normalizeYear(a)`. -/
def normalizeYear (rt : JSRuntime) (a : JSVal) : Int :=
  let y := toInt rt a 0
  if y ≥ 1900 then y
  else if y ≥ 0 ∧ y ≤ 79 then 2000 + y
  else if y ≥ 80 ∧ y ≤ 99 then 1900 + y
  else 2000

/-- `clamp(n, min, max)`. -/
def clamp (n lo hi : ℚ) : ℚ := max lo (min hi n)

/-- `PAGE.w`, the width of an A4 page in landscape, in points. -/
def PAGE_w : ℚ := 84189 / 100

def MARGIN : ℚ := 22

/-- `INNER_W`, the interior width `drawTable` gives to the proposal table. -/
def INNER_W : ℚ := PAGE_w - MARGIN * 2

/-- Widths of the columns of `drawTable` that are not flexible, in order. -/
def baseColsFixed : List ℚ :=
  [36, 60, 52, 22, 22, 32, 22, 22, 32, 32, 36, 32, 30, 30, 30, 48]

/-- `fixedTotal` in `drawTable`. -/
def fixedTotal : ℚ := baseColsFixed.foldl (fun a w => a + w) 0

def asigMin : ℚ := 320

def horMin : ℚ := 200

/-- The negotiation of the two flexible columns in `drawTable`, as a function
of `remaining`; the result is `(asigW, horW)`. -/
def drawTable_flex (remaining : ℚ) : ℚ × ℚ :=
  let asigW : ℚ := Math.round (remaining * (65 / 100))
  let horW : ℚ := remaining - asigW
  if asigW < asigMin ∨ horW < horMin then
    let totalMin := asigMin + horMin
    if remaining ≤ 0 then (asigMin, horMin)
    else if remaining < totalMin then
      let asigW1 := clamp (Math.round (remaining * (asigMin / totalMin))) 60 (remaining - 60)
      (asigW1, remaining - asigW1)
    else
      let asigW1 := max asigW asigMin
      let horW1 := max horW horMin
      let over := asigW1 + horW1 - remaining
      if over > 0 then (max asigMin (asigW1 - over), horW1) else (asigW1, horW1)
  else (asigW, horW)

/-- The flexible widths `drawTable` uses for a table of interior width
`interiorW`. -/
def drawTable_widths (interiorW : ℚ) : ℚ × ℚ :=
  drawTable_flex (interiorW - fixedTotal)

end PropuestaPdf

/-! ## `horario-general.js` -/

namespace HorarioGeneral

/-- `toInt(val)`. -/
def toInt (rt : JSRuntime) (val : JSVal) : Int :=
  match val with
  | .null => 0
  | .undefined => 0
  | .num n => n
  | v =>
    let s := jsTrim v.toStr
    if s = "" ∨ s = "-" then 0
    else
      match rt.Number s with
      | some n => n
      | none => 0

/-- `semesterLabelFromStart(diaIni, mesIni, anoIni)`. -/
def semesterLabelFromStart (rt : JSRuntime) (_diaIni mesIni anoIni : JSVal) : String :=
  let y0 : Int := (anoIni.toNumber rt).getD 0
  let y : Int := if y0 < 100 then 2000 + y0 else y0
  let m : Int :=
    match mesIni.toNumber rt with
    | some n => if n = 0 then 1 else n
    | none => 1
  let suf := if m ≥ 7 then "II" else "I"
  intToStr y ++ "-" ++ suf

/-- The capture of the leftmost match of `/"([A-Z])"/`. -/
def matchNivel : List Char → Option Char
  | [] => none
  | a :: t =>
    match a, t with
    | '"', c :: '"' :: _ => if c.isUpper then some c else matchNivel t
    | _, _ => matchNivel t

/-- Whether the text has a substring equal to `pat` up to the case of the
ASCII letters (`pat` is written in capitals). -/
def testCI (pat : String) (text : String) : Bool :=
  (text.data.map Char.toUpper).tails.any (fun t => pat.data.isPrefixOf t)

/-- `String(v)` for a parameter whose default value is `""`. -/
def paramStr (v : JSVal) : String :=
  match v with
  | .undefined => ""
  | v => v.toStr

/-- `buildNombramiento(categoria, tipo, causa)`. -/
def buildNombramiento (categoria _tipo causa : JSVal) : String :=
  let nivel : Char := (matchNivel (paramStr categoria).data).getD 'A'
  let inter : Bool :=
    (testCI "INT" (paramStr categoria) || testCI "INTER" (paramStr categoria)) ||
    (testCI "INTER" (paramStr causa) || testCI "OTRO NOMB" (paramStr causa))
  let sufijo := if inter then "INTERINO" else ""
  jsTrim ("PROFESOR DE ASIGNATURA \"" ++ String.singleton nivel ++ "\" " ++ sufijo)

/-- A subject bucket `{ nom, parcial }`. -/
structure Subject where
  nom : String
  parcial : List (Int × Int)
  deriving DecidableEq, Repr

/-- A value of `profMap`. -/
structure ProfEntry where
  name : String
  rfc : String
  worker : String
  carrera : String
  subjects : List (String × Subject)
  deriving DecidableEq, Repr

/-- An element of the array `formatHorariosProfesores` returns. -/
structure Prof where
  name : String
  rfc : String
  worker : String
  carrera : String
  subjects : List Subject
  deriving DecidableEq, Repr

/-- The three roster look-up maps. -/
structure CarreraIndex where
  byRFC : List (String × String)
  byWorker : List (String × String)
  byName : List (String × String)
  deriving DecidableEq, Repr

/-- The helper `norm` of `formatHorariosProfesores`. -/
def norm (rt : JSRuntime) (s : JSVal) : String :=
  if s.isNullish then ""
  else
    ⟨(rt.upperNFD (jsTrim s.toStr)).data.filter
      (fun c => !(0x0300 ≤ c.toNat && c.toNat ≤ 0x036f))⟩

def rosterRfcKey (rt : JSRuntime) (p : Profesor) : String := norm rt p.rfc

def rosterWorkerKey (p : Profesor) : String :=
  jsTrim (((p.numTrabajador.orElse p.num_trabajador).orElse p.trabajador).orElse (.str "")).toStr

def rosterNameKey (rt : JSRuntime) (p : Profesor) : String := norm rt p.profesor

def rosterCarrera (p : Profesor) : String :=
  let c := jsTrim ((p.carrera.orElse p.career).orElse (.str "")).toStr
  if c ≠ "" then c else "desconocido"

/-- The first loop of `formatHorariosProfesores`: the maps `byRFC`, `byWorker`
and `byName`. -/
def indexProfesores (rt : JSRuntime) (profesores : List Profesor) : CarreraIndex :=
  profesores.foldl
    (fun idx p =>
      { byRFC :=
          if rosterRfcKey rt p ≠ "" then mapSet idx.byRFC (rosterRfcKey rt p) (rosterCarrera p)
          else idx.byRFC
        byWorker :=
          if rosterWorkerKey p ≠ "" then mapSet idx.byWorker (rosterWorkerKey p) (rosterCarrera p)
          else idx.byWorker
        byName :=
          if rosterNameKey rt p ≠ "" then mapSet idx.byName (rosterNameKey rt p) (rosterCarrera p)
          else idx.byName })
    { byRFC := [], byWorker := [], byName := [] }

def holderName (h : Horario) : String := jsTrim (h.profesor.orElse (.str "SIN NOMBRE")).toStr

def holderRfc (h : Horario) : String := jsTrim (h.rfc.orElse (.str "N/D")).toStr

def holderWorker (h : Horario) : String := jsTrim (h.numTrabajador.orElse (.str "N/D")).toStr

/-- The key of `profMap` for a record. -/
def holderKey (h : Horario) : String :=
  holderName h ++ "|" ++ holderRfc h ++ "|" ++ holderWorker h

/-- The career looked up for a record, by RFC, then worker number, then name. -/
def lookupCarrera (rt : JSRuntime) (idx : CarreraIndex) (h : Horario) : String :=
  let rfcKey := norm rt (.str (holderRfc h))
  let nameKey := norm rt (.str (holderName h))
  if mapHas idx.byRFC rfcKey then (mapGet idx.byRFC rfcKey).getD "undefined"
  else if mapHas idx.byWorker (holderWorker h) then
    (mapGet idx.byWorker (holderWorker h)).getD "undefined"
  else if mapHas idx.byName nameKey then (mapGet idx.byName nameKey).getD "undefined"
  else "desconocido"

def recordNom (h : Horario) : String := buildNombramiento h.categoria h.tipo h.causa

def recordHt (rt : JSRuntime) (h : Horario) : Int :=
  toInt rt ((h.horasTeoricas.orElse h.horasTeoricasTotal).orElse h.horasTotal)

def recordHp (rt : JSRuntime) (h : Horario) : Int :=
  toInt rt (h.horasPracticas.orElse h.horasPracticasTotal)

/-- The slot a record is added to: the first index of its period label in
`semestres`, or `0` when the label is absent. -/
def recordIdx (rt : JSRuntime) (semestres : List String) (h : Horario) : Nat :=
  let i := jsIndexOf semestres (semesterLabelFromStart rt h.diaIni h.mesIni h.anoIni)
  if i = -1 then 0 else i.toNat

/-- One pass of the second loop of `formatHorariosProfesores`, the two `+=` on
the slot being exact additions, which is what the source computes while the
hours stay within `2 ^ 53` in absolute value. -/
def formatStep (rt : JSRuntime) (idx : CarreraIndex) (semestres : List String)
    (profMap : List (String × ProfEntry)) (h : Horario) : Option (List (String × ProfEntry)) :=
  let carrera := lookupCarrera rt idx h
  let key := holderKey h
  let profMap1 :=
    if !mapHas profMap key then
      mapSet profMap key
        { name := holderName h, rfc := holderRfc h, worker := holderWorker h,
          carrera := carrera, subjects := [] }
    else
      match mapGet profMap key with
      | some p =>
        if p.carrera = "desconocido" ∧ carrera ≠ "desconocido" then
          mapSet profMap key { p with carrera := carrera }
        else profMap
      | none => profMap
  match mapGet profMap1 key with
  | none => none
  | some prof =>
    let nom := recordNom h
    let subjects1 :=
      if !mapHas prof.subjects nom then
        mapSet prof.subjects nom { nom := nom, parcial := semestres.map (fun _ => (0, 0)) }
      else prof.subjects
    match mapGet subjects1 nom with
    | none => none
    | some subj =>
      let i := recordIdx rt semestres h
      match subj.parcial[i]? with
      | none => none
      | some cell =>
        let subj1 : Subject :=
          { subj with parcial := subj.parcial.set i (cell.1 + recordHt rt h, cell.2 + recordHp rt h) }
        some (mapSet profMap1 key { prof with subjects := mapSet subjects1 nom subj1 })

/-- The second loop of `formatHorariosProfesores`, started from `profMap`. -/
def formatLoop (rt : JSRuntime) (idx : CarreraIndex) (semestres : List String)
    (profMap : List (String × ProfEntry)) : List Horario → Option (List (String × ProfEntry))
  | [] => some profMap
  | h :: hs =>
    match formatStep rt idx semestres profMap h with
    | none => none
    | some profMap1 => formatLoop rt idx semestres profMap1 hs

/-- `formatHorariosProfesores(horarios, profesores, semestres)`. -/
def formatHorariosProfesores (rt : JSRuntime) (horarios : List Horario)
    (profesores : List Profesor) (semestres : List String) : Option (List Prof) :=
  match formatLoop rt (indexProfesores rt profesores) semestres [] horarios with
  | none => none
  | some profMap =>
    some (profMap.map (fun e =>
      { name := e.2.name, rfc := e.2.rfc, worker := e.2.worker, carrera := e.2.carrera,
        subjects := mapValues e.2.subjects }))

/-- One component of the `total` row of `drawProfessor`: the `reduce` over
`prof.subjects` of the values `pick(s.parcial[i])`. -/
def totalReduce (pick : Int × Int → Int) (subjects : List Subject) (i : Nat) : Option Int :=
  subjects.foldl
    (fun a s =>
      match a, s.parcial[i]? with
      | some acc, some cell => some (acc + pick cell)
      | _, _ => none)
    (some 0)

/-- The `total` row computed in `drawProfessor(doc, startY, prof)`. -/
def drawProfessor_total (prof : Prof) : Option (List (Int × Int)) :=
  [0, 1, 2, 3].mapM (fun i =>
    match totalReduce Prod.fst prof.subjects i, totalReduce Prod.snd prof.subjects i with
    | some ht, some hp => some (ht, hp)
    | _, _ => none)

/-- `SEM_LIST` as written in the source. -/
def SEM_LIST : List String := ["2024-II", "2025-I", "2025-II", "2026-I"]

/-- `splitEvenInt(total, n).widths`. -/
def splitEvenInt (total : Int) (n : Nat) : List Int :=
  let base := Int.fdiv total n
  let rem := total - base * n
  (List.range n).map (fun (i : Nat) => base + (if (i : Int) < rem then 1 else 0))

/-- The column widths `cw` of `drawTable(doc, cfg)`, from `cfg.width`,
`cfg.cols` and the optional `cfg.colWidths`. -/
def drawTable_cw (width : ℚ) (cols : Nat) (colWidths : Option (List ℚ)) : List ℚ :=
  match colWidths with
  | some ws =>
    if ws.length = cols then ws
    else (splitEvenInt (Math.round width) cols).map (fun (w : Int) => (w : ℚ))
  | none => (splitEvenInt (Math.round width) cols).map (fun (w : Int) => (w : ℚ))

/-- The value `profMap` holds for a record's key once the holder part of a
pass is done: a fresh entry, or the existing one with its career filled in. -/
def entryBefore (carrera : String) (profMap : List (String × ProfEntry)) (h : Horario) :
    ProfEntry :=
  match mapGet profMap (holderKey h) with
  | none =>
    { name := holderName h, rfc := holderRfc h, worker := holderWorker h,
      carrera := carrera, subjects := [] }
  | some p =>
    if p.carrera = "desconocido" ∧ carrera ≠ "desconocido" then { p with carrera := carrera }
    else p

/-- The bucket of title `nom` before hours are added: the existing one or a
fresh bucket of zeros. -/
def bucketBefore (semestres : List String) (nom : String) (subjects : List (String × Subject)) :
    Subject :=
  (mapGet subjects nom).getD { nom := nom, parcial := semestres.map (fun _ => (0, 0)) }

/-- The bucket after `(ht, hp)` has been added to slot `i`. -/
def bucketAfter (i : Nat) (d : Int × Int) (b : Subject) : Subject :=
  { b with parcial := b.parcial.set i (b.parcial.getD i (0, 0) + d) }

/-- The value `profMap` holds for a record's key after the pass. -/
def entryAfter (rt : JSRuntime) (idx : CarreraIndex) (semestres : List String)
    (profMap : List (String × ProfEntry)) (h : Horario) : ProfEntry :=
  let e := entryBefore (lookupCarrera rt idx h) profMap h
  { e with
    subjects :=
      mapSet e.subjects (recordNom h)
        (bucketAfter (recordIdx rt semestres h) (recordHt rt h, recordHp rt h)
          (bucketBefore semestres (recordNom h) e.subjects)) }

/-- Buckets are keyed by their title, titles are distinct and every bucket has
`n` slots. -/
def SubjectsWF (n : Nat) (subjects : List (String × Subject)) : Prop :=
  (subjects.map Prod.fst).Nodup ∧ ∀ e ∈ subjects, e.1 = e.2.nom ∧ e.2.parcial.length = n

/-- The key under which an entry is stored. -/
def entryKey (p : ProfEntry) : String := p.name ++ "|" ++ p.rfc ++ "|" ++ p.worker

/-- Keys of `profMap` are distinct, each entry is stored under the key made of
its own fields, and its buckets are well formed. -/
def MapWF (n : Nat) (profMap : List (String × ProfEntry)) : Prop :=
  (profMap.map Prod.fst).Nodup ∧
    ∀ e ∈ profMap, e.1 = entryKey e.2 ∧ SubjectsWF n e.2.subjects

/-- The buckets of an entry that may be absent. -/
def subjectsOf (o : Option ProfEntry) : List (String × Subject) :=
  (o.map (fun p => p.subjects)).getD []

/-- The hours in slot `i` of the bucket titled `t`; zero when there is no such
bucket or slot. -/
def slotOf (subjects : List (String × Subject)) (t : String) (i : Nat) : Int × Int :=
  match mapGet subjects t with
  | none => 0
  | some s => s.parcial.getD i 0

/-- The hours of all slots of all buckets. -/
def hoursTotal (subjects : List (String × Subject)) : Int × Int :=
  (subjects.map (fun e => e.2.parcial.sum)).sum

/-- The key of a holder of the result, from its own fields. -/
def profKey (p : Prof) : String := p.name ++ "|" ++ p.rfc ++ "|" ++ p.worker

/-- The element of the result made from an entry of `profMap`. -/
def toProf (p : ProfEntry) : Prof :=
  { name := p.name, rfc := p.rfc, worker := p.worker, carrera := p.carrera,
    subjects := mapValues p.subjects }

/-- The slot a period label is counted in: the index of its first occurrence
in the period list, or `0` when the list does not contain it. -/
def periodSlot (semestres : List String) (label : String) : Nat :=
  if label ∈ semestres then semestres.indexOf label else 0

/-- The period label of a record. -/
def recordLabel (rt : JSRuntime) (h : Horario) : String :=
  semesterLabelFromStart rt h.diaIni h.mesIni h.anoIni

/-- The two records of the aggregation example: holder A / X1, start month 8
of year 24 with 4 + 0 hours, start month 2 of year 25 with 2 + 1 hours. -/
def exampleHorarios : List Horario :=
  [{ profesor := .str "A", rfc := .str "X1", mesIni := .num 8, anoIni := .num 24,
     horasTeoricas := .num 4, horasPracticas := .num 0 },
   { profesor := .str "A", rfc := .str "X1", mesIni := .num 2, anoIni := .num 25,
     horasTeoricas := .num 2, horasPracticas := .num 1 }]

/-- The period list of the aggregation example. -/
def examplePeriods : List String := ["2024-II", "2025-I"]

/-- The holder the aggregation example produces. -/
def exampleHolder : Prof :=
  { name := "A", rfc := "X1", worker := "N/D", carrera := "desconocido",
    subjects := [{ nom := "PROFESOR DE ASIGNATURA \"A\"", parcial := [(4, 0), (2, 1)] }] }

/-- Two records of different holders whose keys coincide. -/
def collisionHorarios : List Horario :=
  [{ profesor := .str "A|B", rfc := .str "C", numTrabajador := .str "D",
     horasTeoricas := .num 1 },
   { profesor := .str "A", rfc := .str "B|C", numTrabajador := .str "D",
     horasTeoricas := .num 2 }]

/-- The single holder the colliding records are merged into. -/
def collisionHolder : Prof :=
  { name := "A|B", rfc := "C", worker := "D", carrera := "desconocido",
    subjects :=
      [{ nom := "PROFESOR DE ASIGNATURA \"A\"", parcial := [(3, 0), (0, 0), (0, 0), (0, 0)] }] }

/-- The career the roster gives for key `k` under the key function `keyOf`:
that of the last roster entry whose key is non-empty and equal to `k`. -/
def rosterFind (keyOf : Profesor → String) (profesores : List Profesor) (k : String) :
    Option String :=
  (profesores.reverse.find? (fun p => keyOf p ≠ "" ∧ keyOf p = k)).map rosterCarrera

/-- The career of an entry after a record resolving to `c` has been read. -/
def mergeCarrera (cur : Option String) (c : String) : Option String :=
  match cur with
  | none => some c
  | some old => if old = "desconocido" ∧ c ≠ "desconocido" then some c else some old

/-- A roster in which two entries carry the same worker number. -/
def duplicateRoster : List Profesor :=
  [{ numTrabajador := .str "7", carrera := .str "X" },
   { numTrabajador := .str "7", carrera := .str "Y" }]

/-- A record with worker number 7 and no tax-id. -/
def workerSeven : Horario := { profesor := .str "A", numTrabajador := .str "7" }

end HorarioGeneral

/-! ## Pagination in `horario-general.js` -/

namespace HorarioGeneral

/-- `PAGE.h`, the height of an A4 page in landscape, in points. -/
def PAGE_h : ℚ := 59528 / 100

def MARGIN : ℚ := 38

def BAND_H : ℚ := 22

def COL_A_W : ℚ := 180

def COL_B_W : ℚ := 135

/-- `doc.heightOfString(text, { width })` under the font and size in force. -/
structure Measure where
  heightOfString : (bold : Bool) → (size : ℚ) → (text : String) → (width : ℚ) → ℚ

/-- What the pagination code does to the document: a page is added, a band
of the column header is drawn, a row is drawn. -/
inductive DocOp where
  | addPage
  | headerBand (top : ℚ) (height : ℚ)
  | row (kind : String) (top : ℚ) (height : ℚ)
  deriving DecidableEq, Repr

/-- The identity block `{ name, rfc, worker }` of a row. -/
structure NameInfo where
  name : String
  rfc : String
  worker : String
  deriving DecidableEq, Repr

/-- `calcRowHeight(doc, { nameInfo, nomText })`. -/
def calcRowHeight (m : Measure) (nameInfo : Option NameInfo) (nomText : String) : ℚ :=
  let minRowH : ℚ := 40
  let hA : ℚ :=
    match nameInfo with
    | none => 0
    | some info =>
      let nameBoxW := COL_A_W - 16
      let nameH := m.heightOfString true (95 / 10) (info.name ++ "\n") nameBoxW
      let metaH := m.heightOfString false 8
        ("RFC: " ++ info.rfc ++ "\nNÚMERO DE TRABAJADOR: " ++ info.worker) nameBoxW
      4 + nameH + 4 + metaH + 4
  let hB : ℚ :=
    if nomText ≠ "" then 10 + m.heightOfString false (85 / 10) nomText (COL_B_W - 20) + 6
    else 0
  max minRowH ((⌈max (max hA hB) 24⌉ : ℤ) : ℚ)

/-- `drawThreeRowHeader(doc, topY)`: the three header bands that are drawn
and the `y` returned. -/
def drawThreeRowHeader (topY : ℚ) : List DocOp × ℚ :=
  ([DocOp.headerBand topY BAND_H, DocOp.headerBand (topY + BAND_H) BAND_H,
      DocOp.headerBand (topY + BAND_H * 2) BAND_H],
    topY + BAND_H * 3)

/-- `ensurePage(doc, currentY, neededH)`: what is done to the document and
the `y` returned. -/
def ensurePage (currentY neededH : ℚ) : List DocOp × ℚ :=
  let bottom := PAGE_h - MARGIN
  if currentY + neededH > bottom then
    (DocOp.addPage :: (drawThreeRowHeader MARGIN).1, (drawThreeRowHeader MARGIN).2)
  else ([], currentY)

/-- `drawRow(doc, topY, { nameInfo, nomText, kind, values })`: the row frame
that is drawn, and the height returned, or `none` for the `TypeError` that
`values[i][0]` raises in the loop over `i = 0..3` when `values` has fewer than
four entries; the frame is drawn before that loop (the texts inside the frame
are not recorded). -/
def drawRow (m : Measure) (topY : ℚ) (nameInfo : Option NameInfo) (nomText : String)
    (kind : String) (values : List (Int × Int)) : List DocOp × Option ℚ :=
  let rowH := calcRowHeight m nameInfo nomText
  ([DocOp.row kind topY rowH],
    match [0, 1, 2, 3].mapM (fun i => values[i]?) with
    | some _ => some rowH
    | none => none)

/-- The `forEach` over `prof.subjects` in `drawProfessor`, from the subject of
index `idx` on, started at `y`: what is done to the document, and the `y`
reached, or `none` when a `drawRow` throws. -/
def drawSubjects (m : Measure) (prof : Prof) :
    Nat → List Subject → ℚ → List DocOp × Option ℚ
  | _, [], y => ([], some y)
  | idx, subj :: rest, y =>
    let nameInfo : Option NameInfo :=
      if idx = 0 then some { name := prof.name, rfc := prof.rfc, worker := prof.worker }
      else none
    let rh := calcRowHeight m nameInfo subj.nom
    let e := ensurePage y rh
    let r := drawRow m e.2 nameInfo subj.nom "PARCIAL" subj.parcial
    match r.2 with
    | none => (e.1 ++ r.1, none)
    | some _ =>
      let t := drawSubjects m prof (idx + 1) rest (e.2 + rh)
      (e.1 ++ r.1 ++ t.1, t.2)

/-- `drawProfessor(doc, startY, prof)`: what is done to the document, and the
`y` returned, or `none` when a `drawRow` or the computation of the totals
throws. -/
def drawProfessor (m : Measure) (startY : ℚ) (prof : Prof) : List DocOp × Option ℚ :=
  let s := drawSubjects m prof 0 prof.subjects startY
  match s.2 with
  | none => (s.1, none)
  | some y =>
    match drawProfessor_total prof with
    | none => (s.1, none)
    | some total =>
      let totalH := calcRowHeight m none ""
      let e := ensurePage y totalH
      let r := drawRow m e.2 none "" "TOTAL" total
      match r.2 with
      | none => (s.1 ++ e.1 ++ r.1, none)
      | some _ => (s.1 ++ e.1 ++ r.1, some (e.2 + totalH + 14))

/-- A holder with one bucket of four period slots. -/
def fourSlotHolder : Prof :=
  { name := "A", rfc := "X1", worker := "N/D", carrera := "desconocido",
    subjects :=
      [{ nom := "PROFESOR DE ASIGNATURA \"A\"", parcial := [(4, 0), (2, 1), (0, 0), (0, 0)] }] }

/-- A text measure under which every text is 1000 points high. -/
def tallMeasure : Measure := { heightOfString := fun _ _ _ _ => 1000 }

end HorarioGeneral

/-! ## Field normalisation and CSV ingestion in `propuesta-pdf.js` -/

namespace PropuestaPdf

/-- An argument of `toInt`: a stored value, or a number that is not finite
(`NaN`, `Infinity`, `-Infinity`), which no stored value is. -/
inductive ToIntArg where
  | val (v : JSVal)
  | nonFinite
  deriving DecidableEq, Repr

/-- `toInt(v, def)` on every argument. -/
def toIntArg (rt : JSRuntime) (v : ToIntArg) (dflt : Int) : Int :=
  match v with
  | .val v => toInt rt v dflt
  | .nonFinite => dflt

/-- `s.length`: the number of UTF-16 code units. -/
def jsLength (s : String) : Nat :=
  (s.data.map (fun c => if c.toNat ≥ 0x10000 then 2 else 1)).sum

/-- `s.padStart(target, fill)` for a one-character `fill`. -/
def padStart (s : String) (target : Nat) (fill : Char) : String :=
  ⟨List.replicate (target - jsLength s) fill ++ s.data⟩

/-- `normalizeCve(value)`. -/
def normalizeCve (value : JSVal) : String :=
  let raw := jsTrim (value.orElse (.str "")).toStr
  if raw = "" then ""
  else if jsLength raw ≥ 4 then raw
  else padStart raw 4 '0'

/-- The state of the loop of `parseCSV`; `skip` holds when the next character
has been consumed by the `i++` of the doubled-quote branch. -/
structure CsvState where
  rows : List (List String)
  record : List String
  field : List Char
  inQuotes : Bool
  skip : Bool
  deriving DecidableEq, Repr

/-- One pass of the loop of `parseCSV` on the character `ch`, `next` being the
character after it, if any. -/
def parseStep (st : CsvState) (ch : Char) (next : Option Char) : CsvState :=
  if st.skip then { st with skip := false }
  else if st.inQuotes then
    if ch = '"' then
      if next = some '"' then { st with field := st.field ++ ['"'], skip := true }
      else { st with inQuotes := false }
    else { st with field := st.field ++ [ch] }
  else
    if ch = '"' then { st with inQuotes := true }
    else if ch = ',' then { st with record := st.record ++ [String.mk st.field], field := [] }
    else if ch = '\n' then
      { st with rows := st.rows ++ [st.record ++ [String.mk st.field]], record := [], field := [] }
    else if ch = '\r' then st
    else { st with field := st.field ++ [ch] }

/-- The loop of `parseCSV` over the rest of the text. -/
def parseLoop : List Char → CsvState → CsvState
  | [], st => st
  | ch :: rest, st => parseLoop rest (parseStep st ch rest.head?)

/-- `parseCSV(text)`. -/
def parseCSV (text : String) : List (List String) :=
  let st := parseLoop text.data
    { rows := [], record := [], field := [], inQuotes := false, skip := false }
  if st.field ≠ [] ∨ st.record ≠ [] then st.rows ++ [st.record ++ [String.mk st.field]]
  else st.rows

/-- The helper `norm` of `rowsFromCSV`. -/
def csvNorm (rt : JSRuntime) (s : String) : String :=
  ⟨(((rt.lowerNFD s).data.filter (fun c => !(0x0300 ≤ c.toNat && c.toNat ≤ 0x036f))).filter
      (fun c => !(isJsWhitespace c || c == '-'))).filter (fun c => !(c == '_'))⟩

/-- The table `ALIAS` of `rowsFromCSV`. -/
def ALIAS : List (String × String) :=
  [("numtrabajador", "numTrabajador"), ("num_trabajador", "numTrabajador"),
   ("trabajador", "numTrabajador"),
   ("profesor", "profesor"), ("interesado", "profesor"), ("carrera", "carrera"),
   ("unidad", "unidad"), ("jefe", "jefe"), ("observaciones", "observaciones"),
   ("periodo", "periodo"),
   ("tipo", "tipo"), ("mov", "tipo"), ("causa", "causa"), ("categoria", "categoria"),
   ("cat", "categoria"),
   ("diaini", "diaIni"), ("diainicio", "diaIni"), ("diain", "diaIni"), ("dia_ini", "diaIni"),
   ("mesini", "mesIni"), ("mesinicio", "mesIni"), ("mesin", "mesIni"), ("mes_ini", "mesIni"),
   ("anoini", "anoIni"), ("anioini", "anoIni"), ("ano_ini", "anoIni"),
   ("diafin", "diaFin"), ("dia_fin", "diaFin"),
   ("mesfin", "mesFin"), ("mes_fin", "mesFin"),
   ("anofin", "anoFin"), ("aniofin", "anoFin"), ("ano_fin", "anoFin"), ("anofin_", "anoFin"),
   ("planestudios", "planEstudios"), ("plan_estudios", "planEstudios"), ("plan", "planEstudios"),
   ("cveasignatura", "cveAsignatura"), ("cve_asignatura", "cveAsignatura"),
   ("clave", "cveAsignatura"), ("cve", "cveAsignatura"),
   ("nombreasignatura", "nombreAsignatura"), ("nombre_asignatura", "nombreAsignatura"),
   ("asignatura", "nombreAsignatura"), ("nombre", "nombreAsignatura"),
   ("asig", "nombreAsignatura"),
   ("grupo", "grupo"),
   ("horasteoricas", "horasTeoricas"), ("horas_teoricas", "horasTeoricas"),
   ("teo", "horasTeoricas"),
   ("horaspracticas", "horasPracticas"), ("horas_practicas", "horasPracticas"),
   ("pra", "horasPracticas"),
   ("horastotal", "horasTotal"), ("horas_total", "horasTotal"), ("tot", "horasTotal"),
   ("horario", "horario"), ("hor", "horario"),
   ("salon", "salon"), ("aula", "salon"),
   ("id", "diaIni"), ("im", "mesIni"), ("ia", "anoIni"), ("td", "diaFin"), ("tm", "mesFin"),
   ("ta", "anoFin")]

/-- One element of `canonicalHeaders` in `rowsFromCSV`: `ALIAS.get(norm(h)) || h`. -/
def canonicalHeader (rt : JSRuntime) (h : String) : String :=
  match mapGet ALIAS (csvNorm rt h) with
  | some v => if v ≠ "" then v else h
  | none => h

/-- The constant `canonicalHeaders` of `rowsFromCSV(csvText)`; empty when
`rowsFromCSV` returns before computing it. -/
def canonicalHeaders (rt : JSRuntime) (csvText : String) : List String :=
  match parseCSV (jsTrim csvText) with
  | [] => []
  | headers :: _ => (headers.map jsTrim).map (canonicalHeader rt)

/-- A field wrapped in double quotes, each inner double quote doubled. -/
def csvQuote (f : String) : List Char :=
  '"' :: (f.data.flatMap (fun c => if c = '"' then ['"', '"'] else [c])) ++ ['"']

/-- The quoted fields of a record joined with commas. -/
def csvJoin : List String → List Char
  | [] => []
  | [f] => csvQuote f
  | f :: g :: rest => csvQuote f ++ ',' :: csvJoin (g :: rest)

/-- A record written out: its quoted fields joined with commas, then CR-LF
when `crlf` holds and LF otherwise. -/
def csvRecord (r : List String × Bool) : List Char :=
  csvJoin r.1 ++ (if r.2 then ['\r', '\n'] else ['\n'])

/-- The text of a list of records, each with its choice of line ending. -/
def csvText (recs : List (List String × Bool)) : String :=
  ⟨recs.flatMap csvRecord⟩

end PropuestaPdf

namespace PropuestaPdf

/-- The string a value is counted as in `mostFrequentNonEmpty`:
`(v ?? "").toString().trim()`. -/
def cleanValue (v : JSVal) : String := jsTrim (v.orElse (.str "")).toStr

/-- The map `freq` of `mostFrequentNonEmpty` after its first loop. -/
def countValues (values : List JSVal) : List (String × Int) :=
  values.foldl
    (fun freq v =>
      let s := cleanValue v
      if s = "" ∨ s = "-" then freq
      else mapSet freq s ((mapGet freq s).getD 0 + 1))
    []

/-- The pair `(best, bestCount)` of `mostFrequentNonEmpty` after its second
loop. -/
def pickBest (freq : List (String × Int)) : String × Int :=
  freq.foldl (fun b e => if e.2 > b.2 then (e.1, e.2) else b) ("", -1)

/-- `mostFrequentNonEmpty(values)`. -/
def mostFrequentNonEmpty (values : List JSVal) : String :=
  let best := (pickBest (countValues values)).1
  if best ≠ "" then best else ""

/-- The values that are counted: the cleaned values that are neither empty nor
`"-"`, in input order. -/
def countedValues (values : List JSVal) : List String :=
  (values.map cleanValue).filter (fun s => s ≠ "" ∧ s ≠ "-")

end PropuestaPdf

namespace PropuestaPdf

/-- `inferPeriodo({ diaIni, mesIni, anoIni, diaFin, mesFin, anoFin })`. -/
def inferPeriodo (rt : JSRuntime) (h : Horario) : String :=
  let y := normalizeYear rt (h.anoFin.orElse h.anoIni)
  let m := toInt rt (h.mesFin.orElse h.mesIni) 1
  let tramo := if m ≥ 1 ∧ m ≤ 6 then "I" else "II"
  intToStr y ++ "-" ++ tramo

/-- A record that starts in February and ends in August of year 24. -/
def febToAug : Horario :=
  { mesIni := .num 2, anoIni := .num 24, mesFin := .num 8, anoFin := .num 24 }

end PropuestaPdf

namespace HorarioGeneral

/-- The text contains `pat`, the case of the ASCII letters apart (`pat` is
written in capitals). -/
def containsCI (pat : String) (text : String) : Prop :=
  ∃ pre post : List Char, text.data.map Char.toUpper = pre ++ pat.data ++ post

/-- The capital letter between double quotes that the text starts with, if
it starts with one. -/
def quotedHead (l : List Char) : Option Char :=
  match l with
  | '"' :: c :: '"' :: _ => if c.isUpper then some c else none
  | _ => none

/-- The text has, after `pre`, a capital letter `c` between double quotes. -/
def quotedCapitalAt (text : List Char) (pre : List Char) (c : Char) : Prop :=
  c.isUpper = true ∧ ∃ post : List Char, text = pre ++ '"' :: c :: '"' :: post

end HorarioGeneral

/-- The truthiness of a value. -/
def JSVal.truthy : JSVal → Bool
  | .undefined => false
  | .null => false
  | .bool b => b
  | .num n => n != 0
  | .str s => s != ""

/-- `a || b`. -/
def JSVal.or (a b : JSVal) : JSVal :=
  if a.truthy then a else b

namespace PropuestaPdf

/-- The sizes the `for` loop of `multiLineCell` visits: `top`, `top - 1`, ...,
`n` of them. -/
def sizesDown (top : Int) : Nat → List Int
  | 0 => []
  | n + 1 => top :: sizesDown (top - 1) n

/-- The `for` loop of `multiLineCell` over the sizes still to visit, `acc`
being `(chosenSize, textHeight)`; `H size` is the height measured at `size`. -/
def fitLoop (H : Int → ℚ) (h : ℚ) (minFont : Int) : List Int → Int × ℚ → Int × ℚ
  | [], acc => acc
  | size :: rest, acc =>
    if H size ≤ h - 4 then (size, H size)
    else if size = minFont then fitLoop H h minFont rest (size, H size)
    else fitLoop H h minFont rest acc

/-- What `multiLineCell(doc, txt, x, y, w, h, { maxFont, minFont })` settles
before it draws: `(chosenSize, textHeight, ty)`; `heightAt size text width` is
`doc.heightOfString(text, { width })` at font size `size`. -/
def multiLineCell (heightAt : Int → String → ℚ → ℚ) (txt : JSVal) (y w h : ℚ)
    (minFont maxFont : Int) : Int × ℚ × ℚ :=
  let text := (txt.orElse (.str "")).toStr
  let r := fitLoop (fun size => heightAt size text (w - 6)) h minFont
    (sizesDown maxFont (maxFont - minFont + 1).toNat) (maxFont, 0)
  (r.1, r.2, y + (h - r.2) / 2)

/-- The characters `clean` of `buildWorkerPdfFileName` keeps: `[a-zA-Z0-9_\- ]`. -/
def fileNameChar (c : Char) : Bool :=
  ('a' ≤ c && c ≤ 'z') || ('A' ≤ c && c ≤ 'Z') || ('0' ≤ c && c ≤ '9') ||
    c == '_' || c == '-' || c == ' '

/-- The helper `clean` of `buildWorkerPdfFileName`. -/
def clean (rt : JSRuntime) (s : JSVal) : String :=
  jsTrim ⟨(((rt.normalizeNFD (s.or (.str "")).toStr).data.filter
      (fun c => !(0x0300 ≤ c.toNat && c.toNat ≤ 0x036f))).filter fileNameChar)⟩

/-- `buildWorkerPdfFileName(interesado, worker)`. -/
def buildWorkerPdfFileName (rt : JSRuntime) (interesado worker : JSVal) : String :=
  let profName := clean rt (interesado.or (.str "Trabajador"))
  let workerId := clean rt (worker.or (.str ""))
  profName ++ " - " ++ (if workerId ≠ "" then workerId else "sin-numero") ++ ".pdf"

/-- The `while` loop of `textClamp` from `lo` and `hi`, at most `fuel` passes;
`fits mid` says that the prefix of length `mid` followed by the ellipsis is
within the width. -/
def clampSearch (fits : Nat → Bool) : Nat → Nat → Nat → Nat
  | 0, lo, _ => lo
  | fuel + 1, lo, hi =>
    if lo < hi then
      let mid := (lo + hi) / 2
      if fits mid then clampSearch fits fuel (mid + 1) hi
      else clampSearch fits fuel lo mid
    else lo

/-- `textClamp(doc, txt, maxWidth, font, size)` on a text given as its
sequence of code units (`none` for `null` and `undefined`); `width` is
`doc.widthOfString` under the font and size, `ell` the ellipsis. -/
def textClamp {α : Type} (width : List α → ℚ) (ell : List α) (txt : Option (List α))
    (maxWidth : ℚ) : List α :=
  match txt with
  | none => []
  | some s =>
    if width s ≤ maxWidth then s
    else
      let lo := clampSearch (fun mid => decide (width (s.take mid ++ ell) ≤ maxWidth))
        s.length 0 s.length
      s.take (lo - 1) ++ ell

end PropuestaPdf

namespace HorarioGeneral

/-! ### Spans of `drawTable` -/

/-- The span fields of a cell descriptor. -/
structure Cell where
  colspan : JSVal := .undefined
  rowspan : JSVal := .undefined
  deriving DecidableEq, Repr

/-- `Math.max(1, v || 1)`; `none` stands for `NaN`. -/
def spanOf (rt : JSRuntime) (v : JSVal) : Option Int :=
  ((v.or (.num 1)).toNumber rt).map (fun n => max 1 n)

/-- The number of passes of `for (k = start; k < start + span; k++)`. -/
def spanExtent (span : Option Int) : Nat :=
  match span with
  | none => 0
  | some n => n.toNat

/-- The values taken by `k` in `for (k = start; k < start + span; k++)`. -/
def spanRange (start : Nat) (span : Option Int) : List Nat :=
  (List.range (spanExtent span)).map (fun i => start + i)

/-- The positions set to `true` in `skip` after the cell at `(r, c)` is drawn. -/
def spanMarks (rt : JSRuntime) (rows cols : Nat) (cell : Cell) (r c : Nat) : List (Nat × Nat) :=
  ((spanRange r (spanOf rt cell.rowspan)).flatMap (fun rr =>
      (spanRange c (spanOf rt cell.colspan)).map (fun cc => (rr, cc)))).filter
    (fun q => !(q.1 == r && q.2 == c) && (decide (q.1 < rows) && decide (q.2 < cols)))

/-- A drawing operation of a cell. -/
inductive CellOp where
  | fill (r c : Nat)
  | border (r c : Nat)
  | text (r c : Nat)
  deriving DecidableEq, Repr

/-- The grid position an operation belongs to. -/
def CellOp.pos : CellOp → Nat × Nat
  | .fill r c => (r, c)
  | .border r c => (r, c)
  | .text r c => (r, c)

/-- The operations of one cell: the fill when a fill colour results, the
border when `borderWidth > 0`, and the text. -/
def cellOps (fillAt : Nat → Nat → Bool) (border : Bool) (r c : Nat) : List CellOp :=
  (if fillAt r c then [CellOp.fill r c] else []) ++
    (if border then [CellOp.border r c] else []) ++ [CellOp.text r c]

/-- The `skip` matrix, as the list of its `true` positions, and the operations
emitted so far. -/
structure TableState where
  skip : List (Nat × Nat) := []
  ops : List CellOp := []
  deriving DecidableEq, Repr

/-- One pass of the inner loop of `drawTable`. -/
def cellStep (rt : JSRuntime) (rows cols : Nat) (cells : Nat → Nat → Cell)
    (fillAt : Nat → Nat → Bool) (border : Bool) (st : TableState) (p : Nat × Nat) :
    TableState :=
  if p ∈ st.skip then st
  else
    { skip := st.skip ++ spanMarks rt rows cols (cells p.1 p.2) p.1 p.2
      ops := st.ops ++ cellOps fillAt border p.1 p.2 }

/-- The positions visited by the two nested loops, in order. -/
def gridPositions (rows cols : Nat) : List (Nat × Nat) :=
  (List.range rows).flatMap (fun r => (List.range cols).map (fun c => (r, c)))

/-- The cell loop of `drawTable`. -/
def drawTable_cells (rt : JSRuntime) (rows cols : Nat) (cells : Nat → Nat → Cell)
    (fillAt : Nat → Nat → Bool) (border : Bool) : TableState :=
  (gridPositions rows cols).foldl (cellStep rt rows cols cells fillAt border) {}

/-- Position `q` lies in the span rectangle of the cell at `p` and is not `p`. -/
def inSpan (rt : JSRuntime) (cells : Nat → Nat → Cell) (p q : Nat × Nat) : Prop :=
  q ≠ p ∧ p.1 ≤ q.1 ∧ q.1 < p.1 + spanExtent (spanOf rt (cells p.1 p.2).rowspan) ∧
    p.2 ≤ q.2 ∧ q.2 < p.2 + spanExtent (spanOf rt (cells p.1 p.2).colspan)

/-- Row-major order of grid positions. -/
def rowMajorLt (p q : Nat × Nat) : Prop :=
  p.1 < q.1 ∨ (p.1 = q.1 ∧ p.2 < q.2)

/-- The state of the cell loop after the positions `done` have been visited:
marked positions are grid positions in the span of a drawn cell, the span of
every drawn cell is marked, operations belong to visited positions whose text
is drawn, and a visited position is drawn exactly when it is not marked. -/
def SpanInv (rt : JSRuntime) (rows cols : Nat) (cells : Nat → Nat → Cell)
    (done : List (Nat × Nat)) (st : TableState) : Prop :=
  (∀ q, q ∈ st.skip → q.1 < rows ∧ q.2 < cols ∧
      ∃ p, CellOp.text p.1 p.2 ∈ st.ops ∧ inSpan rt cells p q) ∧
    (∀ p, CellOp.text p.1 p.2 ∈ st.ops →
      ∀ q, inSpan rt cells p q → q.1 < rows → q.2 < cols → q ∈ st.skip) ∧
    (∀ op, op ∈ st.ops → op.pos ∈ done ∧ CellOp.text op.pos.1 op.pos.2 ∈ st.ops) ∧
    (∀ p, p ∈ done → (CellOp.text p.1 p.2 ∈ st.ops ↔ p ∉ st.skip))

/-- A header grid: the first cell spans two columns and two rows. -/
def headerCells : Nat → Nat → Cell := fun r c =>
  if r = 0 ∧ c = 0 then { colspan := .num 2, rowspan := .num 2 } else {}

end HorarioGeneral

namespace PropuestaPdf

/-! ### Grouping by career -/

/-- `pad2(n)`. -/
def pad2 (n : JSVal) : String := padStart (n.orElse (.str "")).toStr 2 '0'

/-- `a || b` for strings. -/
def strOr (a b : String) : String := if a ≠ "" then a else b

/-- A row of the proposal table. -/
structure Row where
  mov : JSVal
  causa : String
  cat : String
  iD : String
  iM : String
  iA : String
  tD : String
  tM : String
  tA : String
  plan : String
  cve : String
  asig : String
  grupo : String
  teo : Int
  pra : Int
  tot : Int
  hor : String
  salon : String
  deriving DecidableEq, Repr

/-- `horarioToRow(h)`. -/
def horarioToRow (rt : JSRuntime) (h : Horario) : Row :=
  let teo := toInt rt h.horasTeoricas 0
  let pra := toInt rt h.horasPracticas 0
  let tot := toInt rt h.horasTotal (teo + pra)
  { mov := .str (strOr (jsTrim (h.tipo.orElse (.str "")).toStr) "A")
    causa := strOr (jsTrim (h.causa.orElse (.str "")).toStr) ""
    cat := strOr (jsTrim (h.categoria.orElse (.str "")).toStr) ""
    iD := pad2 h.diaIni
    iM := pad2 h.mesIni
    iA := pad2 h.anoIni
    tD := pad2 h.diaFin
    tM := pad2 h.mesFin
    tA := pad2 h.anoFin
    plan := (h.planEstudios.orElse (.str "")).toStr
    cve := normalizeCve (h.cveAsignatura.orElse h.claveAsignatura)
    asig := jsTrim (h.nombreAsignatura.orElse (.str "")).toStr
    grupo := (h.grupo.orElse (.str "")).toStr
    teo := teo
    pra := pra
    tot := tot
    hor := jsTrim (h.horario.orElse (.str "")).toStr
    salon := jsTrim (h.salon.orElse (.str "")).toStr }

/-- The row put on a career's page from the roster entry `p` when the holder
has no assignment records. -/
def templateRow (rt : JSRuntime) (p : Profesor) : Row :=
  let teo := toInt rt p.horasTeoricas 0
  let pra := toInt rt p.horasPracticas 0
  let tot := toInt rt p.horasTotal (teo + pra)
  { mov := p.tipo.orElse (.str "A")
    causa := (p.causa.orElse (.str "")).toStr
    cat := (p.categoria.orElse (.str "")).toStr
    iD := pad2 p.diaIni
    iM := pad2 p.mesIni
    iA := pad2 p.anoIni
    tD := pad2 p.diaFin
    tM := pad2 p.mesFin
    tA := pad2 p.anoFin
    plan := (p.planEstudios.orElse (.str "")).toStr
    cve := normalizeCve (p.cveAsignatura.orElse p.claveAsignatura)
    asig := (p.nombreAsignatura.orElse (.str "")).toStr
    grupo := (p.grupo.orElse (.str "")).toStr
    teo := teo
    pra := pra
    tot := tot
    hor := (p.horario.orElse (.str "")).toStr
    salon := (p.salon.orElse (.str "")).toStr }

/-- `(v ?? "").trim()`; `none` stands for the `TypeError` raised when the
value is neither nullish nor a string. -/
def trimCarrera (v : JSVal) : Option String :=
  match v.orElse (.str "") with
  | .str s => some (jsTrim s)
  | _ => none

/-- `(v ?? "").trim()` where it does not throw. -/
def carreraStr (v : JSVal) : String := (trimCarrera v).getD ""

/-- `new Set(xs)`: the first occurrences, in order. -/
def newSet (xs : List String) : List String :=
  xs.foldl (fun s x => if x ∈ s then s else s ++ [x]) []

/-- The closure `put` of `groupRowsByCarreraFromRedis`. -/
def put (buckets : List (String × List Row)) (c : String) (row : Row) :
    List (String × List Row) :=
  let b := if mapHas buckets c then buckets else mapSet buckets c []
  mapSet b c ((mapGet b c).getD [] ++ [row])

/-- An entry of `metaPorCarrera`. -/
structure CarreraInfo where
  carrera : String
  unidad : String
  jefe : String
  obs : String
  deriving DecidableEq, Repr

/-- A page of the proposal document. -/
structure Page where
  periodo : String
  carrera : String
  unidad : String
  jefe : String
  observaciones : String
  rows : List Row
  deriving DecidableEq, Repr

/-- The constant `carrerasProf`. -/
def carrerasProf (profByWorker : List Profesor) : List String :=
  (profByWorker.map (fun p => carreraStr p.carrera)).filter (fun c => c ≠ "")

/-- The constant `carrerasHor`. -/
def carrerasHor (horByWorker : List Horario) : List String :=
  (horByWorker.map (fun h => carreraStr h.carrera)).filter (fun c => c ≠ "")

/-- The constant `defaultCarrera`. -/
def defaultCarrera (profByWorker : List Profesor) (horByWorker : List Horario) : String :=
  strOr (mostFrequentNonEmpty ((carrerasProf profByWorker).map JSVal.str))
    (strOr (mostFrequentNonEmpty ((carrerasHor horByWorker).map JSVal.str)) "desconocido")

/-- The set `carrerasSet` once the default career has been added to an empty
set. -/
def carrerasSet (profByWorker : List Profesor) (horByWorker : List Horario) : List String :=
  let s := newSet ((carrerasProf profByWorker ++ carrerasHor horByWorker).filter
    (fun c => c ≠ ""))
  if s.length = 0 then [defaultCarrera profByWorker horByWorker] else s

/-- The object `metaPorCarrera`. -/
def metaPorCarrera (profByWorker : List Profesor) (horByWorker : List Horario) :
    List (String × CarreraInfo) :=
  (carrerasSet profByWorker horByWorker).foldl
    (fun m c =>
      let subProf := profByWorker.filter (fun p => carreraStr p.carrera = c)
      mapSet m c
        { carrera := c
          unidad := mostFrequentNonEmpty (subProf.map (fun p => p.unidad))
          jefe := mostFrequentNonEmpty (subProf.map (fun p => p.jefe))
          obs := mostFrequentNonEmpty (subProf.map (fun p => p.observaciones)) })
    []

/-- The career under which an assignment record is put:
`(h.carrera ?? "").trim() || defaultCarrera`. -/
def resolveCarrera (dflt : String) (h : Horario) : String :=
  strOr (carreraStr h.carrera) dflt

/-- The map `buckets` after the loop over the assignment records and the loop
over the careers that runs when there are roster entries and no records. -/
def buildBuckets (rt : JSRuntime) (profByWorker : List Profesor) (horByWorker : List Horario) :
    List (String × List Row) :=
  let buckets := horByWorker.foldl
    (fun b h => put b (resolveCarrera (defaultCarrera profByWorker horByWorker) h)
      (horarioToRow rt h)) []
  match profByWorker with
  | [] => buckets
  | p0 :: _ =>
    if horByWorker.length = 0 then
      (carrerasSet profByWorker horByWorker).foldl
        (fun b c =>
          let p := (profByWorker.find? (fun pp => carreraStr pp.carrera = c)).getD p0
          put b c (templateRow rt p))
        buckets
    else buckets

/-- The page pushed for one entry of `buckets`. -/
def buildPage (rt : JSRuntime) (profByWorker : List Profesor) (horByWorker : List Horario)
    (entry : String × List Row) : Page :=
  let carrera := entry.1
  let periodo :=
    match horByWorker.find? (fun h => (h.anoIni.or h.anoFin).truthy) with
    | some forPeriodo => inferPeriodo rt forPeriodo
    | none => "2024-I"
  let info : CarreraInfo := (mapGet (metaPorCarrera profByWorker horByWorker) carrera).getD
    { carrera := carrera, unidad := "", jefe := "", obs := "" }
  let obsRows := (horByWorker.filter
    (fun h => resolveCarrera (defaultCarrera profByWorker horByWorker) h = carrera)).map
    (fun h => h.observaciones)
  { periodo := periodo
    carrera := carrera
    unidad := strOr info.unidad "DIVISIÓN DE CIENCIAS FÍSICO MATEMÁTICAS Y LAS INGENIERÍAS"
    jefe := strOr info.jefe "ING. JORGE ARTURO LOPEZ HERNANDEZ"
    observaciones := strOr (mostFrequentNonEmpty obsRows) (strOr info.obs "")
    rows := entry.2 }

/-- `groupRowsByCarreraFromRedis({ profByWorker, horByWorker })`; `none` stands
for the `TypeError` of the first `.trim()` on a career that is neither nullish
nor a string (every later `.trim()` is on one of the same fields). The sort
is stable. -/
def groupRowsByCarreraFromRedis (rt : JSRuntime) (profByWorker : List Profesor)
    (horByWorker : List Horario) : Option (List Page) :=
  if profByWorker.all (fun p => (trimCarrera p.carrera).isSome) ∧
      horByWorker.all (fun h => (trimCarrera h.carrera).isSome) then
    let outPages := (buildBuckets rt profByWorker horByWorker).map
      (buildPage rt profByWorker horByWorker)
    some (outPages.insertionSort (fun a b => rt.localeCompare a.carrera b.carrera ≤ 0))
  else none

/-- The career field is a string or missing (`undefined` or `null`). -/
def stringOrMissing (v : JSVal) : Bool :=
  match v with
  | .undefined => true
  | .null => true
  | .str _ => true
  | _ => false

/-- A roster whose only entry has a number as career. -/
def rosterNumericCareer : List Profesor := [{ carrera := .num 5 }]

/-- Two roster entries of one holder on two careers, and one with no career. -/
def rosterTwoCareers : List Profesor :=
  [{ carrera := .str " ICO " }, { carrera := .str "IME" }, { carrera := .str "ICO" }, {}]

/-- Three assignment records: two on a career, one without career. -/
def horariosTwoCareers : List Horario :=
  [{ carrera := .str "IME", grupo := .num 1 }, { grupo := .num 2 },
    { carrera := .str "ICO ", grupo := .num 3 }]

end PropuestaPdf

namespace HorarioGeneral

/-! ### Hours added in binary64 -/

/-- The exponent of the spacing of the binary64 numbers around the natural
number `m`: the least `e` with `m < 2 ^ (53 + e)`, numbers of that size being
the multiples of `2 ^ e`. -/
def f64exp (m : Nat) : Nat :=
  ((List.range 972).find? (fun e => m < 2 ^ (53 + e))).getD 971

/-- The binary64 number nearest to the integer `n`, halves going to the even
significand: `n` itself up to `2 ^ 53` in absolute value. Results of absolute
value `2 ^ 1024` and above, which are `Infinity` in the source, are not
represented. -/
def f64round (n : Int) : Int :=
  let m := n.natAbs
  let e := f64exp m
  let q := m / 2 ^ e
  let r := m % 2 ^ e
  let q1 := if 2 ^ e < 2 * r ∨ (2 * r = 2 ^ e ∧ q % 2 = 1) then q + 1 else q
  Int.sign n * ((q1 * 2 ^ e : Nat) : Int)

/-- `a + b` on two integer-valued numbers. -/
def f64add (a b : Int) : Int := f64round (a + b)

/-- One pass of the second loop of `formatHorariosProfesores`, with the two
`+=` on the slot done in binary64. -/
def formatStep64 (rt : JSRuntime) (idx : CarreraIndex) (semestres : List String)
    (profMap : List (String × ProfEntry)) (h : Horario) : Option (List (String × ProfEntry)) :=
  let carrera := lookupCarrera rt idx h
  let key := holderKey h
  let profMap1 :=
    if !mapHas profMap key then
      mapSet profMap key
        { name := holderName h, rfc := holderRfc h, worker := holderWorker h,
          carrera := carrera, subjects := [] }
    else
      match mapGet profMap key with
      | some p =>
        if p.carrera = "desconocido" ∧ carrera ≠ "desconocido" then
          mapSet profMap key { p with carrera := carrera }
        else profMap
      | none => profMap
  match mapGet profMap1 key with
  | none => none
  | some prof =>
    let nom := recordNom h
    let subjects1 :=
      if !mapHas prof.subjects nom then
        mapSet prof.subjects nom { nom := nom, parcial := semestres.map (fun _ => (0, 0)) }
      else prof.subjects
    match mapGet subjects1 nom with
    | none => none
    | some subj =>
      let i := recordIdx rt semestres h
      match subj.parcial[i]? with
      | none => none
      | some cell =>
        let subj1 : Subject :=
          { subj with
            parcial := subj.parcial.set i
              (f64add cell.1 (recordHt rt h), f64add cell.2 (recordHp rt h)) }
        some (mapSet profMap1 key { prof with subjects := mapSet subjects1 nom subj1 })

/-- The second loop of `formatHorariosProfesores` with binary64 additions,
started from `profMap`. -/
def formatLoop64 (rt : JSRuntime) (idx : CarreraIndex) (semestres : List String)
    (profMap : List (String × ProfEntry)) : List Horario → Option (List (String × ProfEntry))
  | [] => some profMap
  | h :: hs =>
    match formatStep64 rt idx semestres profMap h with
    | none => none
    | some profMap1 => formatLoop64 rt idx semestres profMap1 hs

/-- `formatHorariosProfesores(horarios, profesores, semestres)` with the hours
added in binary64. -/
def formatHorariosProfesores64 (rt : JSRuntime) (horarios : List Horario)
    (profesores : List Profesor) (semestres : List String) : Option (List Prof) :=
  match formatLoop64 rt (indexProfesores rt profesores) semestres [] horarios with
  | none => none
  | some profMap =>
    some (profMap.map (fun e =>
      { name := e.2.name, rfc := e.2.rfc, worker := e.2.worker, carrera := e.2.carrera,
        subjects := mapValues e.2.subjects }))

/-- The bucket after `(ht, hp)` has been added to slot `i` in binary64. -/
def bucketAfter64 (i : Nat) (d : Int × Int) (b : Subject) : Subject :=
  { b with
    parcial := b.parcial.set i
      (f64add (b.parcial.getD i (0, 0)).1 d.1, f64add (b.parcial.getD i (0, 0)).2 d.2) }

/-- The value `profMap` holds for a record's key after the pass with binary64
additions. -/
def entryAfter64 (rt : JSRuntime) (idx : CarreraIndex) (semestres : List String)
    (profMap : List (String × ProfEntry)) (h : Horario) : ProfEntry :=
  let e := entryBefore (lookupCarrera rt idx h) profMap h
  { e with
    subjects :=
      mapSet e.subjects (recordNom h)
        (bucketAfter64 (recordIdx rt semestres h) (recordHt rt h, recordHp rt h)
          (bucketBefore semestres (recordNom h) e.subjects)) }

/-- Every slot of every bucket of the map is at most `a` (theoretical hours)
and `b` (practical hours) in absolute value. -/
def CellsBounded (a b : Int) (st : List (String × ProfEntry)) : Prop :=
  ∀ e ∈ st, ∀ s ∈ e.2.subjects, ∀ c ∈ s.2.parcial, |c.1| ≤ a ∧ |c.2| ≤ b

/-- Two records of one holder, with `2 ^ 53` and `1` theoretical hours. -/
def roundingHorarios : List Horario :=
  [{ profesor := .str "A", rfc := .str "X1", horasTeoricas := .num 9007199254740992 },
   { profesor := .str "A", rfc := .str "X1", horasTeoricas := .num 1 }]

/-- The holder the two records are aggregated into. -/
def roundingHolder : Prof :=
  { name := "A", rfc := "X1", worker := "N/D", carrera := "desconocido",
    subjects :=
      [{ nom := "PROFESOR DE ASIGNATURA \"A\"",
         parcial := [(9007199254740992, 0), (0, 0), (0, 0), (0, 0)] }] }

end HorarioGeneral

/-! ## Properties -/

section Numeric

open PropuestaPdf HorarioGeneral

theorem Math.round_intCast (z : ℤ) : Math.round (z : ℚ) = z := by
  unfold Math.round
  rw [Int.floor_eq_iff]
  constructor
  · linarith
  · linarith

theorem Math.round_mono {x y : ℚ} (h : x ≤ y) : Math.round x ≤ Math.round y := by
  unfold Math.round
  exact Int.floor_mono (by linarith)

/-- The number of indices below `n` that are smaller than `r`. -/
theorem sum_range_ind (n : Nat) (r : Int) (h0 : 0 ≤ r) :
    ((List.range n).map (fun (i : Nat) => (if (i : Int) < r then (1 : Int) else 0))).sum
      = min r n := by
  induction n with
  | zero => simp [h0]
  | succ k ih =>
    rw [List.range_succ, List.map_append, List.sum_append, ih]
    simp only [List.map_cons, List.map_nil, List.sum_cons, List.sum_nil, add_zero]
    split_ifs with hk
    · rw [min_eq_right (by omega), min_eq_right (by push_cast; omega)]; push_cast; ring
    · rw [min_def, min_def]; push_cast; split_ifs <;> omega

theorem sum_map_add_ind (l : List Nat) (b r : Int) :
    (l.map (fun (i : Nat) => b + (if (i : Int) < r then 1 else 0))).sum
      = b * l.length + (l.map (fun (i : Nat) => (if (i : Int) < r then (1 : Int) else 0))).sum := by
  induction l with
  | nil => simp
  | cons a t ih =>
    simp only [List.map_cons, List.sum_cons, ih, List.length_cons]
    push_cast
    ring

theorem splitEvenInt_length (total : Int) (n : Nat) : (splitEvenInt total n).length = n := by
  simp [splitEvenInt]

theorem splitEvenInt_sum (total : Int) (n : Nat) (hn : 1 ≤ n) :
    (splitEvenInt total n).sum = total := by
  have hpos : (0 : Int) < n := by exact_mod_cast hn
  have hdiv : Int.fdiv total n = total / n := Int.fdiv_eq_ediv total (le_of_lt hpos)
  have h1 : total / (n : Int) * n ≤ total := Int.ediv_mul_le total (ne_of_gt hpos)
  have h2 : total < (total / (n : Int) + 1) * n := Int.lt_ediv_add_one_mul_self total hpos
  unfold splitEvenInt
  simp only [hdiv]
  rw [sum_map_add_ind, sum_range_ind _ _ (by linarith), List.length_range,
    min_eq_left (by linarith)]
  ring

theorem drawTable_cw_none (width : ℚ) (cols : Nat) (hc : 1 ≤ cols) :
    (drawTable_cw width cols none).length = cols ∧
      (drawTable_cw width cols none).sum = (Math.round width : ℚ) := by
  unfold drawTable_cw
  refine ⟨by simp [splitEvenInt_length], ?_⟩
  have h := splitEvenInt_sum (Math.round width) cols hc
  have hcast : ∀ l : List Int, (l.map (fun (w : Int) => (w : ℚ))).sum = ((l.sum : Int) : ℚ) := by
    intro l
    induction l with
    | nil => rfl
    | cons a t ih =>
      rw [List.map_cons, List.sum_cons, List.sum_cons, ih]
      push_cast
      rfl
  rw [hcast, h]

theorem Math.round_half_1531 : Math.round (1531 / 2) = 766 := by
  unfold Math.round
  rw [Int.floor_eq_iff]
  constructor <;> norm_num

/-- C7 (as stated, refuted): a grid 765.5 units wide with four columns and no
explicit widths is drawn with the widths 192, 192, 191, 191, whose sum is 766
and not the total width. -/
theorem drawTable_cw_sum_ne_width :
    splitEvenInt (Math.round (1531 / 2)) 4 = [192, 192, 191, 191] ∧
      (drawTable_cw (1531 / 2) 4 none).sum = 766 ∧
      (drawTable_cw (1531 / 2) 4 none).sum ≠ 1531 / 2 := by
  have h := (drawTable_cw_none (1531 / 2) 4 (by decide)).2
  rw [Math.round_half_1531] at h
  refine ⟨?_, ?_, ?_⟩
  · rw [Math.round_half_1531]; decide
  · rw [h]; norm_num
  · rw [h]; norm_num

/-- C7 (amended): for every total width and every column count `cols ≥ 1`, the
column widths `drawTable` uses when none are given are `cols` in number and sum
to `Math.round(width)`; the sum is the total width itself whenever that width
is an integer. -/
theorem drawTable_cw_sum (width : ℚ) (cols : Nat) (hc : 1 ≤ cols) :
    (drawTable_cw width cols none).length = cols ∧
      (drawTable_cw width cols none).sum = (Math.round width : ℚ) ∧
      (∀ z : ℤ, width = (z : ℚ) → (drawTable_cw width cols none).sum = width) := by
  obtain ⟨h1, h2⟩ := drawTable_cw_none width cols hc
  refine ⟨h1, h2, ?_⟩
  intro z hz
  rw [h2, hz, Math.round_intCast]

theorem drawTable_cw_sum_witness :
    1 ≤ 4 ∧ (drawTable_cw 766 4 none).length = 4 ∧
      (drawTable_cw 766 4 none).sum = (Math.round 766 : ℚ) ∧
      (∀ z : ℤ, (766 : ℚ) = (z : ℚ) → (drawTable_cw 766 4 none).sum = 766) :=
  ⟨by decide, drawTable_cw_sum 766 4 (by decide)⟩

theorem toInt_num (rt : JSRuntime) (n dflt : Int) : toInt rt (.num n) dflt = n := rfl

/-- C8: `normalizeYear` maps the two-digit years 0..79 to 2000..2079 and the
two-digit years 80..99 to 1980..1999. -/
theorem normalizeYear_two_digit (rt : JSRuntime) (y : Int) :
    (0 ≤ y ∧ y ≤ 79 → normalizeYear rt (.num y) = 2000 + y) ∧
      (80 ≤ y ∧ y ≤ 99 → normalizeYear rt (.num y) = 1900 + y) := by
  constructor
  · rintro ⟨h0, h1⟩
    simp only [normalizeYear, toInt_num]
    rw [if_neg (by omega), if_pos ⟨h0, h1⟩]
  · rintro ⟨h0, h1⟩
    simp only [normalizeYear, toInt_num]
    rw [if_neg (by omega), if_neg (by omega), if_pos ⟨h0, h1⟩]

theorem normalizeYear_two_digit_witness :
    normalizeYear asciiRuntime (.num 23) = 2000 + 23 ∧
      normalizeYear asciiRuntime (.num 85) = 1900 + 85 :=
  ⟨(normalizeYear_two_digit asciiRuntime 23).1 (by decide),
    (normalizeYear_two_digit asciiRuntime 85).2 (by decide)⟩

/-- C9: when the remaining width is at least `asigMin + horMin`, the subject
column is at least `asigMin` wide and the schedule column at least `horMin`. -/
theorem drawTable_flex_min (remaining : ℚ) (h : asigMin + horMin ≤ remaining) :
    asigMin ≤ (drawTable_flex remaining).1 ∧ horMin ≤ (drawTable_flex remaining).2 := by
  unfold asigMin horMin at h
  simp only [drawTable_flex]
  split_ifs with h1 h2 h3 h4
  · exact absurd h2 (by linarith)
  · exact absurd h3 (by unfold asigMin horMin; linarith)
  · exact ⟨le_max_left _ _, le_max_right _ _⟩
  · exact ⟨le_max_right _ _, le_max_right _ _⟩
  · push_neg at h1
    exact h1

theorem drawTable_flex_min_witness :
    asigMin + horMin ≤ 520 ∧
      asigMin ≤ (drawTable_flex 520).1 ∧ horMin ≤ (drawTable_flex 520).2 :=
  ⟨by norm_num [asigMin, horMin], drawTable_flex_min 520 (by norm_num [asigMin, horMin])⟩

theorem drawTable_flex_pos (remaining : ℚ) (h : 0 < remaining) :
    (drawTable_flex remaining).1 + (drawTable_flex remaining).2 = remaining := by
  have hr : asigMin + horMin ≤ remaining →
      (338 : ℚ) ≤ ((Math.round (remaining * (65 / 100)) : ℤ) : ℚ) := by
    intro h3
    have := Math.round_mono (show (((338 : ℤ) : ℚ)) ≤ remaining * (65 / 100) by
      unfold asigMin horMin at h3; push_cast; linarith)
    rw [Math.round_intCast] at this
    exact_mod_cast this
  simp only [drawTable_flex]
  generalize ((Math.round (remaining * (65 / 100)) : ℤ) : ℚ) = a at hr ⊢
  unfold asigMin horMin at *
  split_ifs with h1 h2 h3 h4
  · exact absurd h2 (by linarith)
  · simp
  · have ha := hr (by linarith)
    simp only [max_def] at h4 ⊢
    split_ifs at h4 ⊢ <;> linarith
  · have ha := hr (by linarith)
    simp only [max_def] at h4 ⊢
    rcases h1 with h1 | h1
    · linarith
    · split_ifs at h4 ⊢ <;> linarith
  · simp

/-- C10: `drawTable` is always called with the interior width `INNER_W`, so
that `remaining` is `INNER_W - fixedTotal = 259.89`; the flexible widths are
then 160 and 99.89 and sum exactly to the remaining width, as they do for
every interior width greater than the fixed columns together. -/
theorem drawTable_widths_sum :
    INNER_W - fixedTotal = 25989 / 100 ∧
      drawTable_widths INNER_W = (160, 9989 / 100) ∧
      (drawTable_widths INNER_W).1 + (drawTable_widths INNER_W).2 = INNER_W - fixedTotal ∧
      ∀ interiorW : ℚ, fixedTotal < interiorW →
        (drawTable_widths interiorW).1 + (drawTable_widths interiorW).2
          = interiorW - fixedTotal := by
  have hr : INNER_W - fixedTotal = 25989 / 100 := by
    norm_num [INNER_W, PAGE_w, PropuestaPdf.MARGIN, fixedTotal, baseColsFixed]
  have hgen : ∀ interiorW : ℚ, fixedTotal < interiorW →
      (drawTable_widths interiorW).1 + (drawTable_widths interiorW).2
        = interiorW - fixedTotal := by
    intro interiorW h
    exact drawTable_flex_pos (interiorW - fixedTotal) (by linarith)
  have h1 : Math.round ((25989 / 100 : ℚ) * (65 / 100)) = 169 := by
    unfold Math.round
    rw [Int.floor_eq_iff]
    constructor <;> norm_num
  have h2 : Math.round ((25989 / 100 : ℚ) * (asigMin / (asigMin + horMin))) = 160 := by
    unfold Math.round asigMin horMin
    rw [Int.floor_eq_iff]
    constructor <;> norm_num
  have hw : drawTable_widths INNER_W = (160, 9989 / 100) := by
    unfold drawTable_widths
    rw [hr]
    unfold drawTable_flex
    simp only [h1, h2]
    norm_num [asigMin, horMin, clamp]
  refine ⟨hr, hw, ?_, hgen⟩
  rw [hw, hr]
  norm_num

theorem drawTable_widths_sum_witness :
    fixedTotal < 800 ∧
      (drawTable_widths 800).1 + (drawTable_widths 800).2 = 800 - fixedTotal :=
  ⟨by norm_num [fixedTotal, baseColsFixed],
    drawTable_widths_sum.2.2.2 800 (by norm_num [fixedTotal, baseColsFixed])⟩

end Numeric

section Maps

variable {β : Type}

theorem mapGet_nil (k : String) : mapGet ([] : List (String × β)) k = none := rfl

theorem mapGet_cons (e : String × β) (m : List (String × β)) (k : String) :
    mapGet (e :: m) k = if e.1 = k then some e.2 else mapGet m k := by
  unfold mapGet
  rw [List.find?_cons]
  by_cases h : e.1 = k
  · have hb : (e.1 == k) = true := by simpa using h
    simp [hb, h]
  · have hb : (e.1 == k) = false := by simpa using h
    simp [hb, h]

theorem mapHas_cons (e : String × β) (m : List (String × β)) (k : String) :
    mapHas (e :: m) k = (decide (e.1 = k) || mapHas m k) := by
  unfold mapHas
  rw [List.any_cons]
  by_cases h : e.1 = k
  · have hb : (e.1 == k) = true := by simpa using h
    simp [hb, h]
  · have hb : (e.1 == k) = false := by simpa using h
    simp [hb, h]

theorem mapHas_eq_isSome (m : List (String × β)) (k : String) :
    mapHas m k = (mapGet m k).isSome := by
  induction m with
  | nil => rfl
  | cons e t ih =>
    rw [mapHas_cons, mapGet_cons, ih]
    by_cases h : e.1 = k <;> simp [h]

theorem mapHas_false_iff (m : List (String × β)) (k : String) :
    mapHas m k = false ↔ mapGet m k = none := by
  rw [mapHas_eq_isSome]
  cases mapGet m k <;> simp

theorem mapHas_iff_mem_keys (m : List (String × β)) (k : String) :
    mapHas m k = true ↔ k ∈ m.map Prod.fst := by
  unfold mapHas
  simp only [List.any_eq_true, beq_iff_eq, List.mem_map]

theorem mapGet_append (m₁ m₂ : List (String × β)) (k : String) :
    mapGet (m₁ ++ m₂) k = (mapGet m₁ k).orElse (fun _ => mapGet m₂ k) := by
  induction m₁ with
  | nil => rfl
  | cons e t ih =>
    rw [List.cons_append, mapGet_cons, mapGet_cons, ih]
    by_cases h : e.1 = k <;> simp [h]

theorem mapGet_map_replace (m : List (String × β)) (k k' : String) (v : β) :
    mapGet (m.map (fun e => if e.1 == k then (k, v) else e)) k'
      = if k' = k then (mapGet m k).map (fun _ => v) else mapGet m k' := by
  induction m with
  | nil => simp [mapGet_nil]
  | cons e t ih =>
    rw [List.map_cons, mapGet_cons, mapGet_cons, mapGet_cons, ih]
    by_cases h1 : e.1 = k
    · by_cases h2 : k' = k
      · subst h2; simp [h1]
      · have : ¬ k = k' := fun h => h2 h.symm
        have h3 : ¬ e.1 = k' := by rw [h1]; exact this
        simp [h1, h2, this, h3]
    · by_cases h2 : k' = k
      · subst h2; simp [h1]
      · simp [h1, h2]

theorem mapGet_mapSet (m : List (String × β)) (k k' : String) (v : β) :
    mapGet (mapSet m k v) k' = if k' = k then some v else mapGet m k' := by
  unfold mapSet
  by_cases h : mapHas m k = true
  · rw [if_pos h, mapGet_map_replace]
    rw [mapHas_eq_isSome, Option.isSome_iff_exists] at h
    obtain ⟨a, ha⟩ := h
    rw [ha]; rfl
  · rw [if_neg h, mapGet_append]
    have h' : mapGet m k = none := (mapHas_false_iff m k).1 (by simpa using h)
    by_cases h2 : k' = k
    · subst h2; rw [h']; simp [mapGet_cons, mapGet_nil]
    · have : ¬ k = k' := fun h => h2 h.symm
      simp [mapGet_cons, mapGet_nil, h2, this]

theorem mapGet_mapSet_self (m : List (String × β)) (k : String) (v : β) :
    mapGet (mapSet m k v) k = some v := by
  rw [mapGet_mapSet, if_pos rfl]

theorem mapGet_mapSet_ne (m : List (String × β)) {k k' : String} (v : β) (h : k' ≠ k) :
    mapGet (mapSet m k v) k' = mapGet m k' := by
  rw [mapGet_mapSet, if_neg h]

theorem mapSet_keys (m : List (String × β)) (k : String) (v : β) :
    (mapSet m k v).map Prod.fst
      = if mapHas m k then m.map Prod.fst else m.map Prod.fst ++ [k] := by
  unfold mapSet
  by_cases h : mapHas m k = true
  · rw [if_pos h, if_pos h, List.map_map]
    apply List.map_congr_left
    intro e _
    by_cases h1 : e.1 = k <;> simp [h1]
  · rw [if_neg h, if_neg h]; simp

theorem mapSet_keys_nodup (m : List (String × β)) (k : String) (v : β)
    (h : (m.map Prod.fst).Nodup) : ((mapSet m k v).map Prod.fst).Nodup := by
  rw [mapSet_keys]
  by_cases hk : mapHas m k = true
  · rw [if_pos hk]; exact h
  · rw [if_neg hk]
    rw [List.nodup_append]
    refine ⟨h, List.nodup_singleton k, ?_⟩
    intro a ha hb
    rw [List.mem_singleton] at hb
    subst hb
    exact hk ((mapHas_iff_mem_keys m a).2 ha)

theorem mem_mapSet (m : List (String × β)) (k : String) (v : β) (e : String × β)
    (h : e ∈ mapSet m k v) : e = (k, v) ∨ (e ∈ m ∧ e.1 ≠ k) := by
  unfold mapSet at h
  by_cases hk : mapHas m k = true
  · rw [if_pos hk, List.mem_map] at h
    obtain ⟨a, ha, rfl⟩ := h
    by_cases h1 : a.1 = k
    · left; simp [h1]
    · right; simp [h1, ha]
  · rw [if_neg hk, List.mem_append, List.mem_singleton] at h
    rcases h with h | h
    · right
      refine ⟨h, ?_⟩
      intro h1
      exact hk ((mapHas_iff_mem_keys m k).2 (List.mem_map.2 ⟨e, h, h1⟩))
    · left; exact h

theorem mapSet_mapSet (m : List (String × β)) (k : String) (v w : β) :
    mapSet (mapSet m k v) k w = mapSet m k w := by
  have hhas : mapHas (mapSet m k v) k = true := by
    rw [mapHas_eq_isSome, mapGet_mapSet_self]; rfl
  have e1 : ∀ m' : List (String × β), mapHas m' k = true →
      mapSet m' k w = m'.map (fun e => if e.1 == k then (k, w) else e) := by
    intro m' h
    unfold mapSet
    rw [if_pos h]
  rw [e1 _ hhas]
  unfold mapSet
  by_cases hk : mapHas m k = true
  · rw [if_pos hk, if_pos hk, List.map_map]
    apply List.map_congr_left
    intro e _
    by_cases h1 : e.1 = k <;> simp [h1]
  · rw [if_neg hk, if_neg hk, List.map_append]
    congr 1
    · conv_rhs => rw [← List.map_id m]
      apply List.map_congr_left
      intro e he
      have h1 : ¬ e.1 = k := by
        intro h1
        exact hk ((mapHas_iff_mem_keys m k).2 (List.mem_map.2 ⟨e, he, h1⟩))
      simp [h1]
    · simp

theorem mem_of_mapGet (m : List (String × β)) (k : String) (v : β)
    (h : mapGet m k = some v) : (k, v) ∈ m := by
  induction m with
  | nil => simp [mapGet_nil] at h
  | cons e t ih =>
    rw [mapGet_cons] at h
    by_cases h1 : e.1 = k
    · rw [if_pos h1] at h
      cases h
      subst h1
      exact List.mem_cons_self _ _
    · rw [if_neg h1] at h
      exact List.mem_cons_of_mem _ (ih h)

theorem mapGet_of_mem (m : List (String × β)) (hn : (m.map Prod.fst).Nodup)
    (e : String × β) (he : e ∈ m) : mapGet m e.1 = some e.2 := by
  induction m with
  | nil => cases he
  | cons a t ih =>
    rw [List.map_cons, List.nodup_cons] at hn
    rw [mapGet_cons]
    rcases List.mem_cons.1 he with h | h
    · subst h; rw [if_pos rfl]
    · have : ¬ a.1 = e.1 := by
        intro h1
        exact hn.1 (h1 ▸ List.mem_map.2 ⟨e, h, rfl⟩)
      rw [if_neg this]
      exact ih hn.2 h

end Maps

section Aggregation

open HorarioGeneral

theorem jsIndexOf_bounds (xs : List String) (x : String) :
    jsIndexOf xs x = -1 ∨ (0 ≤ jsIndexOf xs x ∧ jsIndexOf xs x < xs.length) := by
  induction xs with
  | nil => left; rfl
  | cons y ys ih =>
    unfold jsIndexOf
    by_cases h : y = x
    · right; rw [if_pos h]; simp
    · rw [if_neg h]
      rcases ih with ih | ih
      · left; simp [ih]
      · right
        have : ¬ jsIndexOf ys x = -1 := by omega
        simp only [this, if_false, List.length_cons]
        push_cast
        omega

theorem recordIdx_lt (rt : JSRuntime) (semestres : List String) (h : Horario)
    (hn : 0 < semestres.length) : recordIdx rt semestres h < semestres.length := by
  unfold recordIdx
  rcases jsIndexOf_bounds semestres (semesterLabelFromStart rt h.diaIni h.mesIni h.anoIni)
    with hb | hb
  · simp only [hb, if_true]; exact hn
  · have : ¬ jsIndexOf semestres (semesterLabelFromStart rt h.diaIni h.mesIni h.anoIni) = -1 := by
      omega
    simp only [this, if_false]
    omega

theorem bucketBefore_spec (semestres : List String) (nom : String)
    (subjects : List (String × Subject)) (n : Nat) (hn : semestres.length = n)
    (hwf : SubjectsWF n subjects) :
    (bucketBefore semestres nom subjects).nom = nom ∧
      (bucketBefore semestres nom subjects).parcial.length = n := by
  unfold bucketBefore
  cases hg : mapGet subjects nom with
  | none => simp [hn]
  | some b =>
    have hm := mem_of_mapGet subjects nom b hg
    have := hwf.2 _ hm
    simp only [Option.getD_some]
    exact ⟨this.1.symm, this.2⟩

/-- The bucket part of a pass: the bucket of the record's title is created if
absent and receives the hours in slot `i`. -/
theorem addHours_eq (semestres : List String) (nom : String) (i : Nat) (d : Int × Int)
    (subjects : List (String × Subject)) (n : Nat) (hn : semestres.length = n) (hi : i < n)
    (hwf : SubjectsWF n subjects) :
    ∃ subjects1 subj cell,
      subjects1 = (if !mapHas subjects nom then
          mapSet subjects nom { nom := nom, parcial := semestres.map (fun _ => (0, 0)) }
        else subjects) ∧
      mapGet subjects1 nom = some subj ∧ subj.parcial[i]? = some cell ∧
      mapSet subjects1 nom { subj with parcial := subj.parcial.set i (cell.1 + d.1, cell.2 + d.2) }
        = mapSet subjects nom (bucketAfter i d (bucketBefore semestres nom subjects)) := by
  have hb := bucketBefore_spec semestres nom subjects n hn hwf
  have hlt : i < (bucketBefore semestres nom subjects).parcial.length := by rw [hb.2]; exact hi
  refine ⟨_, bucketBefore semestres nom subjects,
    (bucketBefore semestres nom subjects).parcial.getD i (0, 0), rfl, ?_, ?_, ?_⟩
  · cases hg : mapGet subjects nom with
    | none =>
      have hh : mapHas subjects nom = false := (mapHas_false_iff _ _).2 hg
      simp only [hh, Bool.not_false, if_true, mapGet_mapSet_self, bucketBefore, hg,
        Option.getD_none]
    | some b =>
      have hh : mapHas subjects nom = true := by rw [mapHas_eq_isSome, hg]; rfl
      simp only [hh, Bool.not_true, bucketBefore, hg, Option.getD_some]
      simpa using hg
  · rw [List.getD_eq_getElem?_getD, List.getElem?_eq_getElem hlt]
    simp
  · have : (if (!mapHas subjects nom) = true then
          mapSet subjects nom { nom := nom, parcial := semestres.map (fun _ => (0, 0)) }
        else subjects) = subjects ∨ (if (!mapHas subjects nom) = true then
          mapSet subjects nom { nom := nom, parcial := semestres.map (fun _ => (0, 0)) }
        else subjects) = mapSet subjects nom
          { nom := nom, parcial := semestres.map (fun _ => (0, 0)) } := by
      by_cases hh : mapHas subjects nom = true
      · left; simp [hh]
      · right; simp [hh]
    have hval : ({ (bucketBefore semestres nom subjects) with
        parcial := (bucketBefore semestres nom subjects).parcial.set i
          (((bucketBefore semestres nom subjects).parcial.getD i (0, 0)).1 + d.1,
            ((bucketBefore semestres nom subjects).parcial.getD i (0, 0)).2 + d.2) } : Subject)
        = bucketAfter i d (bucketBefore semestres nom subjects) := rfl
    rw [hval]
    rcases this with h1 | h1
    · rw [h1]
    · rw [h1, mapSet_mapSet]

/-- The pass on a record is a single `set` on the record's key. -/
theorem formatStep_eq (rt : JSRuntime) (idx : CarreraIndex) (semestres : List String)
    (st : List (String × ProfEntry)) (h : Horario) (n : Nat) (hn : semestres.length = n)
    (hpos : 0 < n) (hwf : MapWF n st) :
    formatStep rt idx semestres st h
      = some (mapSet st (holderKey h) (entryAfter rt idx semestres st h)) := by
  have hi : recordIdx rt semestres h < n := hn ▸ recordIdx_lt rt semestres h (hn ▸ hpos)
  -- the map and the entry after the holder part of the pass
  have key1 : ∃ st1 : List (String × ProfEntry),
      st1 = (if !mapHas st (holderKey h) then
          mapSet st (holderKey h)
            { name := holderName h, rfc := holderRfc h, worker := holderWorker h,
              carrera := lookupCarrera rt idx h, subjects := [] }
        else
          match mapGet st (holderKey h) with
          | some p =>
            if p.carrera = "desconocido" ∧ lookupCarrera rt idx h ≠ "desconocido" then
              mapSet st (holderKey h) { p with carrera := lookupCarrera rt idx h }
            else st
          | none => st) ∧
      mapGet st1 (holderKey h) = some (entryBefore (lookupCarrera rt idx h) st h) ∧
      (∀ v, mapSet st1 (holderKey h) v = mapSet st (holderKey h) v) ∧
      SubjectsWF n (entryBefore (lookupCarrera rt idx h) st h).subjects := by
    refine ⟨_, rfl, ?_⟩
    cases hg : mapGet st (holderKey h) with
    | none =>
      have hh : mapHas st (holderKey h) = false := (mapHas_false_iff _ _).2 hg
      simp only [hh, Bool.not_false, if_true, mapGet_mapSet_self, entryBefore, hg]
      refine ⟨trivial, fun v => mapSet_mapSet _ _ _ _, ?_⟩
      exact ⟨List.nodup_nil, fun e he => by cases he⟩
    | some p =>
      have hh : mapHas st (holderKey h) = true := by rw [mapHas_eq_isSome, hg]; rfl
      have hp := (hwf.2 _ (mem_of_mapGet st _ p hg)).2
      simp only [hh, Bool.not_true, entryBefore, hg]
      by_cases hc : p.carrera = "desconocido" ∧ lookupCarrera rt idx h ≠ "desconocido"
      · simp only [if_pos hc]
        exact ⟨mapGet_mapSet_self _ _ _, fun v => mapSet_mapSet _ _ _ _, hp⟩
      · simp only [if_neg hc]
        exact ⟨by simpa using hg, fun v => by simp, hp⟩
  obtain ⟨st1, hst1, hget1, hset1, hsub⟩ := key1
  obtain ⟨subjects1, subj, cell, hs1, hgs, hcell, hfin⟩ :=
    addHours_eq semestres (recordNom h) (recordIdx rt semestres h)
      (recordHt rt h, recordHp rt h) _ n hn hi hsub
  unfold formatStep
  simp only []
  rw [← hst1, hget1]
  simp only []
  rw [← hs1, hgs]
  simp only []
  rw [hcell]
  simp only []
  rw [hset1, hfin]
  rfl

theorem entryBefore_subjects (c : String) (st : List (String × ProfEntry)) (h : Horario) :
    (entryBefore c st h).subjects
      = ((mapGet st (holderKey h)).map (fun p => p.subjects)).getD [] := by
  unfold entryBefore
  cases mapGet st (holderKey h) with
  | none => rfl
  | some p =>
    by_cases hc : p.carrera = "desconocido" ∧ c ≠ "desconocido"
    · simp only [if_pos hc]; rfl
    · simp only [if_neg hc]; rfl

theorem entryBefore_key (c : String) (st : List (String × ProfEntry)) (h : Horario) (n : Nat)
    (hwf : MapWF n st) : entryKey (entryBefore c st h) = holderKey h := by
  unfold entryBefore
  cases hg : mapGet st (holderKey h) with
  | none => rfl
  | some p =>
    have hk := (hwf.2 _ (mem_of_mapGet st _ p hg)).1
    by_cases hc : p.carrera = "desconocido" ∧ c ≠ "desconocido"
    · simp only [if_pos hc]; exact hk.symm
    · simp only [if_neg hc]; exact hk.symm

theorem entryBefore_subjectsWF (c : String) (st : List (String × ProfEntry)) (h : Horario)
    (n : Nat) (hwf : MapWF n st) : SubjectsWF n (entryBefore c st h).subjects := by
  rw [entryBefore_subjects]
  cases hg : mapGet st (holderKey h) with
  | none => exact ⟨List.nodup_nil, fun e he => by cases he⟩
  | some p => exact (hwf.2 _ (mem_of_mapGet st _ p hg)).2

theorem bucketAfter_spec (i : Nat) (d : Int × Int) (b : Subject) :
    (bucketAfter i d b).nom = b.nom ∧ (bucketAfter i d b).parcial.length = b.parcial.length := by
  simp [bucketAfter]

theorem subjectsWF_mapSet (semestres : List String) (nom : String) (i : Nat) (d : Int × Int)
    (subjects : List (String × Subject)) (n : Nat) (hn : semestres.length = n)
    (hwf : SubjectsWF n subjects) :
    SubjectsWF n (mapSet subjects nom (bucketAfter i d (bucketBefore semestres nom subjects))) := by
  refine ⟨mapSet_keys_nodup _ _ _ hwf.1, ?_⟩
  intro e he
  rcases mem_mapSet _ _ _ _ he with h1 | h1
  · subst h1
    have hb := bucketBefore_spec semestres nom subjects n hn hwf
    have ha := bucketAfter_spec i d (bucketBefore semestres nom subjects)
    exact ⟨by rw [ha.1, hb.1], by rw [ha.2, hb.2]⟩
  · exact hwf.2 e h1.1

theorem mapWF_nil (n : Nat) : MapWF n ([] : List (String × ProfEntry)) :=
  ⟨List.nodup_nil, fun e he => by cases he⟩

theorem mapWF_step (rt : JSRuntime) (idx : CarreraIndex) (semestres : List String)
    (st : List (String × ProfEntry)) (h : Horario) (n : Nat) (hn : semestres.length = n)
    (hwf : MapWF n st) :
    MapWF n (mapSet st (holderKey h) (entryAfter rt idx semestres st h)) := by
  refine ⟨mapSet_keys_nodup _ _ _ hwf.1, ?_⟩
  intro e he
  rcases mem_mapSet _ _ _ _ he with h1 | h1
  · subst h1
    refine ⟨?_, ?_⟩
    · exact (entryBefore_key (lookupCarrera rt idx h) st h n hwf).symm
    · exact subjectsWF_mapSet semestres _ _ _ _ n hn
        (entryBefore_subjectsWF (lookupCarrera rt idx h) st h n hwf)
  · exact hwf.2 e h1.1

theorem formatLoop_cons (rt : JSRuntime) (idx : CarreraIndex) (semestres : List String)
    (st : List (String × ProfEntry)) (h : Horario) (hs : List Horario) (n : Nat)
    (hn : semestres.length = n) (hpos : 0 < n) (hwf : MapWF n st) :
    formatLoop rt idx semestres st (h :: hs)
      = formatLoop rt idx semestres
          (mapSet st (holderKey h) (entryAfter rt idx semestres st h)) hs := by
  rw [formatLoop, formatStep_eq rt idx semestres st h n hn hpos hwf]

/-- The loop completes from every well-formed map and keeps it well formed. -/
theorem formatLoop_some (rt : JSRuntime) (idx : CarreraIndex) (semestres : List String)
    (n : Nat) (hn : semestres.length = n) (hpos : 0 < n) (hs : List Horario) :
    ∀ st : List (String × ProfEntry), MapWF n st →
      ∃ st', formatLoop rt idx semestres st hs = some st' ∧ MapWF n st' := by
  induction hs with
  | nil => intro st hwf; exact ⟨st, rfl, hwf⟩
  | cons h t ih =>
    intro st hwf
    rw [formatLoop_cons rt idx semestres st h t n hn hpos hwf]
    exact ih _ (mapWF_step rt idx semestres st h n hn hwf)

/-- A quantity of the entries that grows by `δ h` on the entry of the record's
key in each pass is, at the end, the initial value plus the sum of `δ` over
the records with that key. -/
theorem formatLoop_quantity (rt : JSRuntime) (idx : CarreraIndex) (semestres : List String)
    (n : Nat) (hn : semestres.length = n) (hpos : 0 < n)
    (q : Option ProfEntry → Int × Int) (δ : Horario → Int × Int)
    (hstep : ∀ st h, MapWF n st →
      q (some (entryAfter rt idx semestres st h)) = q (mapGet st (holderKey h)) + δ h)
    (hs : List Horario) :
    ∀ st st' : List (String × ProfEntry), MapWF n st →
      formatLoop rt idx semestres st hs = some st' →
      ∀ k, q (mapGet st' k)
        = q (mapGet st k) + ((hs.filter (fun h => holderKey h = k)).map δ).sum := by
  induction hs with
  | nil =>
    intro st st' _ hl k
    rw [formatLoop] at hl
    cases hl
    simp
  | cons h t ih =>
    intro st st' hwf hl k
    rw [formatLoop_cons rt idx semestres st h t n hn hpos hwf] at hl
    rw [ih _ st' (mapWF_step rt idx semestres st h n hn hwf) hl k, mapGet_mapSet]
    by_cases hk : k = holderKey h
    · subst hk
      rw [if_pos rfl, hstep st h hwf, List.filter_cons_of_pos (by simp), List.map_cons,
        List.sum_cons, add_assoc]
    · have hk' : ¬ holderKey h = k := fun e => hk e.symm
      rw [if_neg hk, List.filter_cons_of_neg (by simpa using hk')]

end Aggregation

section Hours

open HorarioGeneral

theorem sum_set_add (l : List (Int × Int)) (i : Nat) (d : Int × Int) (hi : i < l.length) :
    (l.set i (l.getD i 0 + d)).sum = l.sum + d := by
  induction l generalizing i with
  | nil => simp at hi
  | cons a t ih =>
    cases i with
    | zero => simp only [List.set, List.sum_cons, List.getD_cons_zero]; abel
    | succ j =>
      have hj : j < t.length := by simpa using hi
      simp only [List.set, List.sum_cons, List.getD_cons_succ, ih j hj, add_assoc]

theorem getD_set_add (l : List (Int × Int)) (i j : Nat) (d : Int × Int) (hi : i < l.length) :
    (l.set i (l.getD i 0 + d)).getD j 0 = l.getD j 0 + (if i = j then d else 0) := by
  induction l generalizing i j with
  | nil => simp at hi
  | cons a t ih =>
    cases i with
    | zero =>
      cases j with
      | zero => simp [List.set]
      | succ j' => simp [List.set]
    | succ i' =>
      have hi' : i' < t.length := by simpa using hi
      cases j with
      | zero => simp [List.set]
      | succ j' =>
        simp only [List.set, List.getD_cons_succ, ih i' j' hi']
        by_cases h : i' = j' <;> simp [h]

theorem getD_zeros (semestres : List String) (i : Nat) :
    (semestres.map (fun _ => ((0 : Int), (0 : Int)))).getD i 0 = 0 := by
  induction semestres generalizing i with
  | nil => rfl
  | cons a t ih =>
    cases i with
    | zero => rfl
    | succ j => simp [ih j]

theorem sum_zeros (semestres : List String) :
    (semestres.map (fun _ => ((0 : Int), (0 : Int)))).sum = 0 := by
  induction semestres with
  | nil => rfl
  | cons a t ih => rw [List.map_cons, List.sum_cons, ih]; rfl

theorem sum_map_replace {β : Type} (f : β → Int × Int) (k : String) (v : β)
    (m : List (String × β)) (hn : (m.map Prod.fst).Nodup) (hk : mapHas m k = true) :
    ((m.map (fun e => if e.1 == k then (k, v) else e)).map (fun e => f e.2)).sum
        + ((mapGet m k).map f).getD 0
      = (m.map (fun e => f e.2)).sum + f v := by
  induction m with
  | nil => simp [mapHas] at hk
  | cons e t ih =>
    rw [List.map_cons, List.nodup_cons] at hn
    rw [mapGet_cons]
    by_cases h1 : e.1 = k
    · have hnot : ∀ a ∈ t, ¬ a.1 = k := by
        intro a ha h2
        exact hn.1 (List.mem_map.2 ⟨a, ha, h2.trans h1.symm⟩)
      have hid : t.map (fun e => if e.1 == k then (k, v) else e) = t := by
        conv_rhs => rw [← List.map_id t]
        apply List.map_congr_left
        intro a ha
        simp [hnot a ha]
      simp only [List.map_cons, h1, beq_self_eq_true, if_true, List.sum_cons, hid,
        Option.map_some', Option.getD_some]
      abel
    · have hk' : mapHas t k = true := by
        rw [mapHas_cons] at hk
        simpa [h1] using hk
      have := ih hn.2 hk'
      have hb : (e.1 == k) = false := by simpa using h1
      simp only [List.map_cons, hb, if_neg h1, List.sum_cons, Bool.false_eq_true, if_false]
      rw [add_assoc, this, add_assoc]

theorem sum_mapSet {β : Type} (f : β → Int × Int) (k : String) (v : β)
    (m : List (String × β)) (hn : (m.map Prod.fst).Nodup) :
    ((mapSet m k v).map (fun e => f e.2)).sum + ((mapGet m k).map f).getD 0
      = (m.map (fun e => f e.2)).sum + f v := by
  unfold mapSet
  by_cases hk : mapHas m k = true
  · rw [if_pos hk]; exact sum_map_replace f k v m hn hk
  · rw [if_neg hk]
    have : mapGet m k = none := (mapHas_false_iff m k).1 (by simpa using hk)
    rw [this]
    simp

/-- One pass adds the record's hours to the total of its holder. -/
theorem hoursTotal_step (rt : JSRuntime) (idx : CarreraIndex) (semestres : List String)
    (n : Nat) (hn : semestres.length = n) (hpos : 0 < n)
    (st : List (String × ProfEntry)) (h : Horario) (hwf : MapWF n st) :
    hoursTotal (subjectsOf (some (entryAfter rt idx semestres st h)))
      = hoursTotal (subjectsOf (mapGet st (holderKey h))) + (recordHt rt h, recordHp rt h) := by
  have hsw := entryBefore_subjectsWF (lookupCarrera rt idx h) st h n hwf
  have hes := entryBefore_subjects (lookupCarrera rt idx h) st h
  have hb := bucketBefore_spec semestres (recordNom h)
    (entryBefore (lookupCarrera rt idx h) st h).subjects n hn hsw
  have hi : recordIdx rt semestres h < n := hn ▸ recordIdx_lt rt semestres h (hn ▸ hpos)
  have key := sum_mapSet (fun s : Subject => s.parcial.sum) (recordNom h)
    (bucketAfter (recordIdx rt semestres h) (recordHt rt h, recordHp rt h)
      (bucketBefore semestres (recordNom h)
        (entryBefore (lookupCarrera rt idx h) st h).subjects))
    (entryBefore (lookupCarrera rt idx h) st h).subjects hsw.1
  have hold : ((mapGet (entryBefore (lookupCarrera rt idx h) st h).subjects (recordNom h)).map
      (fun s : Subject => s.parcial.sum)).getD 0
      = (bucketBefore semestres (recordNom h)
          (entryBefore (lookupCarrera rt idx h) st h).subjects).parcial.sum := by
    unfold bucketBefore
    cases mapGet (entryBefore (lookupCarrera rt idx h) st h).subjects (recordNom h) with
    | none => simp [sum_zeros]
    | some b => rfl
  have hnew : (bucketAfter (recordIdx rt semestres h) (recordHt rt h, recordHp rt h)
      (bucketBefore semestres (recordNom h)
        (entryBefore (lookupCarrera rt idx h) st h).subjects)).parcial.sum
      = (bucketBefore semestres (recordNom h)
          (entryBefore (lookupCarrera rt idx h) st h).subjects).parcial.sum
        + (recordHt rt h, recordHp rt h) := by
    unfold bucketAfter
    exact sum_set_add _ _ _ (by rw [hb.2]; exact hi)
  simp only [hold, hnew] at key
  have e1 : subjectsOf (some (entryAfter rt idx semestres st h))
      = mapSet (entryBefore (lookupCarrera rt idx h) st h).subjects (recordNom h)
          (bucketAfter (recordIdx rt semestres h) (recordHt rt h, recordHp rt h)
            (bucketBefore semestres (recordNom h)
              (entryBefore (lookupCarrera rt idx h) st h).subjects)) := rfl
  have e2 : subjectsOf (mapGet st (holderKey h))
      = (entryBefore (lookupCarrera rt idx h) st h).subjects := hes.symm
  rw [e1, e2]
  unfold hoursTotal
  have := key
  rw [← add_assoc] at this
  exact add_right_cancel (this.trans (by abel))

/-- One pass adds the record's hours to the slot of its title and period. -/
theorem slotOf_step (rt : JSRuntime) (idx : CarreraIndex) (semestres : List String)
    (n : Nat) (hn : semestres.length = n) (hpos : 0 < n) (t : String) (i : Nat)
    (st : List (String × ProfEntry)) (h : Horario) (hwf : MapWF n st) :
    slotOf (subjectsOf (some (entryAfter rt idx semestres st h))) t i
      = slotOf (subjectsOf (mapGet st (holderKey h))) t i
        + (if recordNom h = t ∧ recordIdx rt semestres h = i then
            (recordHt rt h, recordHp rt h) else 0) := by
  have hsw := entryBefore_subjectsWF (lookupCarrera rt idx h) st h n hwf
  have hes := entryBefore_subjects (lookupCarrera rt idx h) st h
  have hb := bucketBefore_spec semestres (recordNom h)
    (entryBefore (lookupCarrera rt idx h) st h).subjects n hn hsw
  have hi : recordIdx rt semestres h < n := hn ▸ recordIdx_lt rt semestres h (hn ▸ hpos)
  have e1 : subjectsOf (some (entryAfter rt idx semestres st h))
      = mapSet (entryBefore (lookupCarrera rt idx h) st h).subjects (recordNom h)
          (bucketAfter (recordIdx rt semestres h) (recordHt rt h, recordHp rt h)
            (bucketBefore semestres (recordNom h)
              (entryBefore (lookupCarrera rt idx h) st h).subjects)) := rfl
  have e2 : subjectsOf (mapGet st (holderKey h))
      = (entryBefore (lookupCarrera rt idx h) st h).subjects := hes.symm
  rw [e1, e2]
  generalize (entryBefore (lookupCarrera rt idx h) st h).subjects = ss at hb ⊢
  unfold slotOf
  rw [mapGet_mapSet]
  by_cases ht : t = recordNom h
  · subst ht
    rw [if_pos rfl]
    have hold : (match mapGet ss (recordNom h) with
        | none => (0 : Int × Int)
        | some s => s.parcial.getD i 0)
        = (bucketBefore semestres (recordNom h) ss).parcial.getD i 0 := by
      unfold bucketBefore
      cases mapGet ss (recordNom h) with
      | none => simp [getD_zeros]
      | some b => rfl
    rw [hold]
    simp only [bucketAfter]
    refine (getD_set_add _ _ _ _ (by rw [hb.2]; exact hi)).trans ?_
    simp
  · have ht' : ¬ recordNom h = t := fun e => ht e.symm
    rw [if_neg ht]
    simp [ht']

end Hours

section Output

open HorarioGeneral

theorem fst_sum_pairs (l : List (Int × Int)) : l.sum.1 = (l.map Prod.fst).sum := by
  induction l with
  | nil => rfl
  | cons a t ih => rw [List.sum_cons, Prod.fst_add, ih, List.map_cons, List.sum_cons]

theorem snd_sum_pairs (l : List (Int × Int)) : l.sum.2 = (l.map Prod.snd).sum := by
  induction l with
  | nil => rfl
  | cons a t ih => rw [List.sum_cons, Prod.snd_add, ih, List.map_cons, List.sum_cons]

theorem sum_map_ite_filter {α : Type} (c : α → Prop) [DecidablePred c] (g : α → Int × Int)
    (l : List α) :
    (l.map (fun a => if c a then g a else 0)).sum = ((l.filter (fun a => c a)).map g).sum := by
  induction l with
  | nil => rfl
  | cons a t ih =>
    by_cases h : c a
    · rw [List.map_cons, List.sum_cons, ih, if_pos h, List.filter_cons_of_pos (by simpa using h),
        List.map_cons, List.sum_cons]
    · rw [List.map_cons, List.sum_cons, ih, if_neg h, List.filter_cons_of_neg (by simpa using h),
        zero_add]

theorem jsIndexOf_eq (xs : List String) (x : String) :
    jsIndexOf xs x = if x ∈ xs then (xs.indexOf x : Int) else -1 := by
  induction xs with
  | nil => rfl
  | cons y ys ih =>
    unfold jsIndexOf
    by_cases h : y = x
    · subst h; simp
    · have hne : x ≠ y := fun e => h e.symm
      rw [if_neg h]
      simp only [ih]
      by_cases hm : x ∈ ys
      · have : ¬ ((List.indexOf x ys : Int) = -1) := by omega
        simp only [hm, if_true, this, if_false, List.mem_cons, or_true]
        rw [List.indexOf_cons_ne _ (fun e => h e)]
        push_cast
        rfl
      · simp [hm, hne]

theorem recordIdx_eq_periodSlot (rt : JSRuntime) (semestres : List String) (h : Horario) :
    recordIdx rt semestres h = periodSlot semestres (recordLabel rt h) := by
  unfold recordIdx periodSlot recordLabel
  simp only [jsIndexOf_eq]
  by_cases hm : semesterLabelFromStart rt h.diaIni h.mesIni h.anoIni ∈ semestres
  · have : ¬ ((List.indexOf (semesterLabelFromStart rt h.diaIni h.mesIni h.anoIni) semestres : Int)
        = -1) := by omega
    simp [hm, this]
  · simp [hm]

/-- The holders' presence after the loop: those present before and those of
the records read. -/
theorem formatLoop_keys (rt : JSRuntime) (idx : CarreraIndex) (semestres : List String)
    (n : Nat) (hn : semestres.length = n) (hpos : 0 < n) (hs : List Horario) :
    ∀ st st' : List (String × ProfEntry), MapWF n st →
      formatLoop rt idx semestres st hs = some st' →
      ∀ k, (mapGet st' k).isSome = true ↔
        ((mapGet st k).isSome = true ∨ ∃ h ∈ hs, holderKey h = k) := by
  induction hs with
  | nil =>
    intro st st' _ hl k
    rw [formatLoop] at hl
    cases hl
    simp
  | cons h t ih =>
    intro st st' hwf hl k
    rw [formatLoop_cons rt idx semestres st h t n hn hpos hwf] at hl
    rw [ih _ st' (mapWF_step rt idx semestres st h n hn hwf) hl k, mapGet_mapSet]
    by_cases hk : k = holderKey h
    · subst hk; simp
    · have hk' : ¬ holderKey h = k := fun e => hk e.symm
      simp [hk, hk']

/-- The run of `formatHorariosProfesores` on a non-empty period list: the loop
completes with a well-formed map whose values, in order, are the result. -/
theorem formatHorariosProfesores_run (rt : JSRuntime) (horarios : List Horario)
    (profesores : List Profesor) (semestres : List String) (hne : semestres ≠ []) :
    ∃ st, formatLoop rt (indexProfesores rt profesores) semestres [] horarios = some st ∧
      MapWF semestres.length st ∧
      formatHorariosProfesores rt horarios profesores semestres
        = some (st.map (fun e => toProf e.2)) := by
  have hpos : 0 < semestres.length := List.length_pos.2 hne
  obtain ⟨st, hst, hwf⟩ := formatLoop_some rt (indexProfesores rt profesores) semestres
    semestres.length rfl hpos horarios [] (mapWF_nil _)
  refine ⟨st, hst, hwf, ?_⟩
  unfold formatHorariosProfesores
  rw [hst]
  rfl

theorem profKey_toProf (p : ProfEntry) : profKey (toProf p) = entryKey p := rfl

theorem mapWF_get (n : Nat) (st : List (String × ProfEntry)) (hwf : MapWF n st)
    (e : String × ProfEntry) (he : e ∈ st) :
    mapGet st (profKey (toProf e.2)) = some e.2 := by
  rw [profKey_toProf, ← (hwf.2 e he).1]
  exact mapGet_of_mem st hwf.1 e he

theorem out_keys_nodup (n : Nat) (st : List (String × ProfEntry)) (hwf : MapWF n st) :
    ((st.map (fun e => toProf e.2)).map profKey).Nodup := by
  have : (st.map (fun e => toProf e.2)).map profKey = st.map Prod.fst := by
    rw [List.map_map]
    apply List.map_congr_left
    intro e he
    exact (hwf.2 e he).1.symm
  rw [this]
  exact hwf.1

end Output

section HoursClaims

open HorarioGeneral

theorem totalReduce_eq (pick : Int × Int → Int) (i : Nat) (subjects : List Subject)
    (hlen : ∀ s ∈ subjects, i < s.parcial.length) :
    totalReduce pick subjects i
      = some ((subjects.map (fun s => pick (s.parcial.getD i (0, 0)))).sum) := by
  have gen : ∀ (l : List Subject) (acc : Int), (∀ s ∈ l, i < s.parcial.length) →
      l.foldl
        (fun a s =>
          match a, s.parcial[i]? with
          | some acc, some cell => some (acc + pick cell)
          | _, _ => none)
        (some acc)
        = some (acc + (l.map (fun s => pick (s.parcial.getD i (0, 0)))).sum) := by
    intro l
    induction l with
    | nil => intro acc _; simp
    | cons s t ih =>
      intro acc hl
      have hs : i < s.parcial.length := hl s (List.mem_cons_self _ _)
      rw [List.foldl_cons, List.getElem?_eq_getElem hs]
      simp only []
      rw [ih _ (fun x hx => hl x (List.mem_cons_of_mem _ hx)), List.map_cons, List.sum_cons,
        List.getD_eq_getElem?_getD, List.getElem?_eq_getElem hs, Option.getD_some, add_assoc]
  have := gen subjects 0 hlen
  rw [zero_add] at this
  exact this

/-- Conservation of hours under exact additions. On every non-empty period
list the run with exact additions returns a result; its holders have distinct
keys, every record's key is the key of one of them, and for each holder the
sum of the theoretical hours over all slots of all its buckets is the sum of
the `toInt`-coerced theoretical hours of the records with that holder's key;
the same holds for the practical hours. -/
theorem formatHorariosProfesores_exact_conservation (rt : JSRuntime) (horarios : List Horario)
    (profesores : List Profesor) (semestres : List String) (hne : semestres ≠ []) :
    ∃ out, formatHorariosProfesores rt horarios profesores semestres = some out ∧
      (out.map profKey).Nodup ∧
      (∀ h ∈ horarios, ∃ p ∈ out, profKey p = holderKey h) ∧
      ∀ p ∈ out,
        (p.subjects.map (fun s => (s.parcial.map Prod.fst).sum)).sum
            = ((horarios.filter (fun h => holderKey h = profKey p)).map (recordHt rt)).sum ∧
          (p.subjects.map (fun s => (s.parcial.map Prod.snd).sum)).sum
            = ((horarios.filter (fun h => holderKey h = profKey p)).map (recordHp rt)).sum := by
  have hpos : 0 < semestres.length := List.length_pos.2 hne
  obtain ⟨st, hloop, hwf, hout⟩ :=
    formatHorariosProfesores_run rt horarios profesores semestres hne
  refine ⟨_, hout, out_keys_nodup _ st hwf, ?_, ?_⟩
  · intro h hh
    have hk := (formatLoop_keys rt (indexProfesores rt profesores) semestres _ rfl hpos
      horarios [] st (mapWF_nil _) hloop (holderKey h)).2 (Or.inr ⟨h, hh, rfl⟩)
    obtain ⟨v, hv⟩ := Option.isSome_iff_exists.1 hk
    have hm := mem_of_mapGet st _ v hv
    refine ⟨toProf v, List.mem_map.2 ⟨_, hm, rfl⟩, ?_⟩
    rw [profKey_toProf]
    exact ((hwf.2 _ hm).1).symm
  · intro p hp
    obtain ⟨e, he, rfl⟩ := List.mem_map.1 hp
    have hq := formatLoop_quantity rt (indexProfesores rt profesores) semestres _ rfl hpos
      (fun o => hoursTotal (subjectsOf o)) (fun h => (recordHt rt h, recordHp rt h))
      (fun st h hw => hoursTotal_step rt _ semestres _ rfl hpos st h hw)
      horarios [] st (mapWF_nil _) hloop (profKey (toProf e.2))
    rw [mapWF_get _ st hwf e he] at hq
    have h0 : hoursTotal (subjectsOf (mapGet ([] : List (String × ProfEntry))
        (profKey (toProf e.2)))) = 0 := rfl
    rw [h0, zero_add] at hq
    have hl : hoursTotal (subjectsOf (some e.2))
        = ((toProf e.2).subjects.map (fun s => s.parcial.sum)).sum := by
      simp only [hoursTotal, subjectsOf, toProf, mapValues, List.map_map, Option.map_some',
        Option.getD_some]
      rfl
    rw [hl] at hq
    constructor
    · have h1 := congrArg Prod.fst hq
      rw [fst_sum_pairs, fst_sum_pairs, List.map_map, List.map_map] at h1
      have e1 : (Prod.fst ∘ fun s : Subject => s.parcial.sum)
          = fun s : Subject => (s.parcial.map Prod.fst).sum := by
        funext s; exact fst_sum_pairs _
      rw [e1] at h1
      exact h1
    · have h1 := congrArg Prod.snd hq
      rw [snd_sum_pairs, snd_sum_pairs, List.map_map, List.map_map] at h1
      have e1 : (Prod.snd ∘ fun s : Subject => s.parcial.sum)
          = fun s : Subject => (s.parcial.map Prod.snd).sum := by
        funext s; exact snd_sum_pairs _
      rw [e1] at h1
      exact h1

/-- C2: per-slot aggregation. On every non-empty period list `P` the run
returns a result in which, for every holder, the bucket titles are distinct,
every bucket has one slot per period, and slot `i` of the bucket titled `t`
is the pair of the sums of the theoretical and of the practical hours over the
holder's records whose derived title is `t` and whose period label first occurs
in `P` at index `i`, a label absent from `P` counting for slot `0` only. -/
theorem formatHorariosProfesores_slots (rt : JSRuntime) (horarios : List Horario)
    (profesores : List Profesor) (semestres : List String) (hne : semestres ≠ []) :
    ∃ out, formatHorariosProfesores rt horarios profesores semestres = some out ∧
      ∀ p ∈ out,
        (p.subjects.map (fun s => s.nom)).Nodup ∧
        ∀ s ∈ p.subjects,
          s.parcial.length = semestres.length ∧
          ∀ i, i < semestres.length →
            s.parcial[i]? = some
              (((horarios.filter (fun h => holderKey h = profKey p ∧ recordNom h = s.nom ∧
                    periodSlot semestres (recordLabel rt h) = i)).map (recordHt rt)).sum,
                ((horarios.filter (fun h => holderKey h = profKey p ∧ recordNom h = s.nom ∧
                    periodSlot semestres (recordLabel rt h) = i)).map (recordHp rt)).sum) := by
  have hpos : 0 < semestres.length := List.length_pos.2 hne
  obtain ⟨st, hloop, hwf, hout⟩ :=
    formatHorariosProfesores_run rt horarios profesores semestres hne
  refine ⟨_, hout, ?_⟩
  intro p hp
  obtain ⟨e, he, rfl⟩ := List.mem_map.1 hp
  have hsw := (hwf.2 e he).2
  have hnoms : (toProf e.2).subjects.map (fun s => s.nom) = e.2.subjects.map Prod.fst := by
    simp only [toProf, mapValues, List.map_map]
    apply List.map_congr_left
    intro x hx
    exact ((hsw.2 x hx).1).symm
  refine ⟨by rw [hnoms]; exact hsw.1, ?_⟩
  intro s hs
  obtain ⟨x, hx, rfl⟩ := List.mem_map.1 hs
  have hxw := hsw.2 x hx
  refine ⟨hxw.2, ?_⟩
  intro i hi
  have hq := formatLoop_quantity rt (indexProfesores rt profesores) semestres _ rfl hpos
    (fun o => slotOf (subjectsOf o) x.2.nom i)
    (fun h => if recordNom h = x.2.nom ∧ recordIdx rt semestres h = i then
      (recordHt rt h, recordHp rt h) else 0)
    (fun st h hw => slotOf_step rt _ semestres _ rfl hpos x.2.nom i st h hw)
    horarios [] st (mapWF_nil _) hloop (profKey (toProf e.2))
  rw [mapWF_get _ st hwf e he] at hq
  have h0 : slotOf (subjectsOf (mapGet ([] : List (String × ProfEntry))
      (profKey (toProf e.2)))) x.2.nom i = 0 := rfl
  rw [h0, zero_add] at hq
  have hget : mapGet e.2.subjects x.2.nom = some x.2 := by
    rw [← hxw.1]; exact mapGet_of_mem _ hsw.1 x hx
  have hl : slotOf (subjectsOf (some e.2)) x.2.nom i = x.2.parcial.getD i 0 := by
    simp only [slotOf, subjectsOf, Option.map_some', Option.getD_some, hget]
  rw [hl, sum_map_ite_filter, List.filter_filter] at hq
  have hlt : i < x.2.parcial.length := by rw [hxw.2]; exact hi
  rw [List.getD_eq_getElem?_getD, List.getElem?_eq_getElem hlt, Option.getD_some] at hq
  rw [List.getElem?_eq_getElem hlt, hq]
  have hfilt : (horarios.filter (fun a =>
        (decide (recordNom a = x.2.nom ∧ recordIdx rt semestres a = i)
          && decide (holderKey a = profKey (toProf e.2)))))
      = horarios.filter (fun h => holderKey h = profKey (toProf e.2) ∧
          recordNom h = x.2.nom ∧ periodSlot semestres (recordLabel rt h) = i) := by
    apply List.filter_congr
    intro a _
    rw [recordIdx_eq_periodSlot]
    by_cases c1 : holderKey a = profKey (toProf e.2) <;>
      by_cases c2 : recordNom a = x.2.nom <;>
      by_cases c3 : periodSlot semestres (recordLabel rt a) = i <;> simp [c1, c2, c3]
  rw [hfilt]
  congr 1
  apply Prod.ext
  · rw [fst_sum_pairs, List.map_map]; rfl
  · rw [snd_sum_pairs, List.map_map]; rfl

set_option maxRecDepth 100000 in
theorem formatHorariosProfesores_slots_witness :
    examplePeriods ≠ [] ∧
      formatHorariosProfesores asciiRuntime exampleHorarios [] examplePeriods
        = some [exampleHolder] ∧
      ∃ out, formatHorariosProfesores asciiRuntime exampleHorarios [] examplePeriods = some out ∧
        ∀ p ∈ out,
          (p.subjects.map (fun s => s.nom)).Nodup ∧
          ∀ s ∈ p.subjects,
            s.parcial.length = examplePeriods.length ∧
            ∀ i, i < examplePeriods.length →
              s.parcial[i]? = some
                (((exampleHorarios.filter (fun h => holderKey h = profKey p ∧
                      recordNom h = s.nom ∧
                      periodSlot examplePeriods (recordLabel asciiRuntime h) = i)).map
                    (recordHt asciiRuntime)).sum,
                  ((exampleHorarios.filter (fun h => holderKey h = profKey p ∧
                      recordNom h = s.nom ∧
                      periodSlot examplePeriods (recordLabel asciiRuntime h) = i)).map
                    (recordHp asciiRuntime)).sum) :=
  ⟨by decide, by decide,
    formatHorariosProfesores_slots asciiRuntime exampleHorarios [] examplePeriods (by decide)⟩

end HoursClaims

section TotalsAndKeys

open HorarioGeneral

theorem drawProfessor_total_eq (prof : Prof) (hlen : ∀ s ∈ prof.subjects, 4 ≤ s.parcial.length) :
    drawProfessor_total prof
      = some ((List.range 4).map (fun i =>
          ((prof.subjects.map (fun s => (s.parcial.getD i (0, 0)).1)).sum,
            (prof.subjects.map (fun s => (s.parcial.getD i (0, 0)).2)).sum))) := by
  have h : ∀ i, i < 4 → ∀ s ∈ prof.subjects, i < s.parcial.length :=
    fun i hi s hs => lt_of_lt_of_le hi (hlen s hs)
  unfold drawProfessor_total
  simp only [List.mapM_cons, List.mapM_nil,
    totalReduce_eq Prod.fst 0 _ (h 0 (by decide)), totalReduce_eq Prod.snd 0 _ (h 0 (by decide)),
    totalReduce_eq Prod.fst 1 _ (h 1 (by decide)), totalReduce_eq Prod.snd 1 _ (h 1 (by decide)),
    totalReduce_eq Prod.fst 2 _ (h 2 (by decide)), totalReduce_eq Prod.snd 2 _ (h 2 (by decide)),
    totalReduce_eq Prod.fst 3 _ (h 3 (by decide)), totalReduce_eq Prod.snd 3 _ (h 3 (by decide))]
  rfl

/-- C3 (as stated, refuted): for the two-period example the run yields the
holder with the single bucket `[[4,0],[2,1]]`, and the computation of the
totals row in `drawProfessor` on that holder reads slot 2 of a two-slot bucket
and fails; no totals row `[4,0],[2,1]` is produced. -/
theorem drawProfessor_total_two_periods :
    formatHorariosProfesores asciiRuntime exampleHorarios [] examplePeriods
        = some [exampleHolder] ∧
      drawProfessor_total exampleHolder = none ∧
      drawProfessor_total exampleHolder ≠ some [(4, 0), (2, 1)] := by
  set_option maxRecDepth 100000 in decide

/-- C3 (amended): for every holder produced by `formatHorariosProfesores` over
a period list of length at least four, the totals row computed in
`drawProfessor` has exactly four entries and entry `i < 4` is the pair of the
sums of the theoretical and of the practical hours of slot `i` across all of
the holder's buckets. -/
theorem drawProfessor_total_row (rt : JSRuntime) (horarios : List Horario)
    (profesores : List Profesor) (semestres : List String) (h4 : 4 ≤ semestres.length) :
    ∃ out, formatHorariosProfesores rt horarios profesores semestres = some out ∧
      ∀ p ∈ out, ∃ row, drawProfessor_total p = some row ∧ row.length = 4 ∧
        ∀ i, i < 4 →
          row[i]? = some
            ((p.subjects.map (fun s => (s.parcial.getD i (0, 0)).1)).sum,
              (p.subjects.map (fun s => (s.parcial.getD i (0, 0)).2)).sum) := by
  have hne : semestres ≠ [] := by
    intro h; rw [h] at h4; simp at h4
  obtain ⟨st, _, hwf, hout⟩ :=
    formatHorariosProfesores_run rt horarios profesores semestres hne
  refine ⟨_, hout, ?_⟩
  intro p hp
  obtain ⟨e, he, rfl⟩ := List.mem_map.1 hp
  have hlen : ∀ s ∈ (toProf e.2).subjects, 4 ≤ s.parcial.length := by
    intro s hs
    obtain ⟨x, hx, rfl⟩ := List.mem_map.1 hs
    rw [((hwf.2 e he).2.2 x hx).2]
    exact h4
  refine ⟨_, drawProfessor_total_eq _ hlen, by simp, ?_⟩
  intro i hi
  rw [List.getElem?_map, List.getElem?_range hi]
  rfl

set_option maxRecDepth 100000 in
theorem drawProfessor_total_row_witness :
    4 ≤ SEM_LIST.length ∧
      ∃ out, formatHorariosProfesores asciiRuntime exampleHorarios [] SEM_LIST = some out ∧
        ∀ p ∈ out, ∃ row, drawProfessor_total p = some row ∧ row.length = 4 ∧
          ∀ i, i < 4 →
            row[i]? = some
              ((p.subjects.map (fun s => (s.parcial.getD i (0, 0)).1)).sum,
                (p.subjects.map (fun s => (s.parcial.getD i (0, 0)).2)).sum) :=
  ⟨by decide, drawProfessor_total_row asciiRuntime exampleHorarios [] SEM_LIST (by decide)⟩

/-- C4 (the code at the failing input): two records whose trimmed names and
tax-ids differ ("A|B", "C" against "A", "B|C") have the same key "A|B|C|D" and
are aggregated into one holder entry, which carries the first record's name and
the hours of both. -/
theorem formatHorariosProfesores_key_collision :
    (collisionHorarios.map holderName = ["A|B", "A"] ∧
      collisionHorarios.map holderRfc = ["C", "B|C"] ∧
      collisionHorarios.map holderKey = ["A|B|C|D", "A|B|C|D"]) ∧
      formatHorariosProfesores asciiRuntime collisionHorarios [] SEM_LIST
        = some [collisionHolder] := by
  set_option maxRecDepth 100000 in decide

end TotalsAndKeys

section Careers

open HorarioGeneral

/-- One roster entry added to the look-up maps. -/
theorem indexProfesores_append (rt : JSRuntime) (ps : List Profesor) (p : Profesor) :
    indexProfesores rt (ps ++ [p])
      = { byRFC :=
            if rosterRfcKey rt p ≠ "" then
              mapSet (indexProfesores rt ps).byRFC (rosterRfcKey rt p) (rosterCarrera p)
            else (indexProfesores rt ps).byRFC
          byWorker :=
            if rosterWorkerKey p ≠ "" then
              mapSet (indexProfesores rt ps).byWorker (rosterWorkerKey p) (rosterCarrera p)
            else (indexProfesores rt ps).byWorker
          byName :=
            if rosterNameKey rt p ≠ "" then
              mapSet (indexProfesores rt ps).byName (rosterNameKey rt p) (rosterCarrera p)
            else (indexProfesores rt ps).byName } := by
  unfold indexProfesores
  rw [List.foldl_append]
  rfl

theorem rosterFind_append (keyOf : Profesor → String) (ps : List Profesor) (p : Profesor)
    (k : String) :
    rosterFind keyOf (ps ++ [p]) k
      = if keyOf p ≠ "" ∧ keyOf p = k then some (rosterCarrera p) else rosterFind keyOf ps k := by
  unfold rosterFind
  rw [List.reverse_append, List.reverse_singleton, List.singleton_append, List.find?_cons]
  by_cases h : keyOf p ≠ "" ∧ keyOf p = k
  · rw [if_pos h]
    have : decide (keyOf p ≠ "" ∧ keyOf p = k) = true := decide_eq_true h
    rw [this]
    rfl
  · rw [if_neg h]
    have : decide (keyOf p ≠ "" ∧ keyOf p = k) = false := decide_eq_false h
    rw [this]

theorem mapGet_set_if (m : List (String × String)) (key k c : String) :
    mapGet (if key ≠ "" then mapSet m key c else m) k
      = if key ≠ "" ∧ key = k then some c else mapGet m k := by
  by_cases h1 : key ≠ ""
  · rw [if_pos h1, mapGet_mapSet]
    by_cases h2 : k = key
    · subst h2; simp [h1]
    · have : ¬ key = k := fun e => h2 e.symm
      simp [h2, this]
  · rw [if_neg h1]
    simp [h1]

/-- The three look-up maps give, for each key, the career of the last roster
entry carrying that key. -/
theorem indexProfesores_get (rt : JSRuntime) (ps : List Profesor) (k : String) :
    mapGet (indexProfesores rt ps).byRFC k = rosterFind (rosterRfcKey rt) ps k ∧
      mapGet (indexProfesores rt ps).byWorker k = rosterFind rosterWorkerKey ps k ∧
      mapGet (indexProfesores rt ps).byName k = rosterFind (rosterNameKey rt) ps k := by
  induction ps using List.reverseRecOn with
  | nil => exact ⟨rfl, rfl, rfl⟩
  | append_singleton ps p ih =>
    rw [indexProfesores_append, rosterFind_append, rosterFind_append, rosterFind_append]
    simp only [mapGet_set_if, ih.1, ih.2.1, ih.2.2]
    exact ⟨trivial, trivial, trivial⟩

theorem rosterFind_none (keyOf : Profesor → String) (ps : List Profesor) (k : String) :
    rosterFind keyOf ps k = none ↔ ∀ p ∈ ps, keyOf p = "" ∨ keyOf p ≠ k := by
  unfold rosterFind
  rw [Option.map_eq_none', List.find?_eq_none]
  constructor
  · intro h p hp
    have := h p (List.mem_reverse.2 hp)
    by_cases h1 : keyOf p = ""
    · left; exact h1
    · right; intro h2; exact this (decide_eq_true ⟨h1, h2⟩)
  · intro h p hp
    rcases h p (List.mem_reverse.1 hp) with h1 | h1
    · exact fun hd => (of_decide_eq_true hd).1 h1
    · exact fun hd => h1 (of_decide_eq_true hd).2

theorem rosterFind_last (keyOf : Profesor → String) (ps₁ ps₂ : List Profesor) (p : Profesor)
    (k : String) (h1 : keyOf p ≠ "") (h2 : keyOf p = k) (h3 : ∀ q ∈ ps₂, keyOf q ≠ k) :
    rosterFind keyOf (ps₁ ++ p :: ps₂) k = some (rosterCarrera p) := by
  induction ps₂ using List.reverseRecOn with
  | nil => rw [rosterFind_append, if_pos ⟨h1, h2⟩]
  | append_singleton t q ih =>
    have e : ps₁ ++ p :: (t ++ [q]) = (ps₁ ++ p :: t) ++ [q] := by simp
    rw [e, rosterFind_append]
    have hq : ¬ (keyOf q ≠ "" ∧ keyOf q = k) := fun hh => h3 q (by simp) hh.2
    rw [if_neg hq]
    exact ih (fun x hx => h3 x (by simp [hx]))

/-- The career looked up for a record, in terms of the roster. -/
theorem lookupCarrera_eq (rt : JSRuntime) (profesores : List Profesor) (h : Horario) :
    lookupCarrera rt (indexProfesores rt profesores) h
      = match rosterFind (rosterRfcKey rt) profesores (norm rt (.str (holderRfc h))) with
        | some c => c
        | none =>
          match rosterFind rosterWorkerKey profesores (holderWorker h) with
          | some c => c
          | none =>
            match rosterFind (rosterNameKey rt) profesores (norm rt (.str (holderName h))) with
            | some c => c
            | none => "desconocido" := by
  unfold lookupCarrera
  simp only [mapHas_eq_isSome, (indexProfesores_get rt profesores _).1,
    (indexProfesores_get rt profesores _).2.1, (indexProfesores_get rt profesores _).2.2]
  cases rosterFind (rosterRfcKey rt) profesores (norm rt (.str (holderRfc h))) with
  | some c => simp
  | none =>
    cases rosterFind rosterWorkerKey profesores (holderWorker h) with
    | some c => simp
    | none =>
      cases rosterFind (rosterNameKey rt) profesores (norm rt (.str (holderName h))) with
      | some c => simp
      | none => simp

end Careers

section CareerClaims

open HorarioGeneral

/-- C5 (as stated, refuted): with two roster entries under worker number 7,
of careers X and Y, a record with that worker number and no matching tax-id
matches a roster entry with career X, yet the career resolved for it is Y. -/
theorem lookupCarrera_duplicate_worker :
    (∀ p ∈ duplicateRoster, rosterRfcKey asciiRuntime p = "" ∨
        rosterRfcKey asciiRuntime p ≠ norm asciiRuntime (.str (holderRfc workerSeven))) ∧
      (∃ p ∈ duplicateRoster, rosterWorkerKey p = holderWorker workerSeven ∧
        rosterCarrera p = "X") ∧
      lookupCarrera asciiRuntime (indexProfesores asciiRuntime duplicateRoster) workerSeven = "Y" ∧
      lookupCarrera asciiRuntime (indexProfesores asciiRuntime duplicateRoster) workerSeven
        ≠ "X" := by
  set_option maxRecDepth 100000 in decide

/-- C5 (amended): the career resolved for a record is the roster career found
by the folded tax-id if the roster has that key, otherwise the one found by the
trimmed worker number, otherwise the one found by the folded name, otherwise
the fallback literal, where a key carried by several roster entries finds the
career of the last of them and empty keys find nothing. In particular, when the
record's tax-id matches no roster entry and `p` is the last roster entry
carrying the record's non-empty worker number, the resolved career is the
career of `p`. -/
theorem lookupCarrera_priority (rt : JSRuntime) (profesores : List Profesor) (h : Horario) :
    lookupCarrera rt (indexProfesores rt profesores) h
        = (match rosterFind (rosterRfcKey rt) profesores (norm rt (.str (holderRfc h))) with
          | some c => c
          | none =>
            match rosterFind rosterWorkerKey profesores (holderWorker h) with
            | some c => c
            | none =>
              match rosterFind (rosterNameKey rt) profesores
                  (norm rt (.str (holderName h))) with
              | some c => c
              | none => "desconocido") ∧
      ∀ (ps₁ : List Profesor) (p : Profesor) (ps₂ : List Profesor),
        profesores = ps₁ ++ p :: ps₂ →
        (∀ q ∈ profesores, rosterRfcKey rt q = "" ∨
          rosterRfcKey rt q ≠ norm rt (.str (holderRfc h))) →
        rosterWorkerKey p ≠ "" → rosterWorkerKey p = holderWorker h →
        (∀ q ∈ ps₂, rosterWorkerKey q ≠ holderWorker h) →
        lookupCarrera rt (indexProfesores rt profesores) h = rosterCarrera p := by
  refine ⟨lookupCarrera_eq rt profesores h, ?_⟩
  intro ps₁ p ps₂ hsplit hrfc hw1 hw2 hlast
  rw [lookupCarrera_eq, (rosterFind_none _ _ _).2 hrfc, hsplit,
    rosterFind_last rosterWorkerKey ps₁ ps₂ p _ hw1 hw2 hlast]

set_option maxRecDepth 100000 in
theorem lookupCarrera_priority_witness :
    lookupCarrera asciiRuntime (indexProfesores asciiRuntime duplicateRoster) workerSeven
      = rosterCarrera { numTrabajador := .str "7", carrera := .str "Y" } :=
  (lookupCarrera_priority asciiRuntime duplicateRoster workerSeven).2
    [{ numTrabajador := .str "7", carrera := .str "X" }]
    { numTrabajador := .str "7", carrera := .str "Y" } [] rfl
    (by decide) (by decide) (by decide) (by simp)

theorem entryAfter_carrera (rt : JSRuntime) (idx : CarreraIndex) (semestres : List String)
    (st : List (String × ProfEntry)) (h : Horario) :
    some (entryAfter rt idx semestres st h).carrera
      = mergeCarrera ((mapGet st (holderKey h)).map (fun p => p.carrera))
          (lookupCarrera rt idx h) := by
  show some (entryBefore (lookupCarrera rt idx h) st h).carrera = _
  unfold entryBefore mergeCarrera
  cases mapGet st (holderKey h) with
  | none => rfl
  | some p =>
    by_cases hc : p.carrera = "desconocido" ∧ lookupCarrera rt idx h ≠ "desconocido"
    · simp only [if_pos hc, Option.map_some']
    · simp only [if_neg hc, Option.map_some']

/-- The careers of the entries after the loop. -/
theorem formatLoop_carrera (rt : JSRuntime) (idx : CarreraIndex) (semestres : List String)
    (n : Nat) (hn : semestres.length = n) (hpos : 0 < n) (hs : List Horario) :
    ∀ st st' : List (String × ProfEntry), MapWF n st →
      formatLoop rt idx semestres st hs = some st' →
      ∀ k, (mapGet st' k).map (fun p => p.carrera)
        = ((hs.filter (fun h => holderKey h = k)).map (lookupCarrera rt idx)).foldl mergeCarrera
            ((mapGet st k).map (fun p => p.carrera)) := by
  induction hs with
  | nil =>
    intro st st' _ hl k
    rw [formatLoop] at hl
    cases hl
    rfl
  | cons h t ih =>
    intro st st' hwf hl k
    rw [formatLoop_cons rt idx semestres st h t n hn hpos hwf] at hl
    rw [ih _ st' (mapWF_step rt idx semestres st h n hn hwf) hl k, mapGet_mapSet]
    by_cases hk : k = holderKey h
    · subst hk
      rw [if_pos rfl, List.filter_cons_of_pos (by simp), List.map_cons, List.foldl_cons,
        Option.map_some', entryAfter_carrera]
    · have hk' : ¬ holderKey h = k := fun e => hk e.symm
      rw [if_neg hk, List.filter_cons_of_neg (by simpa using hk')]

theorem foldl_mergeCarrera_known (cs : List String) (c : String) (hc : c ≠ "desconocido") :
    cs.foldl mergeCarrera (some c) = some c := by
  induction cs with
  | nil => rfl
  | cons a t ih =>
    rw [List.foldl_cons]
    have : mergeCarrera (some c) a = some c := by
      unfold mergeCarrera
      simp [hc]
    rw [this, ih]

theorem foldl_mergeCarrera_unknown (cs : List String) :
    cs.foldl mergeCarrera (some "desconocido")
      = some ((cs.find? (fun c => c ≠ "desconocido")).getD "desconocido") := by
  induction cs with
  | nil => rfl
  | cons a t ih =>
    rw [List.foldl_cons, List.find?_cons]
    by_cases ha : a = "desconocido"
    · have : mergeCarrera (some "desconocido") a = some "desconocido" := by
        unfold mergeCarrera; simp [ha]
      rw [this, ih]
      simp [ha]
    · have : mergeCarrera (some "desconocido") a = some a := by
        unfold mergeCarrera; simp [ha]
      rw [this, foldl_mergeCarrera_known t a ha]
      simp [ha]

theorem foldl_mergeCarrera_none (cs : List String) (hne : cs ≠ []) :
    cs.foldl mergeCarrera none
      = some ((cs.find? (fun c => c ≠ "desconocido")).getD "desconocido") := by
  cases cs with
  | nil => exact absurd rfl hne
  | cons a t =>
    rw [List.foldl_cons, List.find?_cons]
    have : mergeCarrera none a = some a := rfl
    rw [this]
    by_cases ha : a = "desconocido"
    · rw [ha, foldl_mergeCarrera_unknown]
      simp
    · rw [foldl_mergeCarrera_known t a ha]
      simp [ha]

theorem formatLoop_append (rt : JSRuntime) (idx : CarreraIndex) (semestres : List String)
    (hs₁ hs₂ : List Horario) :
    ∀ st st₁ : List (String × ProfEntry), formatLoop rt idx semestres st hs₁ = some st₁ →
      formatLoop rt idx semestres st (hs₁ ++ hs₂) = formatLoop rt idx semestres st₁ hs₂ := by
  induction hs₁ with
  | nil =>
    intro st st₁ h
    rw [formatLoop] at h
    cases h
    rfl
  | cons a t ih =>
    intro st st₁ h
    rw [List.cons_append, formatLoop]
    rw [formatLoop] at h
    cases hstep : formatStep rt idx semestres st a with
    | none => rw [hstep] at h; cases h
    | some st2 =>
      rw [hstep] at h
      exact ih st2 st₁ h

theorem formatLoop_wf (rt : JSRuntime) (idx : CarreraIndex) (semestres : List String)
    (n : Nat) (hn : semestres.length = n) (hpos : 0 < n) (hs : List Horario)
    (st st' : List (String × ProfEntry)) (hwf : MapWF n st)
    (hl : formatLoop rt idx semestres st hs = some st') : MapWF n st' := by
  obtain ⟨st2, h2, hw2⟩ := formatLoop_some rt idx semestres n hn hpos hs st hwf
  rw [h2] at hl
  cases hl
  exact hw2

/-- C6: monotonic career resolution. On every non-empty period list the run
returns a result in which the career of each holder is the first career
different from the fallback literal among the careers resolved for the records
aggregated into it, in input order, or the fallback if there is none; and an
entry whose career differs from the fallback after a prefix of the records has
been read keeps that career to the end of the run. -/
theorem formatHorariosProfesores_carrera (rt : JSRuntime) (horarios : List Horario)
    (profesores : List Profesor) (semestres : List String) (hne : semestres ≠ []) :
    ∃ out, formatHorariosProfesores rt horarios profesores semestres = some out ∧
      (∀ p ∈ out, p.carrera
        = ((((horarios.filter (fun h => holderKey h = profKey p)).map
              (lookupCarrera rt (indexProfesores rt profesores))).find?
            (fun c => c ≠ "desconocido")).getD "desconocido")) ∧
      ∀ (hs₁ hs₂ : List Horario) (st₁ : List (String × ProfEntry)) (k : String) (e : ProfEntry),
        horarios = hs₁ ++ hs₂ →
        formatLoop rt (indexProfesores rt profesores) semestres [] hs₁ = some st₁ →
        mapGet st₁ k = some e → e.carrera ≠ "desconocido" →
        ∃ p ∈ out, profKey p = k ∧ p.carrera = e.carrera := by
  have hpos : 0 < semestres.length := List.length_pos.2 hne
  obtain ⟨st, hloop, hwf, hout⟩ :=
    formatHorariosProfesores_run rt horarios profesores semestres hne
  refine ⟨_, hout, ?_, ?_⟩
  · intro p hp
    obtain ⟨e, he, rfl⟩ := List.mem_map.1 hp
    have hc := formatLoop_carrera rt (indexProfesores rt profesores) semestres _ rfl hpos
      horarios [] st (mapWF_nil _) hloop (profKey (toProf e.2))
    rw [mapWF_get _ st hwf e he] at hc
    have h0 : (mapGet ([] : List (String × ProfEntry)) (profKey (toProf e.2))).map
        (fun p => p.carrera) = none := rfl
    rw [h0] at hc
    have hcs : (horarios.filter (fun h => holderKey h = profKey (toProf e.2))).map
        (lookupCarrera rt (indexProfesores rt profesores)) ≠ [] := by
      intro hnil
      rw [hnil] at hc
      cases hc
    rw [foldl_mergeCarrera_none _ hcs] at hc
    exact Option.some.inj hc
  · intro hs₁ hs₂ st₁ k e hsplit hl₁ hget hknown
    have hw₁ := formatLoop_wf rt (indexProfesores rt profesores) semestres _ rfl hpos hs₁ []
      st₁ (mapWF_nil _) hl₁
    have hl₂ : formatLoop rt (indexProfesores rt profesores) semestres st₁ hs₂ = some st := by
      rw [← formatLoop_append rt _ semestres hs₁ hs₂ [] st₁ hl₁, ← hsplit]
      exact hloop
    have hc := formatLoop_carrera rt (indexProfesores rt profesores) semestres _ rfl hpos
      hs₂ st₁ st hw₁ hl₂ k
    rw [hget, Option.map_some', foldl_mergeCarrera_known _ _ hknown] at hc
    cases hg : mapGet st k with
    | none => rw [hg] at hc; cases hc
    | some v =>
      rw [hg] at hc
      have hm := mem_of_mapGet st k v hg
      refine ⟨toProf v, List.mem_map.2 ⟨_, hm, rfl⟩, ?_, ?_⟩
      · rw [profKey_toProf]; exact ((hwf.2 _ hm).1).symm
      · exact Option.some.inj hc

set_option maxRecDepth 100000 in
theorem formatHorariosProfesores_carrera_witness :
    examplePeriods ≠ [] ∧
      ∃ out, formatHorariosProfesores asciiRuntime exampleHorarios duplicateRoster examplePeriods
          = some out ∧
        (∀ p ∈ out, p.carrera
          = ((((exampleHorarios.filter (fun h => holderKey h = profKey p)).map
                (lookupCarrera asciiRuntime (indexProfesores asciiRuntime duplicateRoster))).find?
              (fun c => c ≠ "desconocido")).getD "desconocido")) ∧
        ∀ (hs₁ hs₂ : List Horario) (st₁ : List (String × ProfEntry)) (k : String)
          (e : ProfEntry),
          exampleHorarios = hs₁ ++ hs₂ →
          formatLoop asciiRuntime (indexProfesores asciiRuntime duplicateRoster) examplePeriods
            [] hs₁ = some st₁ →
          mapGet st₁ k = some e → e.carrera ≠ "desconocido" →
          ∃ p ∈ out, profKey p = k ∧ p.carrera = e.carrera :=
  ⟨by decide,
    formatHorariosProfesores_carrera asciiRuntime exampleHorarios duplicateRoster examplePeriods
      (by decide)⟩

end CareerClaims

section Normalizer

open PropuestaPdf

/-- C19 (as stated, refuted): the four-digit year 1500 is not passed through
but replaced by the fallback 2000, and the five-digit year 12345 is passed
through instead of being replaced by the fallback. -/
theorem normalizeYear_not_four_digit_rule :
    normalizeYear asciiRuntime (.num 1500) = 2000 ∧
      normalizeYear asciiRuntime (.num 1500) ≠ 1500 ∧
      normalizeYear asciiRuntime (.num 12345) = 12345 ∧
      normalizeYear asciiRuntime (.num 12345) ≠ 2000 := by
  decide

/-- C19 (amended): `normalizeYear` passes every year from 1900 on through
unchanged, in particular the four-digit years 1900..9999, and returns the
fallback year 2000 for every negative year and every year in 100..1899. -/
theorem normalizeYear_passthrough (rt : JSRuntime) (y : Int) :
    (1900 ≤ y → normalizeYear rt (.num y) = y) ∧
      ((y < 0 ∨ (100 ≤ y ∧ y < 1900)) → normalizeYear rt (.num y) = 2000) := by
  constructor
  · intro h
    simp only [normalizeYear, toInt_num]
    rw [if_pos h]
  · intro h
    simp only [normalizeYear, toInt_num]
    rw [if_neg (by omega), if_neg (by omega), if_neg (by omega)]

theorem normalizeYear_passthrough_witness :
    normalizeYear asciiRuntime (.num 2024) = 2024 ∧
      normalizeYear asciiRuntime (.num 150) = 2000 :=
  ⟨(normalizeYear_passthrough asciiRuntime 2024).1 (by decide),
    (normalizeYear_passthrough asciiRuntime 150).2 (by decide)⟩

/-- C20 (as stated, refuted): 79 ≤ 80, yet `normalizeYear` maps 79 to 2079 and
80 to 1980. -/
theorem normalizeYear_not_monotone :
    (79 : Int) ≤ 80 ∧ normalizeYear asciiRuntime (.num 79) = 2079 ∧
      normalizeYear asciiRuntime (.num 80) = 1980 ∧
      ¬ normalizeYear asciiRuntime (.num 79) ≤ normalizeYear asciiRuntime (.num 80) := by
  decide

/-- C20 (amended): `normalizeYear` preserves the order of years within each of
its ranges: for `a ≤ b` both in 0..79, both in 80..99 or both at least 1900,
`normalizeYear a ≤ normalizeYear b`. -/
theorem normalizeYear_monotone_in_range (rt : JSRuntime) (a b : Int) (hab : a ≤ b)
    (hr : (0 ≤ a ∧ b ≤ 79) ∨ (80 ≤ a ∧ b ≤ 99) ∨ 1900 ≤ a) :
    normalizeYear rt (.num a) ≤ normalizeYear rt (.num b) := by
  simp only [normalizeYear, toInt_num]
  rcases hr with h | h | h
  · rw [if_neg (by omega), if_pos ⟨h.1, by omega⟩, if_neg (by omega), if_pos ⟨by omega, h.2⟩]
    omega
  · rw [if_neg (by omega), if_neg (by omega), if_pos ⟨h.1, by omega⟩, if_neg (by omega),
      if_neg (by omega), if_pos ⟨by omega, h.2⟩]
    omega
  · rw [if_pos h, if_pos (by omega)]
    exact hab

theorem normalizeYear_monotone_in_range_witness :
    (5 : Int) ≤ 70 ∧
      normalizeYear asciiRuntime (.num 5) ≤ normalizeYear asciiRuntime (.num 70) :=
  ⟨by decide,
    normalizeYear_monotone_in_range asciiRuntime 5 70 (by decide) (Or.inl (by decide))⟩

/-- C18 (as stated, refuted): `true` is neither missing, nor a number, nor a
string, and its numeric value is 1, yet `toInt(true, 7)` is the default 7. -/
theorem toInt_boolean_default :
    (JSVal.bool true).toNumber asciiRuntime = some 1 ∧
      toIntArg asciiRuntime (.val (.bool true)) 7 = 7 ∧
      toIntArg asciiRuntime (.val (.bool true)) 7 ≠ 1 := by
  decide

/-- C18 (amended): `toInt(v, def)` returns a value on every argument; it is
`def` when `v` is `null`, `undefined` or a number that is not finite, and when
`v` is a string or a boolean whose trimmed string form is empty, is `"-"` or
is not a finite numeric literal; it is `v` when `v` is a finite number and the
value of the trimmed literal in the remaining case. -/
theorem toInt_cases (rt : JSRuntime) (dflt : Int) :
    toIntArg rt .nonFinite dflt = dflt ∧
      toIntArg rt (.val .null) dflt = dflt ∧
      toIntArg rt (.val .undefined) dflt = dflt ∧
      (∀ n : Int, toIntArg rt (.val (.num n)) dflt = n) ∧
      ∀ v : JSVal, (∃ s, v = .str s) ∨ (∃ b, v = .bool b) →
        ((jsTrim v.toStr = "" ∨ jsTrim v.toStr = "-" ∨ rt.Number (jsTrim v.toStr) = none) →
          toIntArg rt (.val v) dflt = dflt) ∧
        (∀ n : Int, jsTrim v.toStr ≠ "" → jsTrim v.toStr ≠ "-" →
          rt.Number (jsTrim v.toStr) = some n → toIntArg rt (.val v) dflt = n) := by
  refine ⟨rfl, rfl, rfl, fun n => rfl, ?_⟩
  intro v hv
  have hform : toIntArg rt (.val v) dflt
      = if jsTrim v.toStr = "" ∨ jsTrim v.toStr = "-" then dflt
        else match rt.Number (jsTrim v.toStr) with
          | some n => n
          | none => dflt := by
    rcases hv with ⟨s, rfl⟩ | ⟨b, rfl⟩ <;> rfl
  rw [hform]
  constructor
  · intro h
    by_cases hc : jsTrim v.toStr = "" ∨ jsTrim v.toStr = "-"
    · rw [if_pos hc]
    · rw [if_neg hc]
      rcases h with h | h | h
      · exact absurd (Or.inl h) hc
      · exact absurd (Or.inr h) hc
      · rw [h]
  · intro n h1 h2 h3
    rw [if_neg (by rintro (h | h); exact h1 h; exact h2 h), h3]

set_option maxRecDepth 100000 in
theorem toInt_cases_witness :
    toIntArg asciiRuntime (.val (.str " - ")) 3 = 3 ∧
      toIntArg asciiRuntime (.val (.str " 12 ")) 3 = 12 :=
  ⟨((toInt_cases asciiRuntime 3).2.2.2.2 (.str " - ") (Or.inl ⟨_, rfl⟩)).1
      (Or.inr (Or.inl (by decide))),
    ((toInt_cases asciiRuntime 3).2.2.2.2 (.str " 12 ") (Or.inl ⟨_, rfl⟩)).2 12
      (by decide) (by decide) (by decide)⟩

theorem jsLength_append (a b : List Char) :
    jsLength ⟨a ++ b⟩ = jsLength ⟨a⟩ + jsLength ⟨b⟩ := by
  simp [jsLength]

theorem jsLength_replicate_zero (k : Nat) : jsLength ⟨List.replicate k '0'⟩ = k := by
  induction k with
  | zero => rfl
  | succ j ih =>
    have : jsLength ⟨List.replicate (j + 1) '0'⟩ = 1 + jsLength ⟨List.replicate j '0'⟩ := by
      simp [jsLength, List.replicate_succ]
    rw [this, ih, add_comm]

/-- C14: `normalizeCve` pads a non-empty trimmed string form shorter than four
characters on the left with `0` to exactly four characters, returns a trimmed
string form of four or more characters unchanged, and returns the empty string
for a missing or blank value; `"17"` gives `"0017"`. -/
theorem normalizeCve_spec (value : JSVal) :
    (jsTrim (value.orElse (.str "")).toStr ≠ "" →
        jsLength (jsTrim (value.orElse (.str "")).toStr) < 4 →
        normalizeCve value
            = ⟨List.replicate (4 - jsLength (jsTrim (value.orElse (.str "")).toStr)) '0'
                ++ (jsTrim (value.orElse (.str "")).toStr).data⟩ ∧
          jsLength (normalizeCve value) = 4) ∧
      (4 ≤ jsLength (jsTrim (value.orElse (.str "")).toStr) →
        normalizeCve value = jsTrim (value.orElse (.str "")).toStr) ∧
      (jsTrim (value.orElse (.str "")).toStr = "" → normalizeCve value = "") ∧
      (value.isNullish = true → normalizeCve value = "") ∧
      normalizeCve (.str "17") = "0017" := by
  refine ⟨?_, ?_, ?_, ?_, by decide⟩
  · intro h1 h2
    have e : normalizeCve value
        = ⟨List.replicate (4 - jsLength (jsTrim (value.orElse (.str "")).toStr)) '0'
            ++ (jsTrim (value.orElse (.str "")).toStr).data⟩ := by
      unfold normalizeCve
      simp only []
      rw [if_neg h1, if_neg (by omega)]
      rfl
    refine ⟨e, ?_⟩
    rw [e, jsLength_append, jsLength_replicate_zero]
    have hb : jsLength (⟨(jsTrim (value.orElse (.str "")).toStr).data⟩ : String)
        = jsLength (jsTrim (value.orElse (.str "")).toStr) := rfl
    rw [hb]
    omega
  · intro h
    unfold normalizeCve
    simp only []
    have hne : jsTrim (value.orElse (.str "")).toStr ≠ "" := by
      intro h0
      rw [h0] at h
      simp [jsLength] at h
    rw [if_neg hne, if_pos h]
  · intro h
    unfold normalizeCve
    simp only []
    rw [if_pos h]
  · intro h
    cases value <;> first | rfl | (simp [JSVal.isNullish] at h)

set_option maxRecDepth 100000 in
theorem normalizeCve_spec_witness :
    normalizeCve (.str " 17 ") = ⟨List.replicate (4 - 2) '0' ++ "17".data⟩ ∧
      jsLength (normalizeCve (.str " 17 ")) = 4 :=
  (normalizeCve_spec (.str " 17 ")).1 (by decide) (by decide)

theorem ALIAS_values_ne : ∀ e ∈ ALIAS, e.2 ≠ "" := by
  decide

/-- C13: a header label whose folded form is a key of the alias table is given
the table's value for that key as its canonical name, so labels with the same
folded form have the same canonical name; the header row
`Num_Trabajador,Profesor,CVE,Teo` canonicalizes to `numTrabajador`,
`profesor`, `cveAsignatura`, `horasTeoricas`. -/
theorem canonicalHeader_alias (rt : JSRuntime) (h : String) (v : String)
    (hv : mapGet ALIAS (csvNorm rt h) = some v) :
    canonicalHeader rt h = v ∧
      (∀ h', csvNorm rt h' = csvNorm rt h → canonicalHeader rt h' = v) ∧
      canonicalHeaders asciiRuntime "Num_Trabajador,Profesor,CVE,Teo"
        = ["numTrabajador", "profesor", "cveAsignatura", "horasTeoricas"] := by
  have hne : v ≠ "" := ALIAS_values_ne _ (mem_of_mapGet ALIAS _ v hv)
  have key : ∀ h', csvNorm rt h' = csvNorm rt h → canonicalHeader rt h' = v := by
    intro h' e
    unfold canonicalHeader
    rw [e, hv]
    simp only []
    rw [if_pos hne]
  exact ⟨key h rfl, key, by set_option maxRecDepth 100000 in decide⟩

set_option maxRecDepth 100000 in
theorem canonicalHeader_alias_witness :
    canonicalHeader asciiRuntime "Num_Trabajador" = "numTrabajador" :=
  (canonicalHeader_alias asciiRuntime "Num_Trabajador" "numTrabajador" (by decide)).1

end Normalizer

section Pagination

open HorarioGeneral

theorem drawThreeRowHeader_margin :
    drawThreeRowHeader MARGIN
      = ([DocOp.headerBand 38 22, DocOp.headerBand 60 22, DocOp.headerBand 82 22], 104) := by
  simp only [drawThreeRowHeader, MARGIN, BAND_H]
  norm_num

theorem ensurePage_fits (currentY neededH : ℚ) (h : currentY + neededH ≤ PAGE_h - MARGIN) :
    ensurePage currentY neededH = ([], currentY) := by
  unfold ensurePage
  simp only []
  rw [if_neg (not_lt.2 h)]

theorem ensurePage_breaks (currentY neededH : ℚ) (h : PAGE_h - MARGIN < currentY + neededH) :
    ensurePage currentY neededH
      = (DocOp.addPage :: (drawThreeRowHeader MARGIN).1, MARGIN + BAND_H * 3) := by
  unfold ensurePage
  simp only []
  rw [if_pos h]
  rfl

/-- C12: when `currentY + neededH` does not exceed the bottom bound
`PAGE.h - MARGIN`, `ensurePage` returns `currentY` and does nothing to the
document; otherwise it adds exactly one page, draws the three bands of the
header with the top of the first at `MARGIN`, and returns
`MARGIN + 3 * BAND_H`. -/
theorem ensurePage_spec (currentY neededH : ℚ) :
    (currentY + neededH ≤ PAGE_h - MARGIN → ensurePage currentY neededH = ([], currentY)) ∧
      (PAGE_h - MARGIN < currentY + neededH →
        (ensurePage currentY neededH).1
            = DocOp.addPage :: (drawThreeRowHeader MARGIN).1 ∧
          (ensurePage currentY neededH).1
            = [DocOp.addPage, DocOp.headerBand MARGIN BAND_H,
                DocOp.headerBand (MARGIN + BAND_H) BAND_H,
                DocOp.headerBand (MARGIN + BAND_H * 2) BAND_H] ∧
          ((ensurePage currentY neededH).1.filter (fun op => op = DocOp.addPage)).length = 1 ∧
          (ensurePage currentY neededH).2 = MARGIN + 3 * BAND_H) := by
  refine ⟨ensurePage_fits currentY neededH, ?_⟩
  intro h
  rw [ensurePage_breaks currentY neededH h]
  refine ⟨rfl, rfl, ?_, ?_⟩
  · simp [drawThreeRowHeader]
  · show MARGIN + BAND_H * 3 = MARGIN + 3 * BAND_H
    ring

theorem ensurePage_spec_witness :
    ensurePage 100 40 = ([], 100) ∧
      (ensurePage 540 40).1
        = [DocOp.addPage, DocOp.headerBand MARGIN BAND_H,
            DocOp.headerBand (MARGIN + BAND_H) BAND_H,
            DocOp.headerBand (MARGIN + BAND_H * 2) BAND_H] ∧
      (ensurePage 540 40).2 = MARGIN + 3 * BAND_H :=
  ⟨(ensurePage_spec 100 40).1 (by norm_num [PAGE_h, MARGIN]),
    ((ensurePage_spec 540 40).2 (by norm_num [PAGE_h, MARGIN])).2.1,
    ((ensurePage_spec 540 40).2 (by norm_num [PAGE_h, MARGIN])).2.2.2⟩

/-- After `ensurePage`, a row that fits below the header of a fresh page lies
above the bottom bound. -/
theorem ensurePage_room (y rh : ℚ) (hroom : rh ≤ PAGE_h - MARGIN - (MARGIN + BAND_H * 3)) :
    (ensurePage y rh).2 + rh ≤ PAGE_h - MARGIN := by
  by_cases h : y + rh ≤ PAGE_h - MARGIN
  · rw [ensurePage_fits y rh h]; exact h
  · rw [ensurePage_breaks y rh (not_le.1 h)]
    show MARGIN + BAND_H * 3 + rh ≤ PAGE_h - MARGIN
    linarith

theorem ensurePage_no_row (y rh : ℚ) (kind : String) (top h : ℚ) :
    DocOp.row kind top h ∉ (ensurePage y rh).1 := by
  by_cases hf : y + rh ≤ PAGE_h - MARGIN
  · rw [ensurePage_fits y rh hf]; simp
  · rw [ensurePage_breaks y rh (not_le.1 hf)]; simp [drawThreeRowHeader]

theorem drawRow_ops (m : Measure) (topY : ℚ) (nameInfo : Option NameInfo) (nomText : String)
    (kind : String) (values : List (Int × Int)) :
    (drawRow m topY nameInfo nomText kind values).1
      = [DocOp.row kind topY (calcRowHeight m nameInfo nomText)] := rfl

theorem drawRow_some (m : Measure) (topY : ℚ) (nameInfo : Option NameInfo) (nomText : String)
    (kind : String) (values : List (Int × Int)) (h : 4 ≤ values.length) :
    (drawRow m topY nameInfo nomText kind values).2 = some (calcRowHeight m nameInfo nomText) := by
  have h0 : values[0]? = some (values.get ⟨0, by omega⟩) := List.getElem?_eq_getElem _
  have h1 : values[1]? = some (values.get ⟨1, by omega⟩) := List.getElem?_eq_getElem _
  have h2 : values[2]? = some (values.get ⟨2, by omega⟩) := List.getElem?_eq_getElem _
  have h3 : values[3]? = some (values.get ⟨3, by omega⟩) := List.getElem?_eq_getElem _
  simp only [drawRow, List.mapM_cons, List.mapM_nil, h0, h1, h2, h3]
  rfl

theorem drawRow_throws (m : Measure) (topY : ℚ) (nameInfo : Option NameInfo) (nomText : String)
    (kind : String) (values : List (Int × Int)) (h : values.length < 4) :
    (drawRow m topY nameInfo nomText kind values).2 = none := by
  match values, h with
  | [], _ => rfl
  | [_], _ => rfl
  | [_, _], _ => rfl
  | [_, _, _], _ => rfl
  | _ :: _ :: _ :: _ :: _, h => simp at h; omega

theorem drawSubjects_cons (m : Measure) (prof : Prof) (idx : Nat) (subj : Subject)
    (rest : List Subject) (y : ℚ) :
    (drawSubjects m prof idx (subj :: rest) y).1
      = (ensurePage y (calcRowHeight m
            (if idx = 0 then some { name := prof.name, rfc := prof.rfc, worker := prof.worker }
              else none) subj.nom)).1
          ++ [DocOp.row "PARCIAL"
              (ensurePage y (calcRowHeight m
                (if idx = 0 then some { name := prof.name, rfc := prof.rfc, worker := prof.worker }
                  else none) subj.nom)).2
              (calcRowHeight m
                (if idx = 0 then some { name := prof.name, rfc := prof.rfc, worker := prof.worker }
                  else none) subj.nom)]
          ++ (if subj.parcial.length < 4 then []
              else (drawSubjects m prof (idx + 1) rest
                ((ensurePage y (calcRowHeight m
                  (if idx = 0 then
                    some { name := prof.name, rfc := prof.rfc, worker := prof.worker }
                  else none) subj.nom)).2
                  + calcRowHeight m
                    (if idx = 0 then
                      some { name := prof.name, rfc := prof.rfc, worker := prof.worker }
                    else none) subj.nom)).1) ∧
      (drawSubjects m prof idx (subj :: rest) y).2
        = (if subj.parcial.length < 4 then none
            else (drawSubjects m prof (idx + 1) rest
              ((ensurePage y (calcRowHeight m
                (if idx = 0 then
                  some { name := prof.name, rfc := prof.rfc, worker := prof.worker }
                else none) subj.nom)).2
                + calcRowHeight m
                  (if idx = 0 then
                    some { name := prof.name, rfc := prof.rfc, worker := prof.worker }
                  else none) subj.nom)).2) := by
  by_cases h : subj.parcial.length < 4
  · simp only [drawSubjects, drawRow_ops, drawRow_throws _ _ _ _ _ _ h, if_pos h,
      List.append_nil]
    exact ⟨trivial, trivial⟩
  · simp only [drawSubjects, drawRow_ops, drawRow_some _ _ _ _ _ _ (not_lt.1 h), if_neg h]
    exact ⟨trivial, trivial⟩

theorem drawSubjects_rows (m : Measure) (prof : Prof) (subjects : List Subject) :
    ∀ (idx : Nat) (y : ℚ) (kind : String) (top h : ℚ),
      DocOp.row kind top h ∈ (drawSubjects m prof idx subjects y).1 →
      kind = "PARCIAL" ∧
        (h ≤ PAGE_h - MARGIN - (MARGIN + BAND_H * 3) → top + h ≤ PAGE_h - MARGIN) := by
  induction subjects with
  | nil => intro idx y kind top h hm; simp [drawSubjects] at hm
  | cons s t ih =>
    intro idx y kind top h hm
    rw [(drawSubjects_cons m prof idx s t y).1, List.mem_append, List.mem_append,
      List.mem_singleton] at hm
    rcases hm with (hm | hm) | hm
    · exact absurd hm (ensurePage_no_row _ _ _ _ _)
    · injection hm with h1 h2 h3
      refine ⟨h1, fun hroom => ?_⟩
      rw [h2, h3]
      exact ensurePage_room _ _ (h3 ▸ hroom)
    · split at hm
      · cases hm
      · exact ih _ _ kind top h hm

theorem drawSubjects_some (m : Measure) (prof : Prof) (subjects : List Subject)
    (hlen : ∀ s ∈ subjects, 4 ≤ s.parcial.length) :
    ∀ (idx : Nat) (y : ℚ), ∃ y1, (drawSubjects m prof idx subjects y).2 = some y1 := by
  induction subjects with
  | nil => intro idx y; exact ⟨y, rfl⟩
  | cons s t ih =>
    intro idx y
    rw [(drawSubjects_cons m prof idx s t y).2,
      if_neg (not_lt.2 (hlen s (List.mem_cons_self _ _)))]
    exact ih (fun x hx => hlen x (List.mem_cons_of_mem _ hx)) _ _

theorem calcRowHeight_total (m : Measure) : calcRowHeight m none "" = 40 := by
  simp only [calcRowHeight]
  norm_num

theorem calcRowHeight_tall :
    calcRowHeight tallMeasure (some { name := "A", rfc := "X1", worker := "N/D" })
      "PROFESOR DE ASIGNATURA \"A\"" = 2012 := by
  simp only [calcRowHeight, tallMeasure]
  have h1 : ("PROFESOR DE ASIGNATURA \"A\"" : String) ≠ "" := by decide
  rw [if_pos h1]
  have h2 : max (max (4 + 1000 + 4 + 1000 + 4 : ℚ) (10 + 1000 + 6)) 24 = ((2012 : ℤ) : ℚ) := by
    norm_num
  rw [h2, Int.ceil_intCast]
  norm_num

/-- The operations of `drawProfessor`: those of the partial rows, then, unless
these or the totals throw, a page break if needed and the frame of the total
row. -/
theorem drawProfessor_ops (m : Measure) (startY : ℚ) (prof : Prof) (op : DocOp)
    (h : op ∈ (drawProfessor m startY prof).1) :
    op ∈ (drawSubjects m prof 0 prof.subjects startY).1 ∨
      ∃ y, (drawSubjects m prof 0 prof.subjects startY).2 = some y ∧
        (op ∈ (ensurePage y (calcRowHeight m none "")).1 ∨
          op = DocOp.row "TOTAL" (ensurePage y (calcRowHeight m none "")).2
            (calcRowHeight m none "")) := by
  unfold drawProfessor at h
  simp only [drawRow_ops] at h
  cases hs : (drawSubjects m prof 0 prof.subjects startY).2 with
  | none =>
    rw [hs] at h
    exact Or.inl h
  | some y =>
    rw [hs] at h
    simp only [] at h
    cases ht : drawProfessor_total prof with
    | none =>
      rw [ht] at h
      exact Or.inl h
    | some total =>
      rw [ht] at h
      simp only [] at h
      have hmem : op ∈ (drawSubjects m prof 0 prof.subjects startY).1
          ++ (ensurePage y (calcRowHeight m none "")).1
          ++ [DocOp.row "TOTAL" (ensurePage y (calcRowHeight m none "")).2
            (calcRowHeight m none "")] := by
        split at h <;> exact h
      rw [List.mem_append, List.mem_append, List.mem_singleton] at hmem
      rcases hmem with (hmem | hmem) | hmem
      · exact Or.inl hmem
      · exact Or.inr ⟨y, rfl, Or.inl hmem⟩
      · exact Or.inr ⟨y, rfl, Or.inr hmem⟩

/-- When every bucket has at least four slots `drawProfessor` returns, having
drawn the total row. -/
theorem drawProfessor_returns (m : Measure) (startY : ℚ) (prof : Prof)
    (hlen : ∀ s ∈ prof.subjects, 4 ≤ s.parcial.length) :
    ∃ y top, (drawProfessor m startY prof).2 = some y ∧
      DocOp.row "TOTAL" top 40 ∈ (drawProfessor m startY prof).1 := by
  obtain ⟨y1, hy1⟩ := drawSubjects_some m prof prof.subjects hlen 0 startY
  have ht := drawProfessor_total_eq prof hlen
  have hr : ∀ topY, (drawRow m topY none "" "TOTAL" ((List.range 4).map (fun i =>
      ((prof.subjects.map (fun s => (s.parcial.getD i (0, 0)).1)).sum,
        (prof.subjects.map (fun s => (s.parcial.getD i (0, 0)).2)).sum)))).2
      = some (calcRowHeight m none "") :=
    fun topY => drawRow_some m topY none "" "TOTAL" _ (by simp)
  unfold drawProfessor
  simp only [hy1, ht, hr, drawRow_ops, calcRowHeight_total]
  exact ⟨_, (ensurePage y1 40).2, rfl, by simp⟩

theorem drawProfessor_subjects_ops (m : Measure) (startY : ℚ) (prof : Prof) (op : DocOp)
    (h : op ∈ (drawSubjects m prof 0 prof.subjects startY).1) :
    op ∈ (drawProfessor m startY prof).1 := by
  unfold drawProfessor
  simp only []
  split
  · exact h
  · split
    · exact h
    · split
      · exact List.mem_append_left _ (List.mem_append_left _ h)
      · exact List.mem_append_left _ (List.mem_append_left _ h)

/-- C11 (as stated, refuted): under a text measure that makes the first row
2012 points high, `drawProfessor` started at `y = 104` on a holder with one
bucket of four slots breaks the page and draws that row at the top `104`, so
that `104 + 2012` exceeds the bottom bound `PAGE.h - MARGIN`; the call
returns. -/
theorem drawProfessor_row_overflows :
    DocOp.row "PARCIAL" 104 2012 ∈ (drawProfessor tallMeasure 104 fourSlotHolder).1 ∧
      ¬ ((104 : ℚ) + 2012 ≤ PAGE_h - MARGIN) ∧
      ∃ y, (drawProfessor tallMeasure 104 fourSlotHolder).2 = some y := by
  refine ⟨?_, by norm_num [PAGE_h, MARGIN], ?_⟩
  · apply drawProfessor_subjects_ops
    have hb : PAGE_h - MARGIN < (104 : ℚ) + 2012 := by norm_num [PAGE_h, MARGIN]
    have he := ensurePage_breaks 104 2012 hb
    have hc := (drawSubjects_cons tallMeasure fourSlotHolder 0
      { nom := "PROFESOR DE ASIGNATURA \"A\"", parcial := [(4, 0), (2, 1), (0, 0), (0, 0)] }
      [] 104).1
    have e : fourSlotHolder.subjects
        = [{ nom := "PROFESOR DE ASIGNATURA \"A\"",
             parcial := [(4, 0), (2, 1), (0, 0), (0, 0)] }] := rfl
    rw [e, hc]
    simp only [fourSlotHolder, if_true, calcRowHeight_tall, he, List.mem_append,
      List.mem_singleton]
    left; right
    norm_num [MARGIN, BAND_H]
  · obtain ⟨y, _, hy, _⟩ := drawProfessor_returns tallMeasure 104 fourSlotHolder (by decide)
    exact ⟨y, hy⟩

/-- C11 (amended): for every professor, every starting cursor and every
text-height measure, each row that `drawProfessor` draws whose measured height
is at most the room below the header on a fresh page,
`PAGE.h - MARGIN - (MARGIN + 3 * BAND_H)`, is drawn at a top `y` with
`y + rh ≤ PAGE.h - MARGIN`; the total row is 40 high and so always is; and
`drawProfessor` returns, with the total row drawn, when every bucket of the
professor has at least four period slots. -/
theorem drawProfessor_rows_fit (m : Measure) (startY : ℚ) (prof : Prof) :
    (∀ (kind : String) (top h : ℚ),
        DocOp.row kind top h ∈ (drawProfessor m startY prof).1 →
        (h ≤ PAGE_h - MARGIN - (MARGIN + BAND_H * 3) → top + h ≤ PAGE_h - MARGIN) ∧
          (kind = "TOTAL" → h = 40 ∧ top + h ≤ PAGE_h - MARGIN)) ∧
      ((∀ s ∈ prof.subjects, 4 ≤ s.parcial.length) →
        ∃ y top, (drawProfessor m startY prof).2 = some y ∧
          DocOp.row "TOTAL" top 40 ∈ (drawProfessor m startY prof).1) := by
  refine ⟨?_, drawProfessor_returns m startY prof⟩
  intro kind top h hm
  have h40 : (40 : ℚ) ≤ PAGE_h - MARGIN - (MARGIN + BAND_H * 3) := by
    norm_num [PAGE_h, MARGIN, BAND_H]
  rcases drawProfessor_ops m startY prof _ hm with hs | ⟨y, _, hs | hs⟩
  · have := drawSubjects_rows m prof _ _ _ kind top h hs
    refine ⟨this.2, fun hk => ?_⟩
    rw [this.1] at hk
    exact absurd hk (by decide)
  · exact absurd hs (ensurePage_no_row _ _ _ _ _)
  · injection hs with _ h2 h3
    rw [h2, h3]
    refine ⟨fun hroom => ensurePage_room _ _ hroom, fun _ => ⟨calcRowHeight_total m, ?_⟩⟩
    exact ensurePage_room _ _ (by rw [calcRowHeight_total]; exact h40)

theorem drawProfessor_rows_fit_witness :
    (∀ s ∈ fourSlotHolder.subjects, 4 ≤ s.parcial.length) ∧
      ∃ y top, (drawProfessor tallMeasure 104 fourSlotHolder).2 = some y ∧
        DocOp.row "TOTAL" top 40 ∈ (drawProfessor tallMeasure 104 fourSlotHolder).1 ∧
        top + 40 ≤ PAGE_h - MARGIN := by
  have hlen : ∀ s ∈ fourSlotHolder.subjects, 4 ≤ s.parcial.length := by decide
  obtain ⟨y, top, hy, hrow⟩ := (drawProfessor_rows_fit tallMeasure 104 fourSlotHolder).2 hlen
  exact ⟨hlen, y, top, hy, hrow,
    (((drawProfessor_rows_fit tallMeasure 104 fourSlotHolder).1 "TOTAL" top 40 hrow).2 rfl).2⟩

end Pagination

section Csv

open PropuestaPdf

/-- Inside quotes, characters other than the double quote are appended to the
field. -/
theorem parseLoop_plain (s : List Char) (hs : '"' ∉ s) :
    ∀ (rest : List Char) (rows : List (List String)) (record : List String)
      (field : List Char),
      parseLoop (s ++ rest) ⟨rows, record, field, true, false⟩
        = parseLoop rest ⟨rows, record, field ++ s, true, false⟩ := by
  induction s with
  | nil => intro rest rows record field; simp
  | cons c t ih =>
    intro rest rows record field
    have hc : c ≠ '"' := fun e => hs (e ▸ List.mem_cons_self _ _)
    have ht : '"' ∉ t := fun e => hs (List.mem_cons_of_mem _ e)
    rw [List.cons_append, parseLoop]
    have hstep : parseStep ⟨rows, record, field, true, false⟩ c (t ++ rest).head?
        = ⟨rows, record, field ++ [c], true, false⟩ := by
      simp [parseStep, hc]
    rw [hstep, ih ht]
    simp

/-- C16: `parseCSV` returns a list of records on every text (it is a total
function), and on a text made of a double quote followed by a non-empty string
`s` without double quotes it returns the single record whose single field is
`s`. -/
theorem parseCSV_unclosed_quote (s : String) (hne : s ≠ "") (hq : '"' ∉ s.data) :
    (∀ text : String, ∃ rows, parseCSV text = rows) ∧
      parseCSV ⟨'"' :: s.data⟩ = [[s]] := by
  refine ⟨fun text => ⟨_, rfl⟩, ?_⟩
  have h1 : parseLoop ('"' :: s.data) ⟨[], [], [], false, false⟩
      = parseLoop s.data ⟨[], [], [], true, false⟩ := by
    rw [parseLoop]
    have : parseStep ⟨[], [], [], false, false⟩ '"' s.data.head? = ⟨[], [], [], true, false⟩ := by
      simp [parseStep]
    rw [this]
  have h2 := parseLoop_plain s.data hq [] [] [] []
  rw [List.append_nil, List.nil_append] at h2
  have h3 : parseLoop ([] : List Char) ⟨[], [], s.data, true, false⟩
      = ⟨[], [], s.data, true, false⟩ := rfl
  have hd : s.data ≠ [] := by
    intro h
    apply hne
    cases s
    simp_all
  unfold parseCSV
  simp only [h1, h2, h3]
  rw [if_pos (Or.inl hd)]
  rfl

set_option maxRecDepth 100000 in
theorem parseCSV_unclosed_quote_witness :
    (∀ text : String, ∃ rows, parseCSV text = rows) ∧
      parseCSV ⟨'"' :: "a,b\nc".data⟩ = [["a,b\nc"]] :=
  parseCSV_unclosed_quote "a,b\nc" (by decide) (by decide)

/-- The doubled quotes of a written field are read back as the field. -/
theorem parseLoop_escaped (f : List Char) :
    ∀ (rest : List Char) (rows : List (List String)) (record : List String)
      (field : List Char),
      parseLoop (f.flatMap (fun c => if c = '"' then ['"', '"'] else [c]) ++ rest)
          ⟨rows, record, field, true, false⟩
        = parseLoop rest ⟨rows, record, field ++ f, true, false⟩ := by
  induction f with
  | nil => intro rest rows record field; simp
  | cons c t ih =>
    intro rest rows record field
    rw [List.flatMap_cons]
    by_cases hc : c = '"'
    · subst hc
      rw [if_pos rfl]
      simp only [List.cons_append, List.nil_append, List.append_assoc]
      rw [parseLoop]
      have h1 : parseStep ⟨rows, record, field, true, false⟩ '"'
          ('"' :: (t.flatMap (fun c => if c = '"' then ['"', '"'] else [c]) ++ rest)).head?
          = ⟨rows, record, field ++ ['"'], true, true⟩ := by
        simp [parseStep]
      rw [h1, parseLoop]
      have h2 : parseStep ⟨rows, record, field ++ ['"'], true, true⟩ '"'
          (t.flatMap (fun c => if c = '"' then ['"', '"'] else [c]) ++ rest).head?
          = ⟨rows, record, field ++ ['"'], true, false⟩ := by
        simp [parseStep]
      rw [h2, ih]
      simp
    · rw [if_neg hc]
      simp only [List.cons_append, List.nil_append, List.append_assoc]
      rw [parseLoop]
      have h1 : parseStep ⟨rows, record, field, true, false⟩ c
          (t.flatMap (fun c => if c = '"' then ['"', '"'] else [c]) ++ rest).head?
          = ⟨rows, record, field ++ [c], true, false⟩ := by
        simp [parseStep, hc]
      rw [h1, ih]
      simp

/-- A written field followed by something other than a double quote is read
back as the field. -/
theorem parseLoop_quoted (f : String) (rest : List Char) (hrest : rest.head? ≠ some '"')
    (rows : List (List String)) (record : List String) :
    parseLoop (csvQuote f ++ rest) ⟨rows, record, [], false, false⟩
      = parseLoop rest ⟨rows, record, f.data, false, false⟩ := by
  unfold csvQuote
  simp only [List.cons_append, List.append_assoc, List.nil_append]
  rw [parseLoop]
  have h1 : parseStep ⟨rows, record, [], false, false⟩ '"'
      (f.data.flatMap (fun c => if c = '"' then ['"', '"'] else [c]) ++ '"' :: rest).head?
      = ⟨rows, record, [], true, false⟩ := by
    simp [parseStep]
  rw [h1, parseLoop_escaped, parseLoop]
  have h2 : parseStep ⟨rows, record, [] ++ f.data, true, false⟩ '"' rest.head?
      = ⟨rows, record, f.data, false, false⟩ := by
    simp [parseStep, hrest]
  rw [h2]

theorem parseLoop_terminator (crlf : Bool) (rest : List Char) (rows : List (List String))
    (record : List String) (field : List Char) :
    parseLoop ((if crlf then ['\r', '\n'] else ['\n']) ++ rest)
        ⟨rows, record, field, false, false⟩
      = parseLoop rest ⟨rows ++ [record ++ [String.mk field]], [], [], false, false⟩ := by
  cases crlf with
  | false =>
    simp only [Bool.false_eq_true, if_false, List.cons_append, List.nil_append]
    rw [parseLoop]
    have h1 : parseStep ⟨rows, record, field, false, false⟩ '\n' rest.head?
        = ⟨rows ++ [record ++ [String.mk field]], [], [], false, false⟩ := by
      simp [parseStep]
    rw [h1]
  | true =>
    simp only [if_true, List.cons_append, List.nil_append]
    rw [parseLoop]
    have h0 : parseStep ⟨rows, record, field, false, false⟩ '\r' ('\n' :: rest).head?
        = ⟨rows, record, field, false, false⟩ := by
      simp [parseStep]
    rw [h0, parseLoop]
    have h1 : parseStep ⟨rows, record, field, false, false⟩ '\n' rest.head?
        = ⟨rows ++ [record ++ [String.mk field]], [], [], false, false⟩ := by
      simp [parseStep]
    rw [h1]

theorem terminator_head (crlf : Bool) (rest : List Char) :
    ((if crlf then ['\r', '\n'] else ['\n']) ++ rest).head? ≠ some '"' := by
  cases crlf <;> simp

/-- A written record is read back as the record. -/
theorem parseLoop_record (fields : List String) (hne : fields ≠ []) (crlf : Bool)
    (rest : List Char) (rows : List (List String)) :
    ∀ record : List String,
      parseLoop (csvRecord (fields, crlf) ++ rest) ⟨rows, record, [], false, false⟩
        = parseLoop rest ⟨rows ++ [record ++ fields], [], [], false, false⟩ := by
  induction fields with
  | nil => exact absurd rfl hne
  | cons f t ih =>
    intro record
    cases t with
    | nil =>
      simp only [csvRecord, csvJoin, List.append_assoc]
      rw [parseLoop_quoted f _ (terminator_head crlf rest), parseLoop_terminator]
    | cons g t' =>
      have ih' := ih (by simp) (record ++ [f])
      simp only [csvRecord, csvJoin, List.append_assoc, List.cons_append] at ih' ⊢
      rw [parseLoop_quoted f _ (by simp), parseLoop]
      have h1 : parseStep ⟨rows, record, f.data, false, false⟩ ','
          (csvJoin (g :: t') ++ ((if crlf then ['\r', '\n'] else ['\n']) ++ rest)).head?
          = ⟨rows, record ++ [f], [], false, false⟩ := by
        simp [parseStep]
      rw [h1, ih']
      simp

/-- The written records are read back in order. -/
theorem parseLoop_records (recs : List (List String × Bool))
    (hne : ∀ r ∈ recs, r.1 ≠ []) :
    ∀ rows : List (List String),
      parseLoop (recs.flatMap csvRecord) ⟨rows, [], [], false, false⟩
        = ⟨rows ++ recs.map Prod.fst, [], [], false, false⟩ := by
  induction recs with
  | nil => intro rows; simp [parseLoop]
  | cons r t ih =>
    intro rows
    rw [List.flatMap_cons]
    have hr := parseLoop_record r.1 (hne r (List.mem_cons_self _ _)) r.2
      (t.flatMap csvRecord) rows []
    rw [hr, ih (fun x hx => hne x (List.mem_cons_of_mem _ hx))]
    simp

/-- C15: round trip of `parseCSV`. For every list of records with at least one
field each, the text in which every field is wrapped in double quotes with its
inner double quotes doubled, fields are joined with commas and every record is
ended by LF or by CR-LF, is parsed back to the list of records. -/
theorem parseCSV_csvText (recs : List (List String × Bool)) (hne : ∀ r ∈ recs, r.1 ≠ []) :
    parseCSV (csvText recs) = recs.map Prod.fst := by
  unfold parseCSV csvText
  simp only [parseLoop_records recs hne []]
  simp

set_option maxRecDepth 100000 in
theorem parseCSV_csvText_witness :
    parseCSV (csvText [(["a\"b", "", "c,d\r\n"], true), ([""], false)])
      = [["a\"b", "", "c,d\r\n"], [""]] :=
  parseCSV_csvText [(["a\"b", "", "c,d\r\n"], true), ([""], false)] (by decide)

end Csv

section Plurality

open PropuestaPdf

/-- The map of counts of a list of strings, built as `mostFrequentNonEmpty`
builds `freq`. -/
theorem countValues_eq (values : List JSVal) :
    countValues values
      = (countedValues values).foldl
          (fun freq s => mapSet freq s ((mapGet freq s).getD 0 + 1)) [] := by
  unfold countValues countedValues
  generalize ([] : List (String × Int)) = acc
  induction values generalizing acc with
  | nil => rfl
  | cons v t ih =>
    rw [List.foldl_cons, List.map_cons]
    by_cases hc : cleanValue v = "" ∨ cleanValue v = "-"
    · have hf : ¬ (cleanValue v ≠ "" ∧ cleanValue v ≠ "-") := by
        rintro ⟨h1, h2⟩
        rcases hc with h | h
        · exact h1 h
        · exact h2 h
      simp only [hc, if_true]
      rw [List.filter_cons_of_neg (by simpa using hf)]
      exact ih acc
    · have hf : cleanValue v ≠ "" ∧ cleanValue v ≠ "-" :=
        ⟨fun h => hc (Or.inl h), fun h => hc (Or.inr h)⟩
      simp only [hc, if_false]
      rw [List.filter_cons_of_pos (by simpa using hf), List.foldl_cons]
      exact ih _

theorem countFold_snoc (P : List String) (s : String) :
    (P ++ [s]).foldl (fun freq s => mapSet freq s ((mapGet freq s).getD 0 + 1))
        ([] : List (String × Int))
      = mapSet (P.foldl (fun freq s => mapSet freq s ((mapGet freq s).getD 0 + 1)) []) s
          ((mapGet (P.foldl (fun freq s => mapSet freq s ((mapGet freq s).getD 0 + 1)) []) s).getD 0
            + 1) := by
  rw [List.foldl_append]
  rfl

/-- The map of counts: keys are distinct, each string that occurs is mapped to
its number of occurrences, and keys are in the order of first occurrence. -/
theorem countFold_spec (P : List String) :
    ((P.foldl (fun freq s => mapSet freq s ((mapGet freq s).getD 0 + 1))
        ([] : List (String × Int))).map Prod.fst).Nodup ∧
      (∀ k, mapGet (P.foldl (fun freq s => mapSet freq s ((mapGet freq s).getD 0 + 1))
          ([] : List (String × Int))) k
        = if k ∈ P then some (P.count k : Int) else none) ∧
      ((P.foldl (fun freq s => mapSet freq s ((mapGet freq s).getD 0 + 1))
        ([] : List (String × Int))).map Prod.fst).Pairwise
          (fun a b => P.indexOf a < P.indexOf b) := by
  induction P using List.reverseRecOn with
  | nil => exact ⟨List.nodup_nil, fun k => by simp [mapGet_nil], List.Pairwise.nil⟩
  | append_singleton P s ih =>
    obtain ⟨h1, h2, h3⟩ := ih
    rw [countFold_snoc]
    generalize hF : P.foldl (fun freq s => mapSet freq s ((mapGet freq s).getD 0 + 1))
      ([] : List (String × Int)) = F at h1 h2 h3 ⊢
    have hkeys : ∀ a ∈ F.map Prod.fst, a ∈ P := by
      intro a ha
      have := (mapHas_iff_mem_keys F a).2 ha
      rw [mapHas_eq_isSome, h2 a] at this
      by_contra hn
      rw [if_neg hn] at this
      cases this
    refine ⟨mapSet_keys_nodup _ _ _ h1, ?_, ?_⟩
    · intro k
      rw [mapGet_mapSet]
      by_cases hk : k = s
      · subst hk
        simp only [↓reduceIte, h2 k]
        by_cases hm : k ∈ P
        · simp [hm]
        · simp [hm, List.count_eq_zero_of_not_mem hm]
      · have hk' : ¬ s = k := fun e => hk e.symm
        simp only [hk, ↓reduceIte, h2 k]
        by_cases hm : k ∈ P
        · simp [hm, List.count_singleton', hk']
        · simp [hm, hk]
    · rw [mapSet_keys]
      have hmono : (F.map Prod.fst).Pairwise
          (fun a b => (P ++ [s]).indexOf a < (P ++ [s]).indexOf b) := by
        refine List.Pairwise.imp_of_mem ?_ h3
        intro a b ha hb hab
        rw [List.indexOf_append_of_mem (hkeys a ha), List.indexOf_append_of_mem (hkeys b hb)]
        exact hab
      by_cases hh : mapHas F s = true
      · rw [if_pos hh]; exact hmono
      · rw [if_neg hh, List.pairwise_append]
        refine ⟨hmono, List.pairwise_singleton _ _, ?_⟩
        intro a ha b hb
        rw [List.mem_singleton] at hb
        subst hb
        have hs : b ∉ P := by
          intro hm
          apply hh
          rw [mapHas_eq_isSome, h2 b, if_pos hm]
          rfl
        rw [List.indexOf_append_of_mem (hkeys a ha), List.indexOf_append_of_not_mem hs]
        have := List.indexOf_lt_length.2 (hkeys a ha)
        simp
        omega

/-- The second loop picks the first entry of greatest count. -/
theorem pickFold_spec (L : List (String × Int)) :
    ∀ b : String × Int,
      (L.foldl (fun b e => if e.2 > b.2 then (e.1, e.2) else b) b = b ∧ ∀ e ∈ L, e.2 ≤ b.2) ∨
      ∃ L₁ k c L₂, L = L₁ ++ (k, c) :: L₂ ∧
        L.foldl (fun b e => if e.2 > b.2 then (e.1, e.2) else b) b = (k, c) ∧
        b.2 < c ∧ (∀ e ∈ L₁, e.2 < c) ∧ ∀ e ∈ L₂, e.2 ≤ c := by
  induction L with
  | nil => intro b; left; exact ⟨rfl, fun e he => by cases he⟩
  | cons e t ih =>
    intro b
    rw [List.foldl_cons]
    by_cases he : e.2 > b.2
    · rw [if_pos he]
      right
      rcases ih (e.1, e.2) with ⟨h1, h2⟩ | ⟨T₁, k, c, T₂, h1, h2, h3, h4, h5⟩
      · exact ⟨[], e.1, e.2, t, rfl, h1, he, fun x hx => absurd hx (List.not_mem_nil x), h2⟩
      · refine ⟨e :: T₁, k, c, T₂, by rw [h1]; rfl, h2, lt_trans he h3, ?_, h5⟩
        intro x hx
        rcases List.mem_cons.1 hx with hx | hx
        · rw [hx]; exact h3
        · exact h4 x hx
    · rw [if_neg he]
      have he' : e.2 ≤ b.2 := not_lt.1 he
      rcases ih b with ⟨h1, h2⟩ | ⟨T₁, k, c, T₂, h1, h2, h3, h4, h5⟩
      · left
        refine ⟨h1, ?_⟩
        intro x hx
        rcases List.mem_cons.1 hx with hx | hx
        · rw [hx]; exact he'
        · exact h2 x hx
      · right
        refine ⟨e :: T₁, k, c, T₂, by rw [h1]; rfl, h2, h3, ?_, h5⟩
        intro x hx
        rcases List.mem_cons.1 hx with hx | hx
        · rw [hx]; exact lt_of_le_of_lt he' h3
        · exact h4 x hx

theorem mostFrequentNonEmpty_eq (values : List JSVal) :
    mostFrequentNonEmpty values = (pickBest (countValues values)).1 := by
  unfold mostFrequentNonEmpty
  simp only []
  by_cases h : (pickBest (countValues values)).1 = ""
  · rw [if_neg (not_not.2 h), h]
  · rw [if_pos h]

/-- The result on a non-empty list of counted values: it is one of them, of
greatest count, and first-seen among those of that count. -/
theorem mostFrequent_of_counted (values : List JSVal) (hne : countedValues values ≠ []) :
    mostFrequentNonEmpty values ∈ countedValues values ∧
      (∀ v ∈ countedValues values,
        (countedValues values).count v
          ≤ (countedValues values).count (mostFrequentNonEmpty values)) ∧
      (∀ v ∈ countedValues values,
        (countedValues values).count v
            = (countedValues values).count (mostFrequentNonEmpty values) →
          (countedValues values).indexOf (mostFrequentNonEmpty values)
            ≤ (countedValues values).indexOf v) := by
  rw [mostFrequentNonEmpty_eq, pickBest, countValues_eq]
  generalize hV : countedValues values = V at hne ⊢
  obtain ⟨h1, h2, h3⟩ := countFold_spec V
  generalize hL : V.foldl (fun freq s => mapSet freq s ((mapGet freq s).getD 0 + 1))
    ([] : List (String × Int)) = L at h1 h2 h3 ⊢
  have hmem : ∀ v ∈ V, (v, (V.count v : Int)) ∈ L := by
    intro v hv
    apply mem_of_mapGet
    rw [h2 v, if_pos hv]
  have hof : ∀ e ∈ L, e.1 ∈ V ∧ e.2 = (V.count e.1 : Int) := by
    intro e he
    have := mapGet_of_mem L h1 e he
    rw [h2 e.1] at this
    by_cases hm : e.1 ∈ V
    · rw [if_pos hm] at this
      exact ⟨hm, (Option.some.inj this).symm⟩
    · rw [if_neg hm] at this
      cases this
  rcases pickFold_spec L ("", -1) with ⟨_, hall⟩ | ⟨L₁, k, c, L₂, hsplit, hres, _, hlt, hle⟩
  · exfalso
    obtain ⟨v, hv⟩ := List.exists_mem_of_ne_nil V hne
    have := hall _ (hmem v hv)
    simp only at this
    have h0 : (0 : Int) ≤ (V.count v : Int) := Int.natCast_nonneg _
    omega
  · rw [hres]
    have hk : (k, c) ∈ L := by rw [hsplit]; simp
    obtain ⟨hkV, hc⟩ := hof _ hk
    simp only at hkV hc
    have hcases : ∀ v ∈ V, ((v, (V.count v : Int)) ∈ L₁) ∨ (v = k) ∨ ((v, (V.count v : Int)) ∈ L₂) := by
      intro v hv
      have := hmem v hv
      rw [hsplit, List.mem_append, List.mem_cons] at this
      rcases this with h | h | h
      · left; exact h
      · right; left; exact (Prod.mk.inj h).1
      · right; right; exact h
    refine ⟨hkV, ?_, ?_⟩
    · intro v hv
      have : (V.count v : Int) ≤ c := by
        rcases hcases v hv with h | h | h
        · exact le_of_lt (hlt _ h)
        · rw [h, hc]
        · exact hle _ h
      rw [hc] at this
      exact_mod_cast this
    · intro v hv heq
      rcases hcases v hv with h | h | h
      · exfalso
        have := hlt _ h
        simp only at this
        rw [hc, heq] at this
        exact lt_irrefl _ this
      · rw [h]
      · have hp := h3
        rw [hsplit, List.map_append, List.map_cons, List.pairwise_append] at hp
        have hp2 := (List.pairwise_cons.1 hp.2.1).1
        exact le_of_lt (hp2 v (List.mem_map.2 ⟨_, h, rfl⟩))

/-- C17: `mostFrequentNonEmpty` returns the empty string exactly when no value
is non-empty after trimming (values equal to `"-"` counting as empty);
otherwise it returns a trimmed value with the greatest number of occurrences,
and among the values with that number of occurrences the one whose first
occurrence in the list is the earliest. -/
theorem mostFrequentNonEmpty_spec (values : List JSVal) :
    (mostFrequentNonEmpty values = "" ↔ countedValues values = []) ∧
      (countedValues values ≠ [] →
        mostFrequentNonEmpty values ∈ countedValues values ∧
        (∀ v ∈ countedValues values,
          (countedValues values).count v
            ≤ (countedValues values).count (mostFrequentNonEmpty values)) ∧
        (∀ v ∈ countedValues values,
          (countedValues values).count v
              = (countedValues values).count (mostFrequentNonEmpty values) →
            (countedValues values).indexOf (mostFrequentNonEmpty values)
              ≤ (countedValues values).indexOf v)) := by
  refine ⟨?_, mostFrequent_of_counted values⟩
  constructor
  · intro h
    by_contra hne
    have hm := (mostFrequent_of_counted values hne).1
    rw [h] at hm
    unfold countedValues at hm
    have := (List.mem_filter.1 hm).2
    simp at this
  · intro h
    rw [mostFrequentNonEmpty_eq, pickBest, countValues_eq, h]
    rfl

set_option maxRecDepth 100000 in
theorem mostFrequentNonEmpty_spec_witness :
    mostFrequentNonEmpty [.str "b", .str " a ", .str "-", .str "a", .str "b", .null]
        ∈ countedValues [.str "b", .str " a ", .str "-", .str "a", .str "b", .null] ∧
      mostFrequentNonEmpty [.str "b", .str " a ", .str "-", .str "a", .str "b", .null] = "b" :=
  ⟨((mostFrequentNonEmpty_spec
      [.str "b", .str " a ", .str "-", .str "a", .str "b", .null]).2 (by decide)).1,
    by decide⟩

end Plurality

section Split

open HorarioGeneral PropuestaPdf

theorem splitEvenInt_getElem (total : Int) (n : Nat) (hn : 1 ≤ n) (i : Nat) (hi : i < n) :
    (splitEvenInt total n)[i]?
      = some (total / (n : Int) + if (i : Int) < total % (n : Int) then 1 else 0) := by
  have hpos : (0 : Int) < n := by exact_mod_cast hn
  have hdiv : Int.fdiv total n = total / n := Int.fdiv_eq_ediv total (le_of_lt hpos)
  have hrem : total - total / (n : Int) * n = total % (n : Int) := by
    have := Int.emod_add_ediv total n
    linarith [mul_comm (total / (n : Int)) (n : Int)]
  unfold splitEvenInt
  simp only [hdiv, hrem]
  rw [List.getElem?_map, List.getElem?_range hi]
  rfl

/-- C21: for every integer `total ≥ 0` and every `n ≥ 1`, the widths of
`splitEvenInt(total, n)` are `n` in number, the width of index `i` is
`⌊total / n⌋ + 1` for `i < total mod n` and `⌊total / n⌋` otherwise, so the
widths never increase from left to right, differ by at most one, and sum to
`total`. -/
theorem splitEvenInt_distribution (total : Int) (n : Nat) (_h0 : 0 ≤ total) (hn : 1 ≤ n) :
    (splitEvenInt total n).length = n ∧
      (∀ i, i < n → (splitEvenInt total n)[i]?
        = some (total / (n : Int) + if (i : Int) < total % (n : Int) then 1 else 0)) ∧
      (∀ i j a b, i ≤ j → j < n → (splitEvenInt total n)[i]? = some a →
        (splitEvenInt total n)[j]? = some b → b ≤ a ∧ a - b ≤ 1) ∧
      (splitEvenInt total n).sum = total := by
  refine ⟨splitEvenInt_length total n, fun i hi => splitEvenInt_getElem total n hn i hi, ?_,
    splitEvenInt_sum total n hn⟩
  intro i j a b hij hj ha hb
  rw [splitEvenInt_getElem total n hn i (lt_of_le_of_lt hij hj)] at ha
  rw [splitEvenInt_getElem total n hn j hj] at hb
  have ha' := Option.some.inj ha
  have hb' := Option.some.inj hb
  subst ha' hb'
  have hc : (i : Int) ≤ j := by exact_mod_cast hij
  split_ifs <;> constructor <;> omega

theorem splitEvenInt_distribution_witness :
    (0 : Int) ≤ 10 ∧ 1 ≤ 4 ∧ splitEvenInt 10 4 = [3, 3, 2, 2] ∧
      (splitEvenInt 10 4).length = 4 ∧
      (∀ i : Nat, i < 4 → (splitEvenInt 10 4)[i]?
        = some ((10 : Int) / ((4 : Nat) : Int) + if (i : Int) < 10 % ((4 : Nat) : Int) then 1 else 0)) ∧
      (∀ (i j : Nat) (a b : Int), i ≤ j → j < 4 → (splitEvenInt 10 4)[i]? = some a →
        (splitEvenInt 10 4)[j]? = some b → b ≤ a ∧ a - b ≤ 1) ∧
      (splitEvenInt 10 4).sum = 10 :=
  ⟨by decide, by decide, by decide, splitEvenInt_distribution 10 4 (by decide) (by decide)⟩

theorem semesterLabel_num (rt : JSRuntime) (d : JSVal) (m y : Int) (hm : m ≠ 0) :
    semesterLabelFromStart rt d (.num m) (.num y)
      = intToStr (if y < 100 then 2000 + y else y) ++ "-" ++ (if m ≥ 7 then "II" else "I") := by
  simp only [semesterLabelFromStart, JSVal.toNumber, Option.getD_some, if_neg hm]

/-- C22 (as stated, refuted): for the two-digit start year 85 and start month 3
the aggregation's label is `2085-I`, whereas `normalizeYear(85)` is 1985. -/
theorem semesterLabel_disagrees_with_normalizeYear :
    semesterLabelFromStart asciiRuntime .undefined (.num 3) (.num 85) = "2085-I" ∧
      normalizeYear asciiRuntime (.num 85) = 1985 ∧
      semesterLabelFromStart asciiRuntime .undefined (.num 3) (.num 85)
        ≠ intToStr (normalizeYear asciiRuntime (.num 85)) ++ "-" ++ "I" := by
  set_option maxRecDepth 100000 in decide

/-- C22 (amended): for every record with a two-digit start year `y` in 0..99
and start month `m` in 1..12, `semesterLabelFromStart` returns the label whose
year is `2000 + y` and whose suffix is `II` if `m ≥ 7` and `I` otherwise; the
year is `normalizeYear(y)` when `y ≤ 79`. -/
theorem semesterLabel_two_digit (rt : JSRuntime) (d : JSVal) (m y : Int)
    (hy : 0 ≤ y ∧ y ≤ 99) (hm : 1 ≤ m ∧ m ≤ 12) :
    semesterLabelFromStart rt d (.num m) (.num y)
        = intToStr (2000 + y) ++ "-" ++ (if m ≥ 7 then "II" else "I") ∧
      (y ≤ 79 → semesterLabelFromStart rt d (.num m) (.num y)
        = intToStr (normalizeYear rt (.num y)) ++ "-" ++ (if m ≥ 7 then "II" else "I")) := by
  have h1 : semesterLabelFromStart rt d (.num m) (.num y)
      = intToStr (2000 + y) ++ "-" ++ (if m ≥ 7 then "II" else "I") := by
    rw [semesterLabel_num rt d m y (by omega), if_pos (by omega)]
  refine ⟨h1, ?_⟩
  intro h79
  rw [h1]
  have : normalizeYear rt (.num y) = 2000 + y := by
    simp only [normalizeYear, toInt_num]
    rw [if_neg (by omega), if_pos ⟨hy.1, h79⟩]
  rw [this]

set_option maxRecDepth 100000 in
theorem semesterLabel_two_digit_witness :
    semesterLabelFromStart asciiRuntime .undefined (.num 8) (.num 24) = "2024-II" ∧
      semesterLabelFromStart asciiRuntime .undefined (.num 8) (.num 24)
        = intToStr (2000 + 24) ++ "-" ++ (if (8 : Int) ≥ 7 then "II" else "I") :=
  ⟨by decide,
    (semesterLabel_two_digit asciiRuntime .undefined 8 24 (by decide) (by decide)).1⟩

/-- C27 (as stated, refuted): for a record that starts in month 2 and ends in
month 8 of year 24, `inferPeriodo` gives `2024-II`, although the start month is
below 7. -/
theorem inferPeriodo_uses_end_month :
    febToAug.mesIni = .num 2 ∧ inferPeriodo asciiRuntime febToAug = "2024-II" ∧
      inferPeriodo asciiRuntime febToAug ≠ "2024-I" := by
  set_option maxRecDepth 100000 in decide

/-- C27 (amended): the period label `inferPeriodo` computes for a record is
derived from its end month and year when they are present and from its start
month and year otherwise: with `m = toInt(mesFin ?? mesIni, 1)` and
`YEAR = normalizeYear(anoFin ?? anoIni)` it is `YEAR-I` if `1 ≤ m ≤ 6` and
`YEAR-II` otherwise; for a record without end month, with a numeric start month
in 1..12, it is `YEAR-II` if the start month is at least 7 and `YEAR-I`
otherwise. -/
theorem inferPeriodo_spec (rt : JSRuntime) (h : Horario) :
    inferPeriodo rt h
        = intToStr (normalizeYear rt (h.anoFin.orElse h.anoIni)) ++ "-" ++
          (if 1 ≤ toInt rt (h.mesFin.orElse h.mesIni) 1 ∧ toInt rt (h.mesFin.orElse h.mesIni) 1 ≤ 6
            then "I" else "II") ∧
      ∀ m : Int, h.mesFin.isNullish = true → h.mesIni = .num m → 1 ≤ m → m ≤ 12 →
        inferPeriodo rt h
          = intToStr (normalizeYear rt (h.anoFin.orElse h.anoIni)) ++ "-" ++
            (if m ≥ 7 then "II" else "I") := by
  refine ⟨rfl, ?_⟩
  intro m hfin hini h1 h12
  have hm : toInt rt (h.mesFin.orElse h.mesIni) 1 = m := by
    unfold JSVal.orElse
    rw [if_pos hfin, hini]
    rfl
  unfold inferPeriodo
  simp only [hm]
  by_cases h7 : m ≥ 7
  · rw [if_neg (by omega), if_pos h7]
  · rw [if_pos ⟨by omega, by omega⟩, if_neg h7]

set_option maxRecDepth 100000 in
theorem inferPeriodo_spec_witness :
    inferPeriodo asciiRuntime { mesIni := .num 8, anoIni := .num 24 }
      = intToStr (normalizeYear asciiRuntime
          ((JSVal.undefined).orElse (.num 24))) ++ "-" ++ (if (8 : Int) ≥ 7 then "II" else "I") :=
  (inferPeriodo_spec asciiRuntime { mesIni := .num 8, anoIni := .num 24 }).2 8 rfl rfl
    (by decide) (by decide)

end Split

section Nombramiento

open HorarioGeneral

theorem matchNivel_cons (a : Char) (t : List Char) :
    matchNivel (a :: t) = (quotedHead (a :: t)).orElse (fun _ => matchNivel t) := by
  conv_lhs => unfold matchNivel
  split
  · rename_i c rest
    unfold quotedHead
    simp only []
    by_cases hc : c.isUpper = true
    · simp [hc]
    · simp [hc]
  · rename_i h
    have : quotedHead (a :: t) = none := by
      unfold quotedHead
      split
      · rename_i c rest heq
        injection heq with h1 h2
        exact (h c rest h1 h2).elim
      · rfl
    rw [this]
    rfl

theorem quotedHead_some (l : List Char) (c : Char) :
    quotedHead l = some c ↔ quotedCapitalAt l [] c := by
  unfold quotedHead quotedCapitalAt
  split
  · rename_i c' rest
    by_cases hc : c'.isUpper = true
    · simp only [hc, if_true, Option.some.injEq, List.nil_append]
      constructor
      · rintro rfl; exact ⟨hc, rest, rfl⟩
      · rintro ⟨_, post, h⟩
        injection h with _ h2
        injection h2 with h3 _
    · simp only [hc, Bool.false_eq_true, if_false, List.nil_append]
      constructor
      · intro h; cases h
      · rintro ⟨hu, post, h⟩
        injection h with _ h2
        injection h2 with h3 _
        rw [h3] at hc
        exact absurd hu hc
  · rename_i h
    constructor
    · intro h'; cases h'
    · rintro ⟨_, post, hl⟩
      exact absurd hl (by
        intro e
        rw [List.nil_append] at e
        exact h c post e)

theorem testCI_iff (pat text : String) : testCI pat text = true ↔ containsCI pat text := by
  unfold testCI containsCI
  rw [List.any_eq_true]
  constructor
  · rintro ⟨t, ht, hp⟩
    rw [List.mem_tails] at ht
    rw [List.isPrefixOf_iff_prefix] at hp
    obtain ⟨pre, hpre⟩ := ht
    obtain ⟨post, hpost⟩ := hp
    exact ⟨pre, post, by rw [← hpre, ← hpost, List.append_assoc]⟩
  · rintro ⟨pre, post, h⟩
    refine ⟨pat.data ++ post, ?_, ?_⟩
    · rw [List.mem_tails]
      exact ⟨pre, by rw [h, List.append_assoc]⟩
    · rw [List.isPrefixOf_iff_prefix]
      exact ⟨post, rfl⟩

theorem dropWhile_append_all (p : Char → Bool) (xs ys : List Char)
    (h : ∀ c ∈ xs, p c = true) : (xs ++ ys).dropWhile p = ys.dropWhile p := by
  induction xs with
  | nil => rfl
  | cons x t ih =>
    rw [List.cons_append, List.dropWhile_cons, if_pos (h x (List.mem_cons_self _ _))]
    exact ih (fun c hc => h c (List.mem_cons_of_mem _ hc))

/-- Trimming removes the white space after a text that starts and ends with
characters other than white space, and nothing else. -/
theorem jsTrim_core (a z : Char) (mid ws : List Char) (ha : isJsWhitespace a = false)
    (hz : isJsWhitespace z = false) (hws : ∀ c ∈ ws, isJsWhitespace c = true) :
    jsTrim ⟨a :: (mid ++ [z]) ++ ws⟩ = ⟨a :: (mid ++ [z])⟩ := by
  unfold jsTrim
  congr 1
  have h1 : (a :: (mid ++ [z]) ++ ws).dropWhile isJsWhitespace = a :: (mid ++ [z]) ++ ws := by
    rw [List.cons_append, List.dropWhile_cons, if_neg (by simp [ha])]
  simp only [h1]
  have h2 : (a :: (mid ++ [z]) ++ ws).reverse = ws.reverse ++ (z :: (mid.reverse ++ [a])) := by
    simp
  rw [h2, dropWhile_append_all _ _ _ (fun c hc => hws c (List.mem_reverse.1 hc)),
    List.dropWhile_cons, if_neg (by simp [hz])]
  simp

theorem nombramiento_trim (c : Char) :
    jsTrim ("PROFESOR DE ASIGNATURA \"" ++ String.singleton c ++ "\" " ++ "INTERINO")
        = "PROFESOR DE ASIGNATURA \"" ++ String.singleton c ++ "\" INTERINO" ∧
      jsTrim ("PROFESOR DE ASIGNATURA \"" ++ String.singleton c ++ "\" " ++ "")
        = "PROFESOR DE ASIGNATURA \"" ++ String.singleton c ++ "\"" := by
  constructor
  · have h := jsTrim_core 'P' 'O' ("ROFESOR DE ASIGNATURA \"".data ++ c :: "\" INTERIN".data) []
      (by decide) (by decide) (fun x hx => by cases hx)
    exact h
  · have h := jsTrim_core 'P' '"' ("ROFESOR DE ASIGNATURA \"".data ++ [c]) [' ']
      (by decide) (by decide) (by decide)
    exact h

theorem quotedCapitalAt_nil (pre : List Char) (c : Char) : ¬ quotedCapitalAt [] pre c := by
  rintro ⟨_, post, h⟩
  cases pre <;> cases h

theorem quotedCapitalAt_cons (a : Char) (t : List Char) (x : Char) (pre : List Char) (c : Char) :
    quotedCapitalAt (a :: t) (x :: pre) c ↔ x = a ∧ quotedCapitalAt t pre c := by
  unfold quotedCapitalAt
  constructor
  · rintro ⟨hu, post, h⟩
    rw [List.cons_append] at h
    injection h with h1 h2
    exact ⟨h1.symm, hu, post, h2⟩
  · rintro ⟨rfl, hu, post, h⟩
    exact ⟨hu, post, by rw [h]; rfl⟩

/-- `matchNivel` finds the first capital letter between double quotes. -/
theorem matchNivel_spec (l : List Char) :
    (∀ c, matchNivel l = some c →
        ∃ pre, quotedCapitalAt l pre c ∧
          ∀ pre' c', quotedCapitalAt l pre' c' → pre.length ≤ pre'.length) ∧
      (matchNivel l = none → ∀ pre c, ¬ quotedCapitalAt l pre c) := by
  induction l with
  | nil =>
    refine ⟨fun c h => ?_, fun _ pre c => quotedCapitalAt_nil pre c⟩
    simp [matchNivel] at h
  | cons a t ih =>
    rw [matchNivel_cons]
    cases hq : quotedHead (a :: t) with
    | some c0 =>
      refine ⟨fun c h => ?_, fun h => ?_⟩
      · simp only [Option.orElse] at h
        cases h
        exact ⟨[], (quotedHead_some _ _).1 hq, fun _ _ _ => Nat.zero_le _⟩
      · simp [Option.orElse] at h
    | none =>
      have hhead : ∀ c, ¬ quotedCapitalAt (a :: t) [] c := by
        intro c hc
        rw [(quotedHead_some _ _).2 hc] at hq
        cases hq
      simp only [Option.orElse]
      refine ⟨fun c h => ?_, fun h pre c => ?_⟩
      · obtain ⟨pre, hp, hmin⟩ := ih.1 c h
        refine ⟨a :: pre, (quotedCapitalAt_cons a t a pre c).2 ⟨rfl, hp⟩, ?_⟩
        intro pre' c' h'
        cases pre' with
        | nil => exact absurd h' (hhead c')
        | cons x p =>
          have := hmin p c' ((quotedCapitalAt_cons a t x p c').1 h').2
          simp only [List.length_cons]
          omega
      · cases pre with
        | nil => exact hhead c
        | cons x p =>
          intro h'
          exact ih.2 h p c ((quotedCapitalAt_cons a t x p c).1 h').2

theorem containsCI_INTER_INT (text : String) (h : containsCI "INTER" text) :
    containsCI "INT" text := by
  obtain ⟨pre, post, h⟩ := h
  refine ⟨pre, 'E' :: 'R' :: post, ?_⟩
  rw [h]
  have e : ("INTER" : String).data = ("INT" : String).data ++ ['E', 'R'] := by decide
  rw [e]
  simp

/-- C23: `buildNombramiento` returns `PROFESOR DE ASIGNATURA "L"`, followed by
` INTERINO` exactly when the interim flag holds, where `L` is the capital
letter of the first double-quoted single capital letter of the category text
(`A` when there is none) and the interim flag holds if and only if the category
contains `INT` or the cause contains `INTER` or `OTRO NOMB`, the case of the
letters apart. -/
theorem buildNombramiento_spec (categoria tipo causa : JSVal) :
    ∃ (L : Char) (interim : Bool),
      buildNombramiento categoria tipo causa
          = "PROFESOR DE ASIGNATURA \"" ++ String.singleton L ++ "\""
              ++ (if interim then " INTERINO" else "") ∧
        ((∃ pre, quotedCapitalAt (paramStr categoria).data pre L ∧
            ∀ pre' c', quotedCapitalAt (paramStr categoria).data pre' c' →
              pre.length ≤ pre'.length) ∨
          (L = 'A' ∧ ∀ pre c, ¬ quotedCapitalAt (paramStr categoria).data pre c)) ∧
        (interim = true ↔
          (containsCI "INT" (paramStr categoria) ∨ containsCI "INTER" (paramStr causa) ∨
            containsCI "OTRO NOMB" (paramStr causa))) := by
  refine ⟨(matchNivel (paramStr categoria).data).getD 'A',
    (testCI "INT" (paramStr categoria) || testCI "INTER" (paramStr categoria)) ||
      (testCI "INTER" (paramStr causa) || testCI "OTRO NOMB" (paramStr causa)), ?_, ?_, ?_⟩
  · unfold buildNombramiento
    simp only []
    generalize (matchNivel (paramStr categoria).data).getD 'A' = L
    generalize ((testCI "INT" (paramStr categoria) || testCI "INTER" (paramStr categoria)) ||
      (testCI "INTER" (paramStr causa) || testCI "OTRO NOMB" (paramStr causa))) = b
    cases b with
    | true => exact (nombramiento_trim L).1
    | false => exact (nombramiento_trim L).2
  · cases hm : matchNivel (paramStr categoria).data with
    | some c => left; exact (matchNivel_spec _).1 c hm
    | none => right; exact ⟨rfl, (matchNivel_spec _).2 hm⟩
  · simp only [Bool.or_eq_true, testCI_iff]
    constructor
    · rintro ((h | h) | (h | h))
      · exact Or.inl h
      · exact Or.inl (containsCI_INTER_INT _ h)
      · exact Or.inr (Or.inl h)
      · exact Or.inr (Or.inr h)
    · rintro (h | h | h)
      · exact Or.inl (Or.inl h)
      · exact Or.inr (Or.inl h)
      · exact Or.inr (Or.inr h)

end Nombramiento

section Fit

open PropuestaPdf

/-- The loop of `multiLineCell` over `n ≥ 1` sizes from `top` down to
`minFont`. -/
theorem fitLoop_spec (H : Int → ℚ) (h : ℚ) (minFont : Int) (n : Nat) :
    ∀ (top : Int) (acc : Int × ℚ), top - minFont = n →
      minFont ≤ (fitLoop H h minFont (sizesDown top (n + 1)) acc).1 ∧
      (fitLoop H h minFont (sizesDown top (n + 1)) acc).1 ≤ top ∧
      (fitLoop H h minFont (sizesDown top (n + 1)) acc).2
        = H (fitLoop H h minFont (sizesDown top (n + 1)) acc).1 ∧
      ((H (fitLoop H h minFont (sizesDown top (n + 1)) acc).1 ≤ h - 4 ∧
          ∀ s, (fitLoop H h minFont (sizesDown top (n + 1)) acc).1 < s → s ≤ top →
            ¬ H s ≤ h - 4) ∨
        ((fitLoop H h minFont (sizesDown top (n + 1)) acc).1 = minFont ∧
          ∀ s, minFont ≤ s → s ≤ top → ¬ H s ≤ h - 4)) := by
  induction n with
  | zero =>
    intro top acc htop
    have ht : top = minFont := by simpa [sub_eq_zero] using htop
    subst ht
    simp only [sizesDown, fitLoop]
    by_cases hf : H top ≤ h - 4
    · rw [if_pos hf]
      exact ⟨le_refl _, le_refl _, rfl, Or.inl ⟨hf, fun s h1 h2 => absurd h2 (not_le.2 h1)⟩⟩
    · rw [if_neg hf]
      simp only [if_true]
      refine ⟨le_refl _, le_refl _, trivial, Or.inr ⟨trivial, ?_⟩⟩
      intro s h1 h2
      have : s = top := le_antisymm h2 h1
      rw [this]
      exact hf
  | succ k ih =>
    intro top acc htop
    have hgt : minFont < top := by push_cast at htop; omega
    rw [sizesDown, fitLoop]
    by_cases hf : H top ≤ h - 4
    · rw [if_pos hf]
      exact ⟨le_of_lt hgt, le_refl _, rfl,
        Or.inl ⟨hf, fun s h1 h2 => absurd h2 (not_le.2 h1)⟩⟩
    · rw [if_neg hf, if_neg (ne_of_gt hgt)]
      obtain ⟨h1, h2, h3, h4⟩ := ih (top - 1) acc (by push_cast at htop; omega)
      refine ⟨h1, by omega, h3, ?_⟩
      rcases h4 with ⟨hfit, hno⟩ | ⟨hmin, hno⟩
      · left
        refine ⟨hfit, ?_⟩
        intro s hs1 hs2
        by_cases hs : s = top
        · rw [hs]; exact hf
        · exact hno s hs1 (by omega)
      · right
        refine ⟨hmin, ?_⟩
        intro s hs1 hs2
        by_cases hs : s = top
        · rw [hs]; exact hf
        · exact hno s hs1 (by omega)

/-- C25: for every text-height measure, every cell height `h` and all integer
sizes `minFont ≤ maxFont`, the font size `multiLineCell` chooses is the largest
size between `maxFont` and `minFont` whose measured wrapped height is at most
`h - 4`, and `minFont` when no size fits; the text height used for the vertical
centring is the height measured at the chosen size. -/
theorem multiLineCell_spec (heightAt : Int → String → ℚ → ℚ) (txt : JSVal) (y w h : ℚ)
    (minFont maxFont : Int) (hle : minFont ≤ maxFont) :
    minFont ≤ (multiLineCell heightAt txt y w h minFont maxFont).1 ∧
      (multiLineCell heightAt txt y w h minFont maxFont).1 ≤ maxFont ∧
      (multiLineCell heightAt txt y w h minFont maxFont).2.1
        = heightAt (multiLineCell heightAt txt y w h minFont maxFont).1
            (txt.orElse (.str "")).toStr (w - 6) ∧
      (multiLineCell heightAt txt y w h minFont maxFont).2.2
        = y + (h - (multiLineCell heightAt txt y w h minFont maxFont).2.1) / 2 ∧
      ((∃ s, minFont ≤ s ∧ s ≤ maxFont ∧
            heightAt s (txt.orElse (.str "")).toStr (w - 6) ≤ h - 4) →
          heightAt (multiLineCell heightAt txt y w h minFont maxFont).1
              (txt.orElse (.str "")).toStr (w - 6) ≤ h - 4 ∧
            ∀ s, (multiLineCell heightAt txt y w h minFont maxFont).1 < s → s ≤ maxFont →
              ¬ heightAt s (txt.orElse (.str "")).toStr (w - 6) ≤ h - 4) ∧
      ((∀ s, minFont ≤ s → s ≤ maxFont →
            ¬ heightAt s (txt.orElse (.str "")).toStr (w - 6) ≤ h - 4) →
          (multiLineCell heightAt txt y w h minFont maxFont).1 = minFont) := by
  have hn : (maxFont - minFont + 1).toNat = (maxFont - minFont).toNat + 1 := by omega
  have hcast : maxFont - minFont = ((maxFont - minFont).toNat : Int) := by omega
  obtain ⟨h1, h2, h3, h4⟩ :=
    fitLoop_spec (fun size => heightAt size (txt.orElse (.str "")).toStr (w - 6)) h minFont
      (maxFont - minFont).toNat maxFont (maxFont, 0) hcast
  simp only [multiLineCell, hn]
  refine ⟨h1, h2, h3, trivial, ?_, ?_⟩
  · rintro ⟨s, hs1, hs2, hs3⟩
    rcases h4 with h4 | h4
    · exact h4
    · exact absurd hs3 (h4.2 s hs1 hs2)
  · intro hno
    rcases h4 with h4 | h4
    · exact absurd h4.1 (hno _ h1 h2)
    · exact h4.1

theorem multiLineCell_spec_witness :
    (6 : Int) ≤ 8 ∧
      multiLineCell (fun size _ _ => 3 * size) (.str "x") 0 50 24 6 8 = (6, 18, 3) ∧
      (6 : Int) ≤ (multiLineCell (fun size _ _ => 3 * size) (.str "x") 0 50 24 6 8).1 :=
  ⟨by decide, by
      simp only [multiLineCell, sizesDown, fitLoop]
      norm_num [sizesDown, fitLoop],
    (multiLineCell_spec (fun size _ _ => 3 * size) (.str "x") 0 50 24 6 8 (by decide)).1⟩

end Fit

section FileName

open PropuestaPdf

theorem mem_jsTrim (s : String) (c : Char) (h : c ∈ (jsTrim s).data) : c ∈ s.data := by
  unfold jsTrim at h
  simp only [List.mem_reverse] at h
  have h1 := (List.dropWhile_sublist isJsWhitespace).subset h
  rw [List.mem_reverse] at h1
  exact (List.dropWhile_sublist isJsWhitespace).subset h1

theorem clean_chars (rt : JSRuntime) (s : JSVal) (c : Char) (h : c ∈ (clean rt s).data) :
    fileNameChar c = true := by
  unfold clean at h
  have := mem_jsTrim _ c h
  exact (List.mem_filter.1 this).2

theorem fileNameChar_safe (c : Char) (h : fileNameChar c = true) :
    c ≠ '/' ∧ c ≠ '\\' ∧ c ≠ '.' := by
  refine ⟨?_, ?_, ?_⟩ <;> (rintro rfl; revert h; decide)

/-- C29: the file name `buildWorkerPdfFileName` returns is a stem followed by
`.pdf`, and every character of the stem is an ASCII letter, a digit, an
underscore, a hyphen or a space; in particular the stem contains no `/`, no
`\` and no `.`. -/
theorem buildWorkerPdfFileName_safe (rt : JSRuntime) (interesado worker : JSVal) :
    ∃ stem : String, buildWorkerPdfFileName rt interesado worker = stem ++ ".pdf" ∧
      ∀ c ∈ stem.data,
        ((('a' ≤ c ∧ c ≤ 'z') ∨ ('A' ≤ c ∧ c ≤ 'Z') ∨ ('0' ≤ c ∧ c ≤ '9') ∨
            c = '_' ∨ c = '-' ∨ c = ' ')) ∧
          c ≠ '/' ∧ c ≠ '\\' ∧ c ≠ '.' := by
  refine ⟨clean rt (interesado.or (.str "Trabajador")) ++ " - " ++
    (if clean rt (worker.or (.str "")) ≠ "" then clean rt (worker.or (.str "")) else "sin-numero"),
    rfl, ?_⟩
  intro c hc
  have hok : fileNameChar c = true := by
    simp only [String.data_append, List.mem_append] at hc
    rcases hc with (hc | hc) | hc
    · exact clean_chars rt _ c hc
    · revert c; decide
    · by_cases hw : clean rt (worker.or (.str "")) ≠ ""
      · rw [if_pos hw] at hc
        exact clean_chars rt _ c hc
      · rw [if_neg hw] at hc
        revert c; decide
  refine ⟨?_, fileNameChar_safe c hok⟩
  unfold fileNameChar at hok
  simp only [Bool.or_eq_true, Bool.and_eq_true, decide_eq_true_eq, beq_iff_eq] at hok
  tauto

end FileName

section Clamp

open PropuestaPdf

/-- The binary search of `textClamp` on a predicate that holds on an initial
segment: with enough fuel it ends at the first index below `len` where the
predicate fails, or at `len`. -/
theorem clampSearch_spec (fits : Nat → Bool) (len : Nat)
    (hmono : ∀ j k, j ≤ k → k < len → fits k = true → fits j = true) :
    ∀ (fuel lo hi : Nat), hi - lo ≤ fuel → lo ≤ hi → hi ≤ len →
      (∀ j, j < lo → fits j = true) → (∀ j, hi ≤ j → j < len → fits j = false) →
      lo ≤ clampSearch fits fuel lo hi ∧ clampSearch fits fuel lo hi ≤ hi ∧
        (∀ j, j < clampSearch fits fuel lo hi → fits j = true) ∧
        (∀ j, clampSearch fits fuel lo hi ≤ j → j < len → fits j = false) := by
  intro fuel
  induction fuel with
  | zero =>
    intro lo hi hf hle _ hlo hhi
    have : lo = hi := by omega
    subst this
    exact ⟨le_refl _, le_refl _, hlo, hhi⟩
  | succ f ih =>
    intro lo hi hf hle hlen hlo hhi
    rw [clampSearch]
    by_cases hlt : lo < hi
    · rw [if_pos hlt]
      simp only []
      have hmid1 : lo ≤ (lo + hi) / 2 := by omega
      have hmid2 : (lo + hi) / 2 < hi := by omega
      cases hfit : fits ((lo + hi) / 2) with
      | true =>
        simp only [if_true]
        obtain ⟨h1, h2, h3, h4⟩ := ih ((lo + hi) / 2 + 1) hi (by omega) (by omega) hlen
          (fun j hj => hmono j ((lo + hi) / 2) (by omega) (by omega) hfit) hhi
        exact ⟨by omega, h2, h3, h4⟩
      | false =>
        simp only [Bool.false_eq_true, if_false]
        obtain ⟨h1, h2, h3, h4⟩ := ih lo ((lo + hi) / 2) (by omega) hmid1 (by omega) hlo
          (fun j hj hjl => by
            by_contra hne
            have hj' : fits j = true := by simpa using hne
            have := hmono ((lo + hi) / 2) j hj hjl hj'
            rw [hfit] at this
            cases this)
        exact ⟨h1, by omega, h3, h4⟩
    · rw [if_neg hlt]
      have : lo = hi := by omega
      subst this
      exact ⟨le_refl _, le_refl _, hlo, hhi⟩

/-- More fuel than the length of the interval changes nothing: the loop has
ended. -/
theorem clampSearch_fuel (fits : Nat → Bool) :
    ∀ (fuel extra lo hi : Nat), hi - lo ≤ fuel →
      clampSearch fits (fuel + extra) lo hi = clampSearch fits fuel lo hi := by
  intro fuel
  induction fuel with
  | zero =>
    intro extra lo hi hf
    cases extra with
    | zero => rfl
    | succ e =>
      rw [Nat.zero_add, clampSearch, clampSearch, if_neg (by omega)]
  | succ f ih =>
    intro extra lo hi hf
    rw [show f + 1 + extra = (f + extra) + 1 by omega, clampSearch, clampSearch]
    by_cases hlt : lo < hi
    · rw [if_pos hlt, if_pos hlt]
      simp only []
      rw [ih extra _ _ (by omega), ih extra _ _ (by omega)]
    · rw [if_neg hlt, if_neg hlt]

/-- The text clamped when the whole text does not fit: a proper prefix that
fits together with the ellipsis and is the longest such, or the ellipsis
alone. -/
theorem textClamp_overflow {α : Type} (width : List α → ℚ) (ell s : List α) (maxWidth : ℚ)
    (hmono : ∀ j k, j ≤ k → k < s.length →
      width (s.take j ++ ell) ≤ width (s.take k ++ ell))
    (hbig : ¬ width s ≤ maxWidth) :
    ∃ k, textClamp width ell (some s) maxWidth = s.take k ++ ell ∧
      ((k < s.length ∧ width (s.take k ++ ell) ≤ maxWidth ∧
          ∀ j, k < j → j < s.length → ¬ width (s.take j ++ ell) ≤ maxWidth) ∨
        (k = 0 ∧ ∀ j, j < s.length → ¬ width (s.take j ++ ell) ≤ maxWidth)) := by
  have hm : ∀ j k, j ≤ k → k < s.length →
      decide (width (s.take k ++ ell) ≤ maxWidth) = true →
      decide (width (s.take j ++ ell) ≤ maxWidth) = true := by
    intro j k hjk hk hfit
    rw [decide_eq_true_eq] at hfit ⊢
    exact le_trans (hmono j k hjk hk) hfit
  obtain ⟨_, h2, h3, h4⟩ := clampSearch_spec
    (fun mid => decide (width (s.take mid ++ ell) ≤ maxWidth)) s.length hm s.length 0 s.length
    (by omega) (Nat.zero_le _) (le_refl _) (fun j hj => absurd hj (Nat.not_lt_zero j))
    (fun j h1 h2 => absurd h2 (not_lt.2 h1))
  refine ⟨clampSearch (fun mid => decide (width (s.take mid ++ ell) ≤ maxWidth))
    s.length 0 s.length - 1, ?_, ?_⟩
  · simp only [textClamp, if_neg hbig]
  · generalize clampSearch (fun mid => decide (width (s.take mid ++ ell) ≤ maxWidth))
      s.length 0 s.length = r at h2 h3 h4
    cases r with
    | zero =>
      right
      refine ⟨rfl, ?_⟩
      intro j hj
      have := h4 j (Nat.zero_le _) hj
      simpa using this
    | succ r' =>
      left
      refine ⟨by omega, ?_, ?_⟩
      · have := h3 r' (by omega)
        simpa using this
      · intro j hj1 hj2
        have := h4 j (by omega) hj2
        simpa using this

/-- C30: the search of `textClamp` ends on every input (more passes than the
length of the text change nothing) and a text that fits is returned unchanged;
for every width measure that does not decrease with the length of the prefix,
a text that does not fit is replaced by its longest proper prefix that fits
together with the ellipsis, followed by the ellipsis, or by the ellipsis alone
when no such prefix fits; hence the result fits whenever the ellipsis alone
fits. -/
theorem textClamp_spec {α : Type} (width : List α → ℚ) (ell s : List α) (maxWidth : ℚ) :
    (∀ extra : Nat,
        clampSearch (fun mid => decide (width (s.take mid ++ ell) ≤ maxWidth))
            (s.length + extra) 0 s.length
          = clampSearch (fun mid => decide (width (s.take mid ++ ell) ≤ maxWidth))
              s.length 0 s.length) ∧
      (width s ≤ maxWidth → textClamp width ell (some s) maxWidth = s) ∧
      ((∀ j k, j ≤ k → k < s.length →
          width (s.take j ++ ell) ≤ width (s.take k ++ ell)) →
        (¬ width s ≤ maxWidth →
          ∃ k, textClamp width ell (some s) maxWidth = s.take k ++ ell ∧
            ((k < s.length ∧ width (s.take k ++ ell) ≤ maxWidth ∧
                ∀ j, k < j → j < s.length → ¬ width (s.take j ++ ell) ≤ maxWidth) ∨
              (k = 0 ∧ ∀ j, j < s.length → ¬ width (s.take j ++ ell) ≤ maxWidth))) ∧
        (width ell ≤ maxWidth →
          width (textClamp width ell (some s) maxWidth) ≤ maxWidth)) := by
  refine ⟨fun extra => clampSearch_fuel _ _ extra 0 _ (by omega), ?_, fun hmono =>
    ⟨textClamp_overflow width ell s maxWidth hmono, ?_⟩⟩
  · intro h
    simp only [textClamp, if_pos h]
  · intro hell
    by_cases h : width s ≤ maxWidth
    · simp only [textClamp, if_pos h]
      exact h
    · obtain ⟨k, hk, hcase⟩ := textClamp_overflow width ell s maxWidth hmono h
      rw [hk]
      rcases hcase with ⟨_, hfit, _⟩ | ⟨h0, _⟩
      · exact hfit
      · rw [h0]
        simpa using hell

theorem textClamp_spec_witness :
    textClamp (fun (l : List Char) => (l.length : ℚ)) ['…'] (some ['a', 'b', 'c']) 3
        = ['a', 'b', 'c'] ∧
      (fun (l : List Char) => (l.length : ℚ))
        (textClamp (fun (l : List Char) => (l.length : ℚ)) ['…']
          (some ['a', 'b', 'c', 'd', 'e']) 3) ≤ 3 :=
  ⟨(textClamp_spec (fun (l : List Char) => (l.length : ℚ)) ['…'] ['a', 'b', 'c'] 3).2.1
      (by norm_num),
    ((textClamp_spec (fun (l : List Char) => (l.length : ℚ)) ['…']
        ['a', 'b', 'c', 'd', 'e'] 3).2.2
      (fun j k hjk _ => by
        simp only [List.length_append, List.length_take, List.length_cons, List.length_nil]
        push_cast
        have : (min j 5 : ℕ) ≤ min k 5 := min_le_min hjk (le_refl _)
        have h2 : ((min j 5 : ℕ) : ℚ) ≤ ((min k 5 : ℕ) : ℚ) := by exact_mod_cast this
        push_cast at h2
        linarith)).2 (by norm_num)⟩

/-- The clamped text on a concrete overflow: five characters in a width of
three leave two characters and the ellipsis. -/
theorem textClamp_example :
    textClamp (fun (l : List Char) => (l.length : ℚ)) ['…']
      (some ['a', 'b', 'c', 'd', 'e']) 3 = ['a', 'b', '…'] := by
  norm_num [textClamp, clampSearch]

end Clamp

section Spans

open HorarioGeneral

theorem mem_spanRange (start : Nat) (span : Option Int) (k : Nat) :
    k ∈ spanRange start span ↔ start ≤ k ∧ k < start + spanExtent span := by
  simp only [spanRange, List.mem_map, List.mem_range]
  constructor
  · rintro ⟨i, hi, rfl⟩
    omega
  · intro h
    exact ⟨k - start, by omega, by omega⟩

theorem mem_spanMarks (rt : JSRuntime) (rows cols : Nat) (cells : Nat → Nat → Cell)
    (p q : Nat × Nat) :
    q ∈ spanMarks rt rows cols (cells p.1 p.2) p.1 p.2 ↔
      inSpan rt cells p q ∧ q.1 < rows ∧ q.2 < cols := by
  obtain ⟨r, c⟩ := p
  obtain ⟨rr, cc⟩ := q
  simp only [spanMarks, inSpan, List.mem_filter, List.mem_flatMap, List.mem_map, mem_spanRange,
    Bool.and_eq_true, Bool.not_eq_true', decide_eq_true_eq, ne_eq, Prod.mk.injEq]
  constructor
  · rintro ⟨⟨a, ha, b, hb, h1, h2⟩, hne, hr, hc⟩
    subst h1 h2
    refine ⟨⟨?_, ha.1, ha.2, hb.1, hb.2⟩, hr, hc⟩
    intro h
    simp [h.1, h.2] at hne
  · rintro ⟨⟨hne, h1, h2, h3, h4⟩, hr, hc⟩
    refine ⟨⟨rr, ⟨h1, h2⟩, cc, ⟨h3, h4⟩, rfl, rfl⟩, ?_, hr, hc⟩
    by_cases e1 : rr = r
    · by_cases e2 : cc = c
      · exact absurd ⟨e1, e2⟩ hne
      · simp [e2]
    · simp [e1]

theorem inSpan_rowMajorLt (rt : JSRuntime) (cells : Nat → Nat → Cell) (p q : Nat × Nat)
    (h : inSpan rt cells p q) : rowMajorLt p q := by
  obtain ⟨hne, h1, _, h3, _⟩ := h
  unfold rowMajorLt
  by_cases e : p.1 = q.1
  · right
    refine ⟨e, ?_⟩
    rcases Nat.lt_or_ge p.2 q.2 with h | h
    · exact h
    · exact absurd (Prod.ext e.symm (by omega)) hne
  · left
    omega

theorem rowMajorLt_asymm (p q : Nat × Nat) (h : rowMajorLt p q) : ¬ rowMajorLt q p := by
  unfold rowMajorLt at *
  omega

theorem rowMajorLt_irrefl (p : Nat × Nat) : ¬ rowMajorLt p p := by
  unfold rowMajorLt
  omega

theorem mem_cellOps (fillAt : Nat → Nat → Bool) (border : Bool) (r c : Nat) (op : CellOp)
    (h : op ∈ cellOps fillAt border r c) : op.pos = (r, c) := by
  simp only [cellOps, List.mem_append, List.mem_singleton] at h
  rcases h with (h | h) | h
  · split at h
    · rw [List.mem_singleton] at h
      rw [h]
      rfl
    · cases h
  · split at h
    · rw [List.mem_singleton] at h
      rw [h]
      rfl
    · cases h
  · rw [h]
    rfl

theorem text_mem_cellOps (fillAt : Nat → Nat → Bool) (border : Bool) (r c : Nat) :
    CellOp.text r c ∈ cellOps fillAt border r c := by
  simp [cellOps]

theorem mem_gridPositions (rows cols : Nat) (p : Nat × Nat) :
    p ∈ gridPositions rows cols ↔ p.1 < rows ∧ p.2 < cols := by
  obtain ⟨r, c⟩ := p
  simp only [gridPositions, List.mem_flatMap, List.mem_map, List.mem_range, Prod.mk.injEq]
  constructor
  · rintro ⟨a, ha, b, hb, rfl, rfl⟩
    exact ⟨ha, hb⟩
  · rintro ⟨h1, h2⟩
    exact ⟨r, h1, c, h2, rfl, rfl⟩

theorem gridPositions_sorted (rows cols : Nat) :
    (gridPositions rows cols).Pairwise rowMajorLt := by
  unfold gridPositions
  rw [List.pairwise_flatMap]
  constructor
  · intro r _
    rw [List.pairwise_map]
    exact (List.pairwise_lt_range cols).imp (fun h => Or.inr ⟨rfl, h⟩)
  · refine (List.pairwise_lt_range rows).imp ?_
    intro a b hab x hx y hy
    simp only [List.mem_map, List.mem_range] at hx hy
    obtain ⟨_, _, rfl⟩ := hx
    obtain ⟨_, _, rfl⟩ := hy
    exact Or.inl hab

theorem cellStep_inv (rt : JSRuntime) (rows cols : Nat) (cells : Nat → Nat → Cell)
    (fillAt : Nat → Nat → Bool) (border : Bool) (done : List (Nat × Nat)) (st : TableState)
    (p : Nat × Nat) (hlt : ∀ d, d ∈ done → rowMajorLt d p)
    (hinv : SpanInv rt rows cols cells done st) :
    SpanInv rt rows cols cells (done ++ [p]) (cellStep rt rows cols cells fillAt border st p) := by
  obtain ⟨h1, h2, h3, h4⟩ := hinv
  have hp : p ∉ done := fun h => rowMajorLt_irrefl p (hlt p h)
  have hnew : CellOp.text p.1 p.2 ∉ st.ops := fun h => hp (h3 _ h).1
  unfold cellStep
  by_cases hs : p ∈ st.skip
  · rw [if_pos hs]
    refine ⟨h1, h2, ?_, ?_⟩
    · intro op hop
      exact ⟨List.mem_append_left _ (h3 op hop).1, (h3 op hop).2⟩
    · intro d hd
      rcases List.mem_append.1 hd with hd | hd
      · exact h4 d hd
      · rw [List.mem_singleton] at hd
        subst hd
        exact ⟨fun h => absurd h hnew, fun h => absurd hs h⟩
  · rw [if_neg hs]
    refine ⟨?_, ?_, ?_, ?_⟩
    · intro q hq
      rcases List.mem_append.1 hq with hq | hq
      · obtain ⟨a, b, d, hd, hin⟩ := h1 q hq
        exact ⟨a, b, d, List.mem_append_left _ hd, hin⟩
      · obtain ⟨hin, a, b⟩ := (mem_spanMarks rt rows cols cells p q).1 hq
        exact ⟨a, b, p, List.mem_append_right _ (text_mem_cellOps fillAt border p.1 p.2), hin⟩
    · intro d hd q hin hr hc
      rcases List.mem_append.1 hd with hd | hd
      · exact List.mem_append_left _ (h2 d hd q hin hr hc)
      · have e : d = p := by
          have := mem_cellOps fillAt border p.1 p.2 _ hd
          exact this
        subst e
        exact List.mem_append_right _ ((mem_spanMarks rt rows cols cells d q).2 ⟨hin, hr, hc⟩)
    · intro op hop
      rcases List.mem_append.1 hop with hop | hop
      · exact ⟨List.mem_append_left _ (h3 op hop).1, List.mem_append_left _ (h3 op hop).2⟩
      · have e : op.pos = p := mem_cellOps fillAt border p.1 p.2 op hop
        rw [e]
        exact ⟨List.mem_append_right _ (List.mem_singleton.2 rfl),
          List.mem_append_right _ (text_mem_cellOps fillAt border p.1 p.2)⟩
    · intro d hd
      rcases List.mem_append.1 hd with hd | hd
      · have hne : d ≠ p := fun e => hp (e ▸ hd)
        have hnm : d ∉ spanMarks rt rows cols (cells p.1 p.2) p.1 p.2 := by
          intro hm
          have hin := ((mem_spanMarks rt rows cols cells p d).1 hm).1
          exact rowMajorLt_asymm _ _ (hlt d hd) (inSpan_rowMajorLt rt cells p d hin)
        constructor
        · intro ht
          rcases List.mem_append.1 ht with ht | ht
          · intro hsk
            rcases List.mem_append.1 hsk with hsk | hsk
            · exact (h4 d hd).1 ht hsk
            · exact hnm hsk
          · exact absurd (mem_cellOps fillAt border p.1 p.2 _ ht) hne
        · intro hsk
          exact List.mem_append_left _
            ((h4 d hd).2 (fun h => hsk (List.mem_append_left _ h)))
      · rw [List.mem_singleton] at hd
        subst hd
        constructor
        · intro _ hsk
          rcases List.mem_append.1 hsk with hsk | hsk
          · exact hs hsk
          · exact ((mem_spanMarks rt rows cols cells d d).1 hsk).1.1 rfl
        · intro _
          exact List.mem_append_right _ (text_mem_cellOps fillAt border d.1 d.2)

theorem cellLoop_inv (rt : JSRuntime) (rows cols : Nat) (cells : Nat → Nat → Cell)
    (fillAt : Nat → Nat → Bool) (border : Bool) :
    ∀ (todo done : List (Nat × Nat)) (st : TableState),
      (done ++ todo).Pairwise rowMajorLt → SpanInv rt rows cols cells done st →
      SpanInv rt rows cols cells (done ++ todo)
        (todo.foldl (cellStep rt rows cols cells fillAt border) st) := by
  intro todo
  induction todo with
  | nil =>
    intro done st _ h
    simpa using h
  | cons p rest ih =>
    intro done st hsorted h
    have hlt : ∀ d, d ∈ done → rowMajorLt d p := by
      intro d hd
      exact (List.pairwise_append.1 hsorted).2.2 d hd p (List.mem_cons_self _ _)
    have e : done ++ p :: rest = (done ++ [p]) ++ rest := by simp
    rw [e] at hsorted ⊢
    exact ih (done ++ [p]) _ hsorted (cellStep_inv rt rows cols cells fillAt border done st p hlt h)

theorem drawTable_cells_inv (rt : JSRuntime) (rows cols : Nat) (cells : Nat → Nat → Cell)
    (fillAt : Nat → Nat → Bool) (border : Bool) :
    SpanInv rt rows cols cells (gridPositions rows cols)
      (drawTable_cells rt rows cols cells fillAt border) := by
  have h := cellLoop_inv rt rows cols cells fillAt border (gridPositions rows cols) [] {}
    (by simpa using gridPositions_sorted rows cols)
    ⟨fun q hq => absurd hq (List.not_mem_nil q), fun p hp => absurd hp (List.not_mem_nil _),
      fun op hop => absurd hop (List.not_mem_nil op), fun p hp => absurd hp (List.not_mem_nil p)⟩
  simpa [drawTable_cells] using h

theorem cellLoop_ops (rt : JSRuntime) (rows cols : Nat) (cells : Nat → Nat → Cell)
    (fillAt : Nat → Nat → Bool) (border : Bool) :
    ∀ (todo : List (Nat × Nat)) (st : TableState),
      (∀ op, op ∈ st.ops ↔
        ∃ p : Nat × Nat, CellOp.text p.1 p.2 ∈ st.ops ∧ op ∈ cellOps fillAt border p.1 p.2) →
      ∀ op, op ∈ (todo.foldl (cellStep rt rows cols cells fillAt border) st).ops ↔
        ∃ p : Nat × Nat,
          CellOp.text p.1 p.2 ∈ (todo.foldl (cellStep rt rows cols cells fillAt border) st).ops ∧
            op ∈ cellOps fillAt border p.1 p.2 := by
  intro todo
  induction todo with
  | nil =>
    intro st h
    exact h
  | cons p rest ih =>
    intro st h
    rw [List.foldl_cons]
    apply ih
    unfold cellStep
    by_cases hs : p ∈ st.skip
    · rw [if_pos hs]
      exact h
    · rw [if_neg hs]
      intro op
      constructor
      · intro hop
        rcases List.mem_append.1 hop with hop | hop
        · obtain ⟨d, hd, hop⟩ := (h op).1 hop
          exact ⟨d, List.mem_append_left _ hd, hop⟩
        · exact ⟨p, List.mem_append_right _ (text_mem_cellOps fillAt border p.1 p.2), hop⟩
      · rintro ⟨d, hd, hop⟩
        rcases List.mem_append.1 hd with hd | hd
        · exact List.mem_append_left _ ((h op).2 ⟨d, hd, hop⟩)
        · have e : d = p := mem_cellOps fillAt border p.1 p.2 _ hd
          subst e
          exact List.mem_append_right _ hop

/-- C26: in the cell loop of `drawTable`, for every grid, every assignment of
span fields to the cells, every fill and border setting, a position of the
grid has its text drawn if and only if no cell drawn earlier in row-major
order covers it with its span; no drawn position lies in the span rectangle
of another drawn cell; and the emitted operations are exactly the fill,
border and text operations of the drawn positions, each of which is a grid
position covered by no drawn cell. -/
theorem drawTable_spans (rt : JSRuntime) (rows cols : Nat) (cells : Nat → Nat → Cell)
    (fillAt : Nat → Nat → Bool) (border : Bool) :
    (∀ r c, r < rows → c < cols →
        (CellOp.text r c ∈ (drawTable_cells rt rows cols cells fillAt border).ops ↔
          ¬ ∃ p : Nat × Nat,
            CellOp.text p.1 p.2 ∈ (drawTable_cells rt rows cols cells fillAt border).ops ∧
              rowMajorLt p (r, c) ∧ inSpan rt cells p (r, c))) ∧
      (∀ p q : Nat × Nat,
        CellOp.text p.1 p.2 ∈ (drawTable_cells rt rows cols cells fillAt border).ops →
        CellOp.text q.1 q.2 ∈ (drawTable_cells rt rows cols cells fillAt border).ops →
        ¬ inSpan rt cells p q) ∧
      (∀ op, op ∈ (drawTable_cells rt rows cols cells fillAt border).ops ↔
        ∃ p : Nat × Nat,
          CellOp.text p.1 p.2 ∈ (drawTable_cells rt rows cols cells fillAt border).ops ∧
            op ∈ cellOps fillAt border p.1 p.2) ∧
      (∀ op, op ∈ (drawTable_cells rt rows cols cells fillAt border).ops →
        op.pos.1 < rows ∧ op.pos.2 < cols ∧
          ¬ ∃ p : Nat × Nat,
            CellOp.text p.1 p.2 ∈ (drawTable_cells rt rows cols cells fillAt border).ops ∧
              inSpan rt cells p op.pos) := by
  obtain ⟨h1, h2, h3, h4⟩ := drawTable_cells_inv rt rows cols cells fillAt border
  have hcov : ∀ q : Nat × Nat, q.1 < rows → q.2 < cols →
      (CellOp.text q.1 q.2 ∈ (drawTable_cells rt rows cols cells fillAt border).ops ↔
        ¬ ∃ p : Nat × Nat,
          CellOp.text p.1 p.2 ∈ (drawTable_cells rt rows cols cells fillAt border).ops ∧
            inSpan rt cells p q) := by
    intro q hr hc
    rw [h4 q ((mem_gridPositions rows cols q).2 ⟨hr, hc⟩)]
    constructor
    · rintro hq ⟨p, hp, hin⟩
      exact hq (h2 p hp q hin hr hc)
    · intro hq hsk
      obtain ⟨_, _, p, hp, hin⟩ := h1 q hsk
      exact hq ⟨p, hp, hin⟩
  have hgrid : ∀ op, op ∈ (drawTable_cells rt rows cols cells fillAt border).ops →
      op.pos.1 < rows ∧ op.pos.2 < cols := fun op hop =>
    (mem_gridPositions rows cols op.pos).1 (h3 op hop).1
  refine ⟨?_, ?_, ?_, ?_⟩
  · intro r c hr hc
    rw [hcov (r, c) hr hc]
    constructor
    · rintro h ⟨p, hp, _, hin⟩
      exact h ⟨p, hp, hin⟩
    · rintro h ⟨p, hp, hin⟩
      exact h ⟨p, hp, inSpan_rowMajorLt rt cells p (r, c) hin, hin⟩
  · intro p q hp hq hin
    have hg := hgrid _ hq
    exact (hcov q hg.1 hg.2).1 hq ⟨p, hp, hin⟩
  · intro op
    exact cellLoop_ops rt rows cols cells fillAt border (gridPositions rows cols) {}
      (fun op => ⟨fun h => absurd h (List.not_mem_nil op),
        fun ⟨_, h, _⟩ => absurd h (List.not_mem_nil _)⟩) op
  · intro op hop
    have hg := hgrid op hop
    exact ⟨hg.1, hg.2, (hcov op.pos hg.1 hg.2).1 (h3 op hop).2⟩

set_option maxRecDepth 100000 in
theorem drawTable_spans_witness :
    CellOp.text 0 2 ∈
        (drawTable_cells asciiRuntime 2 3 headerCells (fun _ _ => false) true).ops ∧
      CellOp.text 1 1 ∉
        (drawTable_cells asciiRuntime 2 3 headerCells (fun _ _ => false) true).ops :=
  ⟨by decide,
    fun h => ((drawTable_spans asciiRuntime 2 3 headerCells (fun _ _ => false) true).1
      1 1 (by decide) (by decide)).1 h
      ⟨(0, 0), by decide, Or.inl (by decide), by unfold inSpan; decide⟩⟩

end Spans

section Grouping

open PropuestaPdf

theorem trimCarrera_of_stringOrMissing (v : JSVal) (h : stringOrMissing v = true) :
    (trimCarrera v).isSome = true := by
  cases v <;> first | rfl | cases h

theorem put_eq (b : List (String × List Row)) (c : String) (row : Row) :
    put b c row = mapSet b c ((mapGet b c).getD [] ++ [row]) := by
  unfold put
  by_cases h : mapHas b c = true
  · simp only [h, if_true]
  · rw [Bool.not_eq_true] at h
    simp only [h, Bool.false_eq_true, if_false]
    rw [mapGet_mapSet_self, mapSet_mapSet, (mapHas_false_iff b c).1 h]
    rfl

theorem put_keys_nodup (b : List (String × List Row)) (c : String) (row : Row)
    (h : (b.map Prod.fst).Nodup) : ((put b c row).map Prod.fst).Nodup := by
  rw [put_eq]
  exact mapSet_keys_nodup b c _ h

theorem mapGet_put (b : List (String × List Row)) (c k : String) (row : Row) :
    mapGet (put b c row) k
      = if k = c then some ((mapGet b c).getD [] ++ [row]) else mapGet b k := by
  rw [put_eq, mapGet_mapSet]

theorem put_new (b : List (String × List Row)) (c : String) (row : Row)
    (h : mapHas b c = false) : put b c row = b ++ [(c, [row])] := by
  rw [put_eq, (mapHas_false_iff b c).1 h]
  unfold mapSet
  simp [h]

theorem putFold_keys_nodup {α : Type} (key : α → String) (val : α → Row) (l : List α) :
    ∀ b : List (String × List Row), (b.map Prod.fst).Nodup →
      ((l.foldl (fun b x => put b (key x) (val x)) b).map Prod.fst).Nodup := by
  induction l with
  | nil => intro b h; exact h
  | cons x t ih =>
    intro b h
    exact ih _ (put_keys_nodup b (key x) (val x) h)

theorem putFold_get {α : Type} (key : α → String) (val : α → Row) (l : List α) :
    ∀ (b : List (String × List Row)) (k : String),
      mapGet (l.foldl (fun b x => put b (key x) (val x)) b) k
        = if (l.filter (fun x => key x = k)).length = 0 then mapGet b k
          else some ((mapGet b k).getD [] ++ (l.filter (fun x => key x = k)).map val) := by
  induction l with
  | nil =>
    intro b k
    simp
  | cons x t ih =>
    intro b k
    rw [List.foldl_cons, ih, mapGet_put]
    by_cases hk : key x = k
    · subst hk
      by_cases ht : (t.filter (fun y => key y = key x)).length = 0
      · have ht2 := List.length_eq_zero.1 ht
        simp [List.filter_cons, ht2]
      · have ht2 : t.filter (fun y => key y = key x) ≠ [] := fun h => ht (by rw [h]; rfl)
        simp [List.filter_cons, ht2]
    · have hk2 : ¬ k = key x := fun h => hk h.symm
      simp [List.filter_cons, hk, hk2]

theorem mapSet_flatMap_perm (b : List (String × List Row)) (c : String) (row : Row)
    (h : (b.map Prod.fst).Nodup) :
    ((mapSet b c ((mapGet b c).getD [] ++ [row])).flatMap Prod.snd).Perm
      (b.flatMap Prod.snd ++ [row]) := by
  induction b with
  | nil =>
    simp [mapSet, mapHas, mapGet]
  | cons e t ih =>
    rw [List.map_cons, List.nodup_cons] at h
    by_cases hk : e.1 = c
    · have hnot : mapHas t c = false := by
        rw [← Bool.not_eq_true, mapHas_iff_mem_keys]
        exact hk ▸ h.1
      have hmap : t.map (fun e' => if e'.1 == c then (c, e.2 ++ [row]) else e') = t := by
        conv_rhs => rw [← List.map_id t]
        apply List.map_congr_left
        intro e' he'
        have : e'.1 ≠ c := by
          intro h'
          have : mapHas t c = true := (mapHas_iff_mem_keys t c).2 (List.mem_map.2 ⟨e', he', h'⟩)
          rw [hnot] at this
          cases this
        simp [this]
      have hhas : mapHas (e :: t) c = true := by
        rw [mapHas_cons]; simp [hk]
      rw [mapGet_cons, if_pos hk]
      unfold mapSet
      rw [if_pos hhas, List.map_cons]
      simp only [Option.getD_some, hk, beq_self_eq_true, if_true, hmap, List.flatMap_cons]
      rw [List.append_assoc, List.append_assoc]
      exact List.Perm.append_left _ List.perm_append_comm
    · have e1 : mapSet (e :: t) c ((mapGet (e :: t) c).getD [] ++ [row])
          = e :: mapSet t c ((mapGet t c).getD [] ++ [row]) := by
        rw [mapGet_cons, if_neg hk]
        unfold mapSet
        rw [mapHas_cons]
        have hb : (e.1 == c) = false := by simpa using hk
        by_cases ht : mapHas t c = true
        · simp [ht, hb, hk]
        · rw [Bool.not_eq_true] at ht
          simp [ht, hk]
      rw [e1, List.flatMap_cons, List.flatMap_cons, List.append_assoc]
      exact List.Perm.append_left _ (ih h.2)

theorem putFold_perm {α : Type} (key : α → String) (val : α → Row) (l : List α) :
    ∀ b : List (String × List Row), (b.map Prod.fst).Nodup →
      ((l.foldl (fun b x => put b (key x) (val x)) b).flatMap Prod.snd).Perm
        (b.flatMap Prod.snd ++ l.map val) := by
  induction l with
  | nil =>
    intro b _
    simp
  | cons x t ih =>
    intro b h
    rw [List.foldl_cons]
    refine (ih _ (put_keys_nodup b (key x) (val x) h)).trans ?_
    rw [put_eq, List.map_cons]
    have := mapSet_flatMap_perm b (key x) (val x) h
    refine (List.Perm.append_right _ this).trans ?_
    rw [List.append_assoc]
    rfl

theorem newSet_fold (xs : List String) :
    ∀ acc : List String, acc.Nodup →
      (xs.foldl (fun s x => if x ∈ s then s else s ++ [x]) acc).Nodup ∧
        ∀ y, y ∈ xs.foldl (fun s x => if x ∈ s then s else s ++ [x]) acc ↔ y ∈ acc ∨ y ∈ xs := by
  induction xs with
  | nil =>
    intro acc h
    simp [h]
  | cons x t ih =>
    intro acc h
    rw [List.foldl_cons]
    by_cases hx : x ∈ acc
    · rw [if_pos hx]
      refine ⟨(ih acc h).1, fun y => ?_⟩
      rw [(ih acc h).2 y, List.mem_cons]
      constructor
      · rintro (h1 | h1)
        · exact Or.inl h1
        · exact Or.inr (Or.inr h1)
      · rintro (h1 | h1 | h1)
        · exact Or.inl h1
        · exact Or.inl (h1 ▸ hx)
        · exact Or.inr h1
    · rw [if_neg hx]
      have hn : (acc ++ [x]).Nodup := by
        rw [List.nodup_append]
        refine ⟨h, List.nodup_singleton x, ?_⟩
        intro a ha hb
        rw [List.mem_singleton] at hb
        exact hx (hb ▸ ha)
      refine ⟨(ih _ hn).1, fun y => ?_⟩
      rw [(ih _ hn).2 y, List.mem_append, List.mem_singleton, List.mem_cons]
      tauto

theorem newSet_nodup (xs : List String) : (newSet xs).Nodup :=
  (newSet_fold xs [] List.nodup_nil).1

theorem mem_newSet (xs : List String) (y : String) : y ∈ newSet xs ↔ y ∈ xs := by
  unfold newSet
  rw [(newSet_fold xs [] List.nodup_nil).2 y]
  simp

end Grouping

section Partition

open PropuestaPdf

theorem groupRows_some (rt : JSRuntime) (profs : List Profesor) (hors : List Horario)
    (hp : ∀ p ∈ profs, stringOrMissing p.carrera = true)
    (hh : ∀ h ∈ hors, stringOrMissing h.carrera = true) :
    groupRowsByCarreraFromRedis rt profs hors
      = some (((buildBuckets rt profs hors).map (buildPage rt profs hors)).insertionSort
          (fun a b => rt.localeCompare a.carrera b.carrera ≤ 0)) := by
  unfold groupRowsByCarreraFromRedis
  rw [if_pos]
  constructor
  · rw [List.all_eq_true]
    exact fun p hp2 => trimCarrera_of_stringOrMissing _ (hp p hp2)
  · rw [List.all_eq_true]
    exact fun h hh2 => trimCarrera_of_stringOrMissing _ (hh h hh2)

theorem buildBuckets_of_ne (rt : JSRuntime) (profs : List Profesor) (hors : List Horario)
    (hne : hors ≠ []) :
    buildBuckets rt profs hors
      = hors.foldl (fun b h => put b (resolveCarrera (defaultCarrera profs hors) h)
          (horarioToRow rt h)) [] := by
  have hl : hors.length ≠ 0 := fun h => hne (List.length_eq_zero.1 h)
  unfold buildBuckets
  cases profs with
  | nil => rfl
  | cons p0 t => simp only [if_neg hl]

/-- C28: for every roster and every non-empty list of assignment records
whose career fields (and those of the roster) are strings or missing,
`groupRowsByCarreraFromRedis` returns pages with pairwise distinct careers,
none of them empty; the rows of a page are `horarioToRow` of the records whose
trimmed career (the default career when blank) is the page's career, in input
order; every record has its page; and the rows of all pages together are a
rearrangement of `horarioToRow` of the input records. -/
theorem groupRows_partition (rt : JSRuntime) (profs : List Profesor) (hors : List Horario)
    (hne : hors ≠ [])
    (hp : ∀ p ∈ profs, stringOrMissing p.carrera = true)
    (hh : ∀ h ∈ hors, stringOrMissing h.carrera = true) :
    ∃ pages, groupRowsByCarreraFromRedis rt profs hors = some pages ∧
      (pages.map (fun pg => pg.carrera)).Nodup ∧
      (∀ pg ∈ pages, pg.rows ≠ [] ∧
        pg.rows = (hors.filter
          (fun h => resolveCarrera (defaultCarrera profs hors) h = pg.carrera)).map
            (horarioToRow rt)) ∧
      (∀ h ∈ hors, ∃ pg ∈ pages,
        pg.carrera = resolveCarrera (defaultCarrera profs hors) h) ∧
      (pages.flatMap (fun pg => pg.rows)).Perm (hors.map (horarioToRow rt)) := by
  refine ⟨_, groupRows_some rt profs hors hp hh, ?_⟩
  rw [buildBuckets_of_ne rt profs hors hne]
  have hperm := List.perm_insertionSort (fun a b : Page => rt.localeCompare a.carrera b.carrera ≤ 0)
    ((hors.foldl (fun b h => put b (resolveCarrera (defaultCarrera profs hors) h)
      (horarioToRow rt h)) []).map (buildPage rt profs hors))
  have hnodup := putFold_keys_nodup (resolveCarrera (defaultCarrera profs hors))
    (horarioToRow rt) hors [] List.nodup_nil
  have hget := fun k => putFold_get (resolveCarrera (defaultCarrera profs hors))
    (horarioToRow rt) hors [] k
  have hflat := putFold_perm (resolveCarrera (defaultCarrera profs hors))
    (horarioToRow rt) hors [] List.nodup_nil
  generalize hors.foldl (fun b h => put b (resolveCarrera (defaultCarrera profs hors) h)
      (horarioToRow rt h)) [] = B at hperm hnodup hget hflat ⊢
  refine ⟨?_, ?_, ?_, ?_⟩
  · rw [(hperm.map (fun pg => pg.carrera)).nodup_iff, List.map_map]
    exact hnodup
  · intro pg hpg
    obtain ⟨e, he, rfl⟩ := List.mem_map.1 (hperm.mem_iff.1 hpg)
    have h1 := mapGet_of_mem B hnodup e he
    rw [hget e.1] at h1
    by_cases hl : (hors.filter
        (fun h => resolveCarrera (defaultCarrera profs hors) h = e.1)).length = 0
    · rw [if_pos hl] at h1
      cases h1
    · rw [if_neg hl] at h1
      have h2 : e.2 = (hors.filter
          (fun h => resolveCarrera (defaultCarrera profs hors) h = e.1)).map
            (horarioToRow rt) := by
        have := Option.some.inj h1
        rw [← this]
        rfl
      refine ⟨?_, h2⟩
      show e.2 ≠ []
      rw [h2]
      intro h3
      exact hl (by rw [← List.length_map, h3]; rfl)
  · intro h hmem
    have hl : (hors.filter (fun h2 => resolveCarrera (defaultCarrera profs hors) h2
        = resolveCarrera (defaultCarrera profs hors) h)).length ≠ 0 := by
      intro h0
      have hin : h ∈ hors.filter (fun h2 => resolveCarrera (defaultCarrera profs hors) h2
          = resolveCarrera (defaultCarrera profs hors) h) :=
        List.mem_filter.2 ⟨hmem, by simp⟩
      rw [List.length_eq_zero.1 h0] at hin
      cases hin
    have h1 := hget (resolveCarrera (defaultCarrera profs hors) h)
    rw [if_neg hl] at h1
    have h2 := mem_of_mapGet B _ _ h1
    exact ⟨_, hperm.mem_iff.2 (List.mem_map.2 ⟨_, h2, rfl⟩), rfl⟩
  · refine (hperm.flatMap_right (fun pg => pg.rows)).trans ?_
    rw [List.flatMap_map]
    exact hflat

set_option maxRecDepth 100000 in
theorem groupRows_partition_witness :
    horariosTwoCareers ≠ [] ∧
      ∃ pages, groupRowsByCarreraFromRedis asciiRuntime rosterTwoCareers horariosTwoCareers
          = some pages ∧
        (pages.map (fun pg => pg.carrera)).Nodup ∧
        (∀ pg ∈ pages, pg.rows ≠ [] ∧
          pg.rows = (horariosTwoCareers.filter
            (fun h => resolveCarrera (defaultCarrera rosterTwoCareers horariosTwoCareers) h
              = pg.carrera)).map (horarioToRow asciiRuntime)) ∧
        (∀ h ∈ horariosTwoCareers, ∃ pg ∈ pages,
          pg.carrera = resolveCarrera (defaultCarrera rosterTwoCareers horariosTwoCareers) h) ∧
        (pages.flatMap (fun pg => pg.rows)).Perm
          (horariosTwoCareers.map (horarioToRow asciiRuntime)) :=
  ⟨by decide,
    groupRows_partition asciiRuntime rosterTwoCareers horariosTwoCareers (by decide)
      (by decide) (by decide)⟩

set_option maxRecDepth 100000 in
/-- The grouping of three records over two careers: the record without career
goes to the most frequent roster career. -/
theorem groupRows_example :
    (groupRowsByCarreraFromRedis asciiRuntime rosterTwoCareers horariosTwoCareers).map
        (fun pages => pages.map (fun pg => (pg.carrera, pg.rows.map (fun r => r.grupo))))
      = some [("ICO", ["2", "3"]), ("IME", ["1"])] := by
  decide

end Partition

section Synthesized

open PropuestaPdf

theorem putFold_fresh (val : String → Row) (l : List String) :
    ∀ b : List (String × List Row), l.Nodup → (∀ c ∈ l, mapHas b c = false) →
      l.foldl (fun b c => put b c (val c)) b = b ++ l.map (fun c => (c, [val c])) := by
  induction l with
  | nil =>
    intro b _ _
    simp
  | cons c t ih =>
    intro b hn hb
    rw [List.nodup_cons] at hn
    rw [List.foldl_cons, put_new b c (val c) (hb c (List.mem_cons_self _ _)), ih _ hn.2]
    · simp
    · intro c2 hc2
      have hne : c ≠ c2 := fun h => hn.1 (h ▸ hc2)
      have h1 := hb c2 (List.mem_cons_of_mem _ hc2)
      unfold mapHas at h1 ⊢
      rw [List.any_append, h1]
      simp [hne]

theorem carrerasSet_nodup (profs : List Profesor) (hors : List Horario) :
    (carrerasSet profs hors).Nodup := by
  unfold carrerasSet
  simp only []
  split
  · exact List.nodup_singleton _
  · exact newSet_nodup _

theorem mem_carrerasProf (profs : List Profesor) (c : String) :
    c ∈ carrerasProf profs ↔ c ≠ "" ∧ ∃ p ∈ profs, carreraStr p.carrera = c := by
  unfold carrerasProf
  simp only [List.mem_filter, List.mem_map, decide_eq_true_eq]
  constructor
  · rintro ⟨⟨p, hp, rfl⟩, hne⟩
    exact ⟨hne, p, hp, rfl⟩
  · rintro ⟨hne, p, hp, rfl⟩
    exact ⟨⟨p, hp, rfl⟩, hne⟩

theorem carrerasSet_of_named (profs : List Profesor)
    (h : ∃ p ∈ profs, carreraStr p.carrera ≠ "") (c : String) :
    c ∈ carrerasSet profs [] ↔ c ≠ "" ∧ ∃ p ∈ profs, carreraStr p.carrera = c := by
  have hmem : ∀ x, x ∈ newSet ((carrerasProf profs ++ carrerasHor []).filter (fun c => c ≠ ""))
      ↔ x ≠ "" ∧ ∃ p ∈ profs, carreraStr p.carrera = x := by
    intro x
    rw [mem_newSet, List.mem_filter, List.mem_append, mem_carrerasProf]
    simp only [carrerasHor, List.map_nil, List.filter_nil, List.not_mem_nil, or_false,
      decide_eq_true_eq]
    tauto
  obtain ⟨p, hp, hne⟩ := h
  have hlen : (newSet ((carrerasProf profs ++ carrerasHor []).filter (fun c => c ≠ ""))).length
      ≠ 0 := by
    intro h0
    have := (hmem (carreraStr p.carrera)).2 ⟨hne, p, hp, rfl⟩
    rw [List.length_eq_zero.1 h0] at this
    cases this
  unfold carrerasSet
  simp only [if_neg hlen]
  exact hmem c

theorem carrerasSet_of_blank (profs : List Profesor)
    (h : ∀ p ∈ profs, carreraStr p.carrera = "") :
    carrerasSet profs [] = ["desconocido"] := by
  have e : carrerasProf profs = [] := by
    unfold carrerasProf
    rw [List.filter_eq_nil_iff]
    intro c hc
    obtain ⟨p, hp, rfl⟩ := List.mem_map.1 hc
    simp [h p hp]
  unfold carrerasSet defaultCarrera
  rw [e]
  rfl

theorem buildBuckets_synthesized (rt : JSRuntime) (p0 : Profesor) (t : List Profesor) :
    buildBuckets rt (p0 :: t) []
      = (carrerasSet (p0 :: t) []).map (fun c =>
          (c, [templateRow rt
            (((p0 :: t).find? (fun pp => carreraStr pp.carrera = c)).getD p0)])) := by
  unfold buildBuckets
  simp only [List.foldl_nil, List.length_nil, if_true]
  rw [putFold_fresh (fun c => templateRow rt
      (((p0 :: t).find? (fun pp => carreraStr pp.carrera = c)).getD p0))
    _ [] (carrerasSet_nodup _ _) (fun _ _ => rfl)]
  rfl

theorem trimCarrera_of_not_stringOrMissing (v : JSVal) (h : stringOrMissing v = false) :
    (trimCarrera v).isSome = false := by
  cases v <;> first | rfl | cases h

/-- C24 (the code at the failing inputs): a roster entry whose career is
neither a string nor missing makes `groupRowsByCarreraFromRedis` throw at the
first `.trim()`, whatever the other entries and the records are, so that no
page is returned for the holder. -/
theorem groupRows_career_not_string (rt : JSRuntime) (profs : List Profesor)
    (hors : List Horario) (h : ∃ p ∈ profs, stringOrMissing p.carrera = false) :
    groupRowsByCarreraFromRedis rt profs hors = none := by
  obtain ⟨p, hp, hs⟩ := h
  unfold groupRowsByCarreraFromRedis
  rw [if_neg]
  rintro ⟨h1, _⟩
  rw [List.all_eq_true] at h1
  have := h1 p hp
  rw [trimCarrera_of_not_stringOrMissing _ hs] at this
  cases this

theorem groupRows_career_not_string_witness :
    (∃ p ∈ rosterNumericCareer, stringOrMissing p.carrera = false) ∧
      groupRowsByCarreraFromRedis asciiRuntime rosterNumericCareer [] = none :=
  ⟨⟨_, List.mem_singleton.2 rfl, rfl⟩,
    groupRows_career_not_string asciiRuntime rosterNumericCareer []
      ⟨_, List.mem_singleton.2 rfl, rfl⟩⟩

/-- Synthesized pages where the grouping does not throw: for every non-empty
roster of a holder whose career fields are strings or missing, and no
assignment records, `groupRowsByCarreraFromRedis` returns at least one page,
the pages have pairwise distinct careers, each page has exactly one row, built
from a roster entry; the careers of the pages are the non-empty trimmed roster
careers, or the fallback career alone when every roster career is blank. -/
theorem groupRows_synthesized (rt : JSRuntime) (profs : List Profesor) (hne : profs ≠ [])
    (hp : ∀ p ∈ profs, stringOrMissing p.carrera = true) :
    ∃ pages, groupRowsByCarreraFromRedis rt profs [] = some pages ∧
      pages ≠ [] ∧
      (pages.map (fun pg => pg.carrera)).Nodup ∧
      (∀ pg ∈ pages, ∃ p ∈ profs, pg.rows = [templateRow rt p]) ∧
      ((∃ p ∈ profs, carreraStr p.carrera ≠ "") →
        ∀ c, c ∈ pages.map (fun pg => pg.carrera) ↔
          c ≠ "" ∧ ∃ p ∈ profs, carreraStr p.carrera = c) ∧
      ((∀ p ∈ profs, carreraStr p.carrera = "") →
        pages.map (fun pg => pg.carrera) = ["desconocido"]) := by
  refine ⟨_, groupRows_some rt profs [] hp (fun h hh => absurd hh (List.not_mem_nil h)), ?_⟩
  obtain ⟨p0, t, rfl⟩ := List.exists_cons_of_ne_nil hne
  rw [buildBuckets_synthesized]
  have hperm := List.perm_insertionSort
    (fun a b : Page => rt.localeCompare a.carrera b.carrera ≤ 0)
    (((carrerasSet (p0 :: t) []).map (fun c =>
      (c, [templateRow rt
        (((p0 :: t).find? (fun pp => carreraStr pp.carrera = c)).getD p0)]))).map
      (buildPage rt (p0 :: t) []))
  have hcar : ((((carrerasSet (p0 :: t) []).map (fun c =>
      (c, [templateRow rt
        (((p0 :: t).find? (fun pp => carreraStr pp.carrera = c)).getD p0)]))).map
      (buildPage rt (p0 :: t) [])).map (fun pg => pg.carrera)) = carrerasSet (p0 :: t) [] := by
    rw [List.map_map, List.map_map]
    conv_rhs => rw [← List.map_id (carrerasSet (p0 :: t) [])]
    rfl
  have hpc := hperm.map (fun pg => pg.carrera)
  rw [hcar] at hpc
  generalize List.insertionSort (fun a b : Page => rt.localeCompare a.carrera b.carrera ≤ 0)
    (((carrerasSet (p0 :: t) []).map (fun c =>
      (c, [templateRow rt
        (((p0 :: t).find? (fun pp => carreraStr pp.carrera = c)).getD p0)]))).map
      (buildPage rt (p0 :: t) [])) = pages at hperm hpc ⊢
  have hset : carrerasSet (p0 :: t) [] ≠ [] := by
    unfold carrerasSet
    simp only []
    split
    · exact List.cons_ne_nil _ _
    · rename_i h
      exact fun h2 => h (by rw [h2]; rfl)
  refine ⟨?_, ?_, ?_, ?_, ?_⟩
  · intro h
    rw [h] at hpc
    exact hset (List.Perm.eq_nil hpc.symm)
  · exact hpc.nodup_iff.2 (carrerasSet_nodup _ _)
  · intro pg hpg
    obtain ⟨e, he, rfl⟩ := List.mem_map.1 (hperm.mem_iff.1 hpg)
    obtain ⟨c, _, rfl⟩ := List.mem_map.1 he
    have hq : ((p0 :: t).find? (fun (pp : Profesor) => carreraStr pp.carrera = c)).getD p0
        ∈ p0 :: t := by
      cases hf : (p0 :: t).find? (fun (pp : Profesor) => carreraStr pp.carrera = c) with
      | none => exact List.mem_cons_self _ _
      | some p => exact List.mem_of_find?_eq_some hf
    exact ⟨_, hq, rfl⟩
  · intro h c
    rw [hpc.mem_iff]
    exact carrerasSet_of_named _ h c
  · intro h
    rw [carrerasSet_of_blank _ h] at hpc
    exact List.perm_singleton.1 hpc

set_option maxRecDepth 100000 in
theorem groupRows_synthesized_witness :
    rosterTwoCareers ≠ [] ∧
      ∃ pages, groupRowsByCarreraFromRedis asciiRuntime rosterTwoCareers [] = some pages ∧
        pages ≠ [] ∧
        (pages.map (fun pg => pg.carrera)).Nodup ∧
        (∀ pg ∈ pages, ∃ p ∈ rosterTwoCareers, pg.rows = [templateRow asciiRuntime p]) ∧
        ((∃ p ∈ rosterTwoCareers, carreraStr p.carrera ≠ "") →
          ∀ c, c ∈ pages.map (fun pg => pg.carrera) ↔
            c ≠ "" ∧ ∃ p ∈ rosterTwoCareers, carreraStr p.carrera = c) ∧
        ((∀ p ∈ rosterTwoCareers, carreraStr p.carrera = "") →
          pages.map (fun pg => pg.carrera) = ["desconocido"]) :=
  ⟨by decide, groupRows_synthesized asciiRuntime rosterTwoCareers (by decide) (by decide)⟩

set_option maxRecDepth 100000 in
/-- The pages synthesized from a roster on two careers, and from a roster
without careers. -/
theorem groupRows_synthesized_example :
    (groupRowsByCarreraFromRedis asciiRuntime rosterTwoCareers []).map
        (fun pages => pages.map (fun pg => (pg.carrera, pg.rows.length)))
      = some [("ICO", 1), ("IME", 1)] ∧
      (groupRowsByCarreraFromRedis asciiRuntime [{}, {}] []).map
          (fun pages => pages.map (fun pg => (pg.carrera, pg.rows.length)))
        = some [("desconocido", 1)] := by
  decide

end Synthesized

section Binary64

open HorarioGeneral

theorem f64exp_small (m : Nat) (h : m < 2 ^ 53) : f64exp m = 0 := by
  unfold f64exp
  have e : List.range 972 = 0 :: (List.range 971).map Nat.succ := List.range_succ_eq_map 971
  rw [e, List.find?_cons_of_pos]
  · rfl
  · simpa using h

set_option maxRecDepth 100000 in
theorem f64round_pow53 :
    f64round 9007199254740992 = 9007199254740992 ∧
      f64round (-9007199254740992) = -9007199254740992 := by
  decide

theorem f64round_exact (n : Int) (h : |n| ≤ 2 ^ 53) : f64round n = n := by
  have hm : n.natAbs ≤ 2 ^ 53 := by
    have : ((n.natAbs : Nat) : Int) ≤ 2 ^ 53 := by rw [Int.natCast_natAbs]; exact h
    exact_mod_cast this
  rcases Nat.lt_or_ge n.natAbs (2 ^ 53) with hlt | hge
  · unfold f64round
    simp only [f64exp_small _ hlt, pow_zero, Nat.div_one, Nat.mod_one, mul_zero, mul_one]
    have : ¬ ((1 : Nat) < 0 ∨ ((0 : Nat) = 1 ∧ n.natAbs % 2 = 1)) := by
      rintro (h | h)
      · exact absurd h (by decide)
      · exact absurd h.1 (by decide)
    rw [if_neg this]
    exact Int.sign_mul_natAbs n
  · have he : n.natAbs = 9007199254740992 := by
      have := le_antisymm hm hge
      rw [this]
      norm_num
    rcases Int.natAbs_eq n with h1 | h1
    · rw [he] at h1
      rw [h1]
      exact f64round_pow53.1
    · rw [he] at h1
      rw [h1]
      exact f64round_pow53.2

theorem f64add_exact (a b : Int) (h : |a + b| ≤ 2 ^ 53) : f64add a b = a + b :=
  f64round_exact _ h

theorem addHours64_eq (semestres : List String) (nom : String) (i : Nat) (d : Int × Int)
    (subjects : List (String × Subject)) (n : Nat) (hn : semestres.length = n) (hi : i < n)
    (hwf : SubjectsWF n subjects) :
    ∃ subjects1 subj cell,
      subjects1 = (if !mapHas subjects nom then
          mapSet subjects nom { nom := nom, parcial := semestres.map (fun _ => (0, 0)) }
        else subjects) ∧
      mapGet subjects1 nom = some subj ∧ subj.parcial[i]? = some cell ∧
      mapSet subjects1 nom
          { subj with parcial := subj.parcial.set i (f64add cell.1 d.1, f64add cell.2 d.2) }
        = mapSet subjects nom (bucketAfter64 i d (bucketBefore semestres nom subjects)) := by
  have hb := bucketBefore_spec semestres nom subjects n hn hwf
  have hlt : i < (bucketBefore semestres nom subjects).parcial.length := by rw [hb.2]; exact hi
  refine ⟨_, bucketBefore semestres nom subjects,
    (bucketBefore semestres nom subjects).parcial.getD i (0, 0), rfl, ?_, ?_, ?_⟩
  · cases hg : mapGet subjects nom with
    | none =>
      have hh : mapHas subjects nom = false := (mapHas_false_iff _ _).2 hg
      simp only [hh, Bool.not_false, if_true, mapGet_mapSet_self, bucketBefore, hg,
        Option.getD_none]
    | some b =>
      have hh : mapHas subjects nom = true := by rw [mapHas_eq_isSome, hg]; rfl
      simp only [hh, Bool.not_true, bucketBefore, hg, Option.getD_some]
      simpa using hg
  · rw [List.getD_eq_getElem?_getD, List.getElem?_eq_getElem hlt]
    simp
  · have : (if (!mapHas subjects nom) = true then
          mapSet subjects nom { nom := nom, parcial := semestres.map (fun _ => (0, 0)) }
        else subjects) = subjects ∨ (if (!mapHas subjects nom) = true then
          mapSet subjects nom { nom := nom, parcial := semestres.map (fun _ => (0, 0)) }
        else subjects) = mapSet subjects nom
          { nom := nom, parcial := semestres.map (fun _ => (0, 0)) } := by
      by_cases hh : mapHas subjects nom = true
      · left; simp [hh]
      · right; simp [hh]
    have hval : ({ (bucketBefore semestres nom subjects) with
        parcial := (bucketBefore semestres nom subjects).parcial.set i
          (f64add ((bucketBefore semestres nom subjects).parcial.getD i (0, 0)).1 d.1,
            f64add ((bucketBefore semestres nom subjects).parcial.getD i (0, 0)).2 d.2) } :
          Subject)
        = bucketAfter64 i d (bucketBefore semestres nom subjects) := rfl
    rw [hval]
    rcases this with h1 | h1
    · rw [h1]
    · rw [h1, mapSet_mapSet]

/-- The pass with binary64 additions is a single `set` on the record's key. -/
theorem formatStep64_eq (rt : JSRuntime) (idx : CarreraIndex) (semestres : List String)
    (st : List (String × ProfEntry)) (h : Horario) (n : Nat) (hn : semestres.length = n)
    (hpos : 0 < n) (hwf : MapWF n st) :
    formatStep64 rt idx semestres st h
      = some (mapSet st (holderKey h) (entryAfter64 rt idx semestres st h)) := by
  have hi : recordIdx rt semestres h < n := hn ▸ recordIdx_lt rt semestres h (hn ▸ hpos)
  have key1 : ∃ st1 : List (String × ProfEntry),
      st1 = (if !mapHas st (holderKey h) then
          mapSet st (holderKey h)
            { name := holderName h, rfc := holderRfc h, worker := holderWorker h,
              carrera := lookupCarrera rt idx h, subjects := [] }
        else
          match mapGet st (holderKey h) with
          | some p =>
            if p.carrera = "desconocido" ∧ lookupCarrera rt idx h ≠ "desconocido" then
              mapSet st (holderKey h) { p with carrera := lookupCarrera rt idx h }
            else st
          | none => st) ∧
      mapGet st1 (holderKey h) = some (entryBefore (lookupCarrera rt idx h) st h) ∧
      (∀ v, mapSet st1 (holderKey h) v = mapSet st (holderKey h) v) ∧
      SubjectsWF n (entryBefore (lookupCarrera rt idx h) st h).subjects := by
    refine ⟨_, rfl, ?_⟩
    cases hg : mapGet st (holderKey h) with
    | none =>
      have hh : mapHas st (holderKey h) = false := (mapHas_false_iff _ _).2 hg
      simp only [hh, Bool.not_false, if_true, mapGet_mapSet_self, entryBefore, hg]
      refine ⟨trivial, fun v => mapSet_mapSet _ _ _ _, ?_⟩
      exact ⟨List.nodup_nil, fun e he => by cases he⟩
    | some p =>
      have hh : mapHas st (holderKey h) = true := by rw [mapHas_eq_isSome, hg]; rfl
      have hp := (hwf.2 _ (mem_of_mapGet st _ p hg)).2
      simp only [hh, Bool.not_true, entryBefore, hg]
      by_cases hc : p.carrera = "desconocido" ∧ lookupCarrera rt idx h ≠ "desconocido"
      · simp only [if_pos hc]
        exact ⟨mapGet_mapSet_self _ _ _, fun v => mapSet_mapSet _ _ _ _, hp⟩
      · simp only [if_neg hc]
        exact ⟨by simpa using hg, fun v => by simp, hp⟩
  obtain ⟨st1, hst1, hget1, hset1, hsub⟩ := key1
  obtain ⟨subjects1, subj, cell, hs1, hgs, hcell, hfin⟩ :=
    addHours64_eq semestres (recordNom h) (recordIdx rt semestres h)
      (recordHt rt h, recordHp rt h) _ n hn hi hsub
  unfold formatStep64
  simp only []
  rw [← hst1, hget1]
  simp only []
  rw [← hs1, hgs]
  simp only []
  rw [hcell]
  simp only []
  rw [hset1, hfin]
  rfl

theorem getD_mem_or_default {α : Type} (l : List α) (i : Nat) (d : α) :
    l.getD i d = d ∨ l.getD i d ∈ l := by
  rw [List.getD_eq_getElem?_getD]
  by_cases h : i < l.length
  · right
    rw [List.getElem?_eq_getElem h]
    exact List.getElem_mem h
  · left
    rw [List.getElem?_eq_none (not_lt.1 h)]
    rfl

/-- The slots of the bucket a record is added to are zero or slots of the
holder's buckets in the map. -/
theorem bucketBefore_cells (semestres : List String) (c : String)
    (st : List (String × ProfEntry)) (h : Horario) (nom : String) (x : Int × Int)
    (hx : x ∈ (bucketBefore semestres nom (entryBefore c st h).subjects).parcial) :
    x = (0, 0) ∨ ∃ e ∈ st, ∃ s ∈ e.2.subjects, x ∈ s.2.parcial := by
  rw [entryBefore_subjects] at hx
  unfold bucketBefore at hx
  cases hg : mapGet st (holderKey h) with
  | none =>
    rw [hg] at hx
    simp only [Option.map_none', Option.getD_none, mapGet_nil, List.mem_map] at hx
    obtain ⟨_, _, rfl⟩ := hx
    exact Or.inl rfl
  | some p =>
    rw [hg] at hx
    simp only [Option.map_some', Option.getD_some] at hx
    cases hb : mapGet p.subjects nom with
    | none =>
      rw [hb] at hx
      simp only [Option.getD_none, List.mem_map] at hx
      obtain ⟨_, _, rfl⟩ := hx
      exact Or.inl rfl
    | some b =>
      rw [hb] at hx
      simp only [Option.getD_some] at hx
      exact Or.inr ⟨_, mem_of_mapGet st _ p hg, _, mem_of_mapGet p.subjects nom b hb, hx⟩

theorem entryBefore_cells (c : String) (st : List (String × ProfEntry)) (h : Horario)
    (s : String × Subject) (hs : s ∈ (entryBefore c st h).subjects) :
    ∃ e ∈ st, s ∈ e.2.subjects := by
  rw [entryBefore_subjects] at hs
  cases hg : mapGet st (holderKey h) with
  | none =>
    rw [hg] at hs
    simp at hs
  | some p =>
    rw [hg] at hs
    simp only [Option.map_some', Option.getD_some] at hs
    exact ⟨_, mem_of_mapGet st _ p hg, hs⟩

/-- The slot a record is added to is within the bounds of the map. -/
theorem slot_bounded (rt : JSRuntime) (idx : CarreraIndex) (semestres : List String)
    (st : List (String × ProfEntry)) (h : Horario) (a b : Int) (ha : 0 ≤ a) (hb : 0 ≤ b)
    (hbd : CellsBounded a b st) :
    |((bucketBefore semestres (recordNom h)
        (entryBefore (lookupCarrera rt idx h) st h).subjects).parcial.getD
          (recordIdx rt semestres h) (0, 0)).1| ≤ a ∧
      |((bucketBefore semestres (recordNom h)
        (entryBefore (lookupCarrera rt idx h) st h).subjects).parcial.getD
          (recordIdx rt semestres h) (0, 0)).2| ≤ b := by
  rcases getD_mem_or_default (bucketBefore semestres (recordNom h)
      (entryBefore (lookupCarrera rt idx h) st h).subjects).parcial
      (recordIdx rt semestres h) (0, 0) with h0 | hmem
  · rw [h0]
    simpa using ⟨ha, hb⟩
  · rcases bucketBefore_cells semestres _ st h _ _ hmem with h0 | ⟨e, he, s, hs, hx⟩
    · rw [h0]
      simpa using ⟨ha, hb⟩
    · exact hbd e he s hs _ hx

theorem entryAfter64_eq (rt : JSRuntime) (idx : CarreraIndex) (semestres : List String)
    (st : List (String × ProfEntry)) (h : Horario) (a b : Int) (ha : 0 ≤ a) (hb : 0 ≤ b)
    (hbd : CellsBounded a b st) (h1 : a + |recordHt rt h| ≤ 2 ^ 53)
    (h2 : b + |recordHp rt h| ≤ 2 ^ 53) :
    entryAfter64 rt idx semestres st h = entryAfter rt idx semestres st h := by
  obtain ⟨hc1, hc2⟩ := slot_bounded rt idx semestres st h a b ha hb hbd
  unfold entryAfter64 entryAfter bucketAfter64 bucketAfter
  simp only []
  rw [f64add_exact _ _ (le_trans (abs_add _ _) (by linarith)),
    f64add_exact _ _ (le_trans (abs_add _ _) (by linarith))]
  rfl

theorem cellsBounded_step (rt : JSRuntime) (idx : CarreraIndex) (semestres : List String)
    (st : List (String × ProfEntry)) (h : Horario) (a b : Int) (ha : 0 ≤ a) (hb : 0 ≤ b)
    (hbd : CellsBounded a b st) :
    CellsBounded (a + |recordHt rt h|) (b + |recordHp rt h|)
      (mapSet st (holderKey h) (entryAfter rt idx semestres st h)) := by
  have hta : 0 ≤ |recordHt rt h| := abs_nonneg _
  have htb : 0 ≤ |recordHp rt h| := abs_nonneg _
  have hold : ∀ x : Int × Int, (x = (0, 0) ∨ ∃ e ∈ st, ∃ s ∈ e.2.subjects, x ∈ s.2.parcial) →
      |x.1| ≤ a + |recordHt rt h| ∧ |x.2| ≤ b + |recordHp rt h| := by
    rintro x (h0 | ⟨e, he, s, hs, hx⟩)
    · rw [h0]
      simp only [abs_zero]
      exact ⟨by linarith, by linarith⟩
    · have := hbd e he s hs x hx
      exact ⟨by linarith [this.1], by linarith [this.2]⟩
  intro e he s hs c hc
  rcases mem_mapSet _ _ _ _ he with h1 | h1
  · subst h1
    simp only [entryAfter] at hs
    rcases mem_mapSet _ _ _ _ hs with h2 | h2
    · subst h2
      simp only [bucketAfter] at hc
      rcases List.mem_or_eq_of_mem_set hc with h3 | h3
      · exact hold c (bucketBefore_cells semestres _ st h _ c h3)
      · obtain ⟨hc1, hc2⟩ := slot_bounded rt idx semestres st h a b ha hb hbd
        rw [h3]
        constructor
        · exact le_trans (abs_add _ _) (by linarith)
        · exact le_trans (abs_add _ _) (by linarith)
    · obtain ⟨e0, he0, hs0⟩ := entryBefore_cells _ st h s h2.1
      exact hold c (Or.inr ⟨e0, he0, s, hs0, hc⟩)
  · exact hold c (Or.inr ⟨e, h1.1, s, hs, hc⟩)

/-- While the hours accumulated so far and still to come stay within `2 ^ 53`
in absolute value, the loop with binary64 additions is the loop with exact
additions. -/
theorem formatLoop64_eq (rt : JSRuntime) (idx : CarreraIndex) (semestres : List String)
    (n : Nat) (hn : semestres.length = n) (hpos : 0 < n) (hs : List Horario) :
    ∀ (st : List (String × ProfEntry)) (a b : Int), MapWF n st → 0 ≤ a → 0 ≤ b →
      CellsBounded a b st →
      a + (hs.map (fun h => |recordHt rt h|)).sum ≤ 2 ^ 53 →
      b + (hs.map (fun h => |recordHp rt h|)).sum ≤ 2 ^ 53 →
      formatLoop64 rt idx semestres st hs = formatLoop rt idx semestres st hs := by
  induction hs with
  | nil => intro st a b _ _ _ _ _ _; rfl
  | cons h t ih =>
    intro st a b hwf ha hb hbd h1 h2
    rw [List.map_cons, List.sum_cons, ← add_assoc] at h1 h2
    have hta : 0 ≤ |recordHt rt h| := abs_nonneg _
    have htb : 0 ≤ |recordHp rt h| := abs_nonneg _
    have hsa : 0 ≤ (t.map (fun h => |recordHt rt h|)).sum :=
      List.sum_nonneg (fun x hx => by
        obtain ⟨_, _, rfl⟩ := List.mem_map.1 hx
        exact abs_nonneg _)
    have hsb : 0 ≤ (t.map (fun h => |recordHp rt h|)).sum :=
      List.sum_nonneg (fun x hx => by
        obtain ⟨_, _, rfl⟩ := List.mem_map.1 hx
        exact abs_nonneg _)
    rw [formatLoop_cons rt idx semestres st h t n hn hpos hwf, formatLoop64,
      formatStep64_eq rt idx semestres st h n hn hpos hwf,
      entryAfter64_eq rt idx semestres st h a b ha hb hbd (by linarith) (by linarith)]
    exact ih _ (a + |recordHt rt h|) (b + |recordHp rt h|)
      (mapWF_step rt idx semestres st h n hn hwf) (by linarith) (by linarith)
      (cellsBounded_step rt idx semestres st h a b ha hb hbd) h1 h2

theorem formatHorariosProfesores64_eq (rt : JSRuntime) (horarios : List Horario)
    (profesores : List Profesor) (semestres : List String) (hne : semestres ≠ [])
    (h1 : (horarios.map (fun h => |recordHt rt h|)).sum ≤ 2 ^ 53)
    (h2 : (horarios.map (fun h => |recordHp rt h|)).sum ≤ 2 ^ 53) :
    formatHorariosProfesores64 rt horarios profesores semestres
      = formatHorariosProfesores rt horarios profesores semestres := by
  unfold formatHorariosProfesores64 formatHorariosProfesores
  rw [formatLoop64_eq rt _ semestres _ rfl (List.length_pos.2 hne) horarios [] 0 0
    (mapWF_nil _) (le_refl 0) (le_refl 0) (fun e he => absurd he (List.not_mem_nil e))
    (by rw [zero_add]; exact h1) (by rw [zero_add]; exact h2)]

set_option maxRecDepth 100000 in
/-- C1 (as stated, refuted): two records of one holder with `2 ^ 53` and `1`
theoretical hours are aggregated into one bucket whose slot holds `2 ^ 53`,
the binary64 sum, so that the hours over the holder's slots are
9007199254740992 while the hours of the holder's records are
9007199254740993. -/
theorem formatHorariosProfesores64_rounds :
    formatHorariosProfesores64 asciiRuntime roundingHorarios [] SEM_LIST
        = some [roundingHolder] ∧
      (∀ h ∈ roundingHorarios, holderKey h = profKey roundingHolder) ∧
      (roundingHolder.subjects.map (fun s => (s.parcial.map Prod.fst).sum)).sum
        = 9007199254740992 ∧
      ((roundingHorarios.filter (fun h => holderKey h = profKey roundingHolder)).map
        (recordHt asciiRuntime)).sum = 9007199254740993 := by
  decide

/-- C1 (amended): conservation of hours within the range of exact additions.
When the absolute values of the `toInt`-coerced theoretical hours of the
records sum to at most `2 ^ 53`, and so do those of the practical hours, then
on every non-empty period list `formatHorariosProfesores`, adding in binary64,
returns a result; its holders have distinct keys, every record's key is the
key of one of them, and for each holder the sum of the theoretical hours over
all slots of all its buckets is the sum of the theoretical hours of the
records with that holder's key; the same holds for the practical hours. -/
theorem formatHorariosProfesores64_conservation (rt : JSRuntime) (horarios : List Horario)
    (profesores : List Profesor) (semestres : List String) (hne : semestres ≠ [])
    (h1 : (horarios.map (fun h => |recordHt rt h|)).sum ≤ 2 ^ 53)
    (h2 : (horarios.map (fun h => |recordHp rt h|)).sum ≤ 2 ^ 53) :
    ∃ out, formatHorariosProfesores64 rt horarios profesores semestres = some out ∧
      (out.map profKey).Nodup ∧
      (∀ h ∈ horarios, ∃ p ∈ out, profKey p = holderKey h) ∧
      ∀ p ∈ out,
        (p.subjects.map (fun s => (s.parcial.map Prod.fst).sum)).sum
            = ((horarios.filter (fun h => holderKey h = profKey p)).map (recordHt rt)).sum ∧
          (p.subjects.map (fun s => (s.parcial.map Prod.snd).sum)).sum
            = ((horarios.filter (fun h => holderKey h = profKey p)).map (recordHp rt)).sum := by
  rw [formatHorariosProfesores64_eq rt horarios profesores semestres hne h1 h2]
  exact formatHorariosProfesores_exact_conservation rt horarios profesores semestres hne

set_option maxRecDepth 100000 in
theorem formatHorariosProfesores64_conservation_witness :
    examplePeriods ≠ [] ∧
      (exampleHorarios.map (fun h => |recordHt asciiRuntime h|)).sum ≤ 2 ^ 53 ∧
      (exampleHorarios.map (fun h => |recordHp asciiRuntime h|)).sum ≤ 2 ^ 53 ∧
      ∃ out, formatHorariosProfesores64 asciiRuntime exampleHorarios [] examplePeriods
          = some out ∧
        (out.map profKey).Nodup ∧
        (∀ h ∈ exampleHorarios, ∃ p ∈ out, profKey p = holderKey h) ∧
        ∀ p ∈ out,
          (p.subjects.map (fun s => (s.parcial.map Prod.fst).sum)).sum
              = ((exampleHorarios.filter (fun h => holderKey h = profKey p)).map
                  (recordHt asciiRuntime)).sum ∧
            (p.subjects.map (fun s => (s.parcial.map Prod.snd).sum)).sum
              = ((exampleHorarios.filter (fun h => holderKey h = profKey p)).map
                  (recordHp asciiRuntime)).sum :=
  ⟨by decide, by decide, by decide,
    formatHorariosProfesores64_conservation asciiRuntime exampleHorarios [] examplePeriods
      (by decide) (by decide) (by decide)⟩

end Binary64

end Chronos
